import Mathlib

/-!
Verification of the maze/hazard search core (`Algorithm.py`, `MapGenerator.py`).

The Python code is shallowly embedded: grids are lists of lists of characters,
positions are integer pairs `(x, y)`, hazard ("fire") arrival times live in
`ℕ∞` (the float `INF` becomes `⊤`), and the `heapq` priority queue becomes a
list with minimum extraction under the exact order of the pushed keys.
Priority keys `g + heuristic` are represented exactly as `a + √s` with
`a s : ℕ` (covering the manhattan, euclidean and zero heuristics), with a
decidable comparison proved equal to the real-number order, so every embedded
function is executable.
-/

namespace MazeAlg

/-- A position `(x, y)`, as in the Python source (integer tuple). -/
abbrev Pos := ℤ × ℤ

/-- A maze grid: a list of rows of characters. -/
abbrev Grid := List (List Char)

/-- `len(grid)`. -/
def rowsOf (g : Grid) : ℕ := g.length

/-- `len(grid[0])`. -/
def colsOf (g : Grid) : ℕ := (g.headD []).length

/-- `grid[y][x]`.  Out-of-range reads default to `'#'`; in the algorithms this
lookup only happens behind the `in_bounds` guard, where it agrees with the
Python indexing on rectangular grids. -/
def cellAt (g : Grid) (p : Pos) : Char :=
  (g.getD p.2.toNat []).getD p.1.toNat '#'

/-- The `in_bounds(x, y)` check: `0 <= x < cols and 0 <= y < rows`. -/
def inB (rows cols : ℕ) (p : Pos) : Bool :=
  decide (0 ≤ p.1) && decide (p.1 < (cols : ℤ)) &&
  decide (0 ≤ p.2) && decide (p.2 < (rows : ℤ))

/-- The grid is a `rows × cols` rectangle (the data-model invariant: every row
has identical length). -/
def Rect (g : Grid) (rows cols : ℕ) : Prop :=
  g.length = rows ∧ ∀ r ∈ g, r.length = cols

instance (g : Grid) (rows cols : ℕ) : Decidable (Rect g rows cols) := by
  unfold Rect; infer_instance

/-- A hazard ("fire") arrival-time matrix; `⊤` is the `INF` sentinel. -/
abbrev FireMat := List (List ℕ∞)

/-- `fire_time[y][x]`, defaulting to `⊤` out of range. -/
def fireAt (m : FireMat) (p : Pos) : ℕ∞ :=
  (m.getD p.2.toNat []).getD p.1.toNat ⊤

/-- `fire_time[y][x] = v` (in-place matrix write; no-op out of range). -/
def setM (m : FireMat) (p : Pos) (v : ℕ∞) : FireMat :=
  m.set p.2.toNat ((m.getD p.2.toNat []).set p.1.toNat v)

/-- The neighbour offsets `[(0, 1), (0, -1), (1, 0), (-1, 0)]`. -/
def stepdirs : List (ℤ × ℤ) := [(0, 1), (0, -1), (1, 0), (-1, 0)]

/-! ### Exact representation of priority values

Every priority pushed on the heap is `g + h` where `h` is a heuristic value:
an integer (manhattan, zero) or `math.hypot dx dy = √(dx² + dy²)` (euclidean).
All of these are of the form `a + √s` with `a s : ℕ`.  Comparisons are done
exactly (the Python floats are idealised as real numbers). -/

/-- A value `base + √sq`. -/
structure SVal where
  base : ℕ
  sq : ℕ
deriving DecidableEq

/-- Decide `a + √s ≤ b + √t` over the naturals. -/
def sqrtLeB (a s b t : ℕ) : Bool :=
  if a ≤ b then
    let d := b - a
    if s ≤ d ^ 2 + t then true
    else decide ((s - (d ^ 2 + t)) ^ 2 ≤ 4 * d ^ 2 * t)
  else
    let d := a - b
    decide (d ^ 2 + s ≤ t) && decide (4 * d ^ 2 * s ≤ (t - (d ^ 2 + s)) ^ 2)

/-- `u ≤ v` as real numbers. -/
def SVal.leB (u v : SVal) : Bool := sqrtLeB u.base u.sq v.base v.sq

/-- The real value represented by an `SVal`. -/
noncomputable def SVal.val (u : SVal) : ℝ := u.base + Real.sqrt u.sq

/-- Add a natural number (a `g`-cost) to a heuristic value. -/
def SVal.addN (u : SVal) (n : ℕ) : SVal := ⟨u.base + n, u.sq⟩

/-- Lexicographic order on positions, used by Python when comparing the tuples
`(f, (x, y))` with equal `f`. -/
def posLtB (p q : Pos) : Bool :=
  decide (p.1 < q.1) || (decide (p.1 = q.1) && decide (p.2 < q.2))

/-- Heap entry order: by `f` value, ties broken by position (Python tuple
comparison; entries with fully equal keys may come in either order, which the
algorithm cannot observe). -/
def entryLe (e f : SVal × Pos) : Bool :=
  if e.1.leB f.1 then
    if f.1.leB e.1 then decide (e.2 = f.2) || posLtB e.2 f.2
    else true
  else false

/-- Select a minimal entry (w.r.t. `entryLe`) from `e :: l`, returning it and
the remaining entries. -/
def selectMin (e : SVal × Pos) : List (SVal × Pos) → (SVal × Pos) × List (SVal × Pos)
  | [] => (e, [])
  | f :: rest =>
    if entryLe e f then
      let p := selectMin e rest
      (p.1, f :: p.2)
    else
      let p := selectMin f rest
      (p.1, e :: p.2)

/-- `heapq.heappop`: remove a minimal entry. -/
def popMin : List (SVal × Pos) → Option ((SVal × Pos) × List (SVal × Pos))
  | [] => none
  | e :: rest => some (selectMin e rest)

/-- `Algorithm.heuristic(node, end, mode)`.  Unrecognized modes silently fall
back to the manhattan distance, exactly as in the source. -/
def heuristic (node endp : Pos) (mode : String) : SVal :=
  let dx := node.1 - endp.1
  let dy := node.2 - endp.2
  if mode = "manhattan" then ⟨dx.natAbs + dy.natAbs, 0⟩
  else if mode = "euclidean" then ⟨0, dx.natAbs ^ 2 + dy.natAbs ^ 2⟩
  else if mode = "zero" then ⟨0, 0⟩
  else ⟨dx.natAbs + dy.natAbs, 0⟩

/-! ### The two A* variants -/

/-- Search state: the heap, `g_cost` (`none` = key absent), `previous`
(`none` = key absent, `some none` = maps to Python `None`), the `visited` set
(as a list of distinct positions) and the `expanded_nodes` counter. -/
structure AState where
  heap : List (SVal × Pos)
  g : Pos → Option ℕ
  prev : Pos → Option (Option Pos)
  visited : List Pos
  expanded : ℕ

/-- `tentative < g_cost.get(neighbor, INF)`. -/
def ltG (t : ℕ) (o : Option ℕ) : Bool :=
  match o with
  | none => true
  | some v => decide (t < v)

/-- One neighbour relaxation of the plain A* (`a_star_no_fire` inner loop):
the neighbour is `(cur.1 + d.1, cur.2 + d.2)`, the tentative cost `cg + 1`. -/
def relaxNF (grid : Grid) (endp : Pos) (mode : String) (cur : Pos) (cg : ℕ)
    (st : AState) (d : ℤ × ℤ) : AState :=
  if inB (rowsOf grid) (colsOf grid) (cur.1 + d.1, cur.2 + d.2) then
    if cellAt grid (cur.1 + d.1, cur.2 + d.2) = '#' then st
    else
      if ltG (cg + 1) (st.g (cur.1 + d.1, cur.2 + d.2)) then
        { st with
          g := fun q =>
            if q = (cur.1 + d.1, cur.2 + d.2) then some (cg + 1) else st.g q
          prev := fun q =>
            if q = (cur.1 + d.1, cur.2 + d.2) then some (some cur) else st.prev q
          heap := st.heap ++
            [((heuristic (cur.1 + d.1, cur.2 + d.2) endp mode).addN (cg + 1),
              (cur.1 + d.1, cur.2 + d.2))] }
      else st
  else st

/-- The `while open_heap:` loop of `a_star_no_fire`, with explicit fuel.
Returns the state at the `break` (end popped as new) or when the heap
empties. -/
def loopNF (grid : Grid) (endp : Pos) (mode : String) : ℕ → AState → AState
  | 0, st => st
  | fuel + 1, st =>
    match popMin st.heap with
    | none => st
    | some (e, rest) =>
      if e.2 ∈ st.visited then loopNF grid endp mode fuel { st with heap := rest }
      else if e.2 = endp then { st with heap := rest, visited := e.2 :: st.visited }
      else
        loopNF grid endp mode fuel
          (stepdirs.foldl (relaxNF grid endp mode e.2 ((st.g e.2).getD 0))
            { st with
              heap := rest
              visited := e.2 :: st.visited
              expanded := st.expanded + 1 })

/-- Path reconstruction: follow `previous` pointers from `end` and reverse.
The `none` (absent key) case models a `KeyError` and is unreachable under the
search invariants. -/
def rebuild (prev : Pos → Option (Option Pos)) : ℕ → Pos → List Pos → List Pos
  | 0, _, acc => acc
  | fuel + 1, cur, acc =>
    match prev cur with
    | none => cur :: acc
    | some none => cur :: acc
    | some (some c) => rebuild prev fuel c (cur :: acc)

/-- Fuel that certainly outlasts the search loop (proved sufficient below). -/
def loopFuel (grid : Grid) : ℕ := 5 * (rowsOf grid * colsOf grid + 1) + 1

/-- Fuel for path reconstruction. -/
def rebFuel (grid : Grid) : ℕ := rowsOf grid * colsOf grid + 2

/-- Initial search state shared by both variants. -/
def initState (start endp : Pos) (mode : String) : AState :=
  { heap := [(heuristic start endp mode, start)]
    g := fun q => if q = start then some 0 else none
    prev := fun q => if q = start then some none else none
    visited := []
    expanded := 0 }

/-- The shared final block of both searches: `if end not in previous:
return []` else reconstruct; paired with the final expanded-node counter. -/
def finishA (grid : Grid) (fin : AState) (endp : Pos) : List Pos × ℕ :=
  match fin.prev endp with
  | none => ([], fin.expanded)
  | some _ => (rebuild fin.prev (rebFuel grid) endp [], fin.expanded)

/-- `Algorithm.a_star_no_fire(grid, start, end, mode)`: returns the path and
the final value of `self.expanded_nodes`. -/
def a_star_no_fire (grid : Grid) (start endp : Pos) (mode : String) :
    List Pos × ℕ :=
  finishA grid (loopNF grid endp mode (loopFuel grid) (initState start endp mode))
    endp

/-- One neighbour relaxation of the hazard-aware A* (`a_star_with_fire`):
additionally prunes neighbours whose hazard arrival time is `≤ t + 1`. -/
def relaxWF (grid : Grid) (endp : Pos) (fire : FireMat) (mode : String)
    (cur : Pos) (t : ℕ) (st : AState) (d : ℤ × ℤ) : AState :=
  if inB (rowsOf grid) (colsOf grid) (cur.1 + d.1, cur.2 + d.2) then
    if cellAt grid (cur.1 + d.1, cur.2 + d.2) = '#' then st
    else
      if fireAt fire (cur.1 + d.1, cur.2 + d.2) ≤ ((t + 1 : ℕ) : ℕ∞) then st
      else
        if ltG (t + 1) (st.g (cur.1 + d.1, cur.2 + d.2)) then
          { st with
            g := fun q =>
              if q = (cur.1 + d.1, cur.2 + d.2) then some (t + 1) else st.g q
            prev := fun q =>
              if q = (cur.1 + d.1, cur.2 + d.2) then some (some cur) else st.prev q
            heap := st.heap ++
              [((heuristic (cur.1 + d.1, cur.2 + d.2) endp mode).addN (t + 1),
                (cur.1 + d.1, cur.2 + d.2))] }
        else st
  else st

/-- The `while open_heap:` loop of `a_star_with_fire`.  Note the on-pop
re-check `fire_time[y][x] <= t` sits before the `current == end` test, and a
node skipped by it still enters `visited` without touching the expanded
counter, exactly as in the source. -/
def loopWF (grid : Grid) (endp : Pos) (fire : FireMat) (mode : String) :
    ℕ → AState → AState
  | 0, st => st
  | fuel + 1, st =>
    match popMin st.heap with
    | none => st
    | some (e, rest) =>
      if e.2 ∈ st.visited then
        loopWF grid endp fire mode fuel { st with heap := rest }
      else if fireAt fire e.2 ≤ (((st.g e.2).getD 0 : ℕ) : ℕ∞) then
        loopWF grid endp fire mode fuel
          { st with heap := rest, visited := e.2 :: st.visited }
      else if e.2 = endp then
        { st with heap := rest, visited := e.2 :: st.visited }
      else
        loopWF grid endp fire mode fuel
          (stepdirs.foldl (relaxWF grid endp fire mode e.2 ((st.g e.2).getD 0))
            { st with
              heap := rest
              visited := e.2 :: st.visited
              expanded := st.expanded + 1 })

/-- `Algorithm.a_star_with_fire(grid, start, end, fire_time, mode)`.
`expanded0` is the value of `self.expanded_nodes` before the call; note that
the early `return []` happens *before* the counter reset in the source, so in
that case the old counter value survives. -/
def a_star_with_fire (grid : Grid) (start endp : Pos) (fire : FireMat)
    (mode : String) (expanded0 : ℕ) : List Pos × ℕ :=
  if fireAt fire start ≤ (0 : ℕ∞) then ([], expanded0)
  else
    finishA grid
      (loopWF grid endp fire mode (loopFuel grid) (initState start endp mode))
      endp

/-! ### `compute_fire_time` (multi-source BFS) -/

/-- BFS state: the arrival-time matrix and the FIFO queue. -/
structure BfsState where
  mat : FireMat
  q : List Pos

/-- The seed scan: all `'F'` cells in row-major order. -/
def fireSeeds (grid : Grid) : List Pos :=
  (List.range (rowsOf grid)).flatMap fun (y : ℕ) =>
    (List.range (colsOf grid)).filterMap fun (x : ℕ) =>
      if cellAt grid ((x : ℤ), (y : ℤ)) = 'F' then some ((x : ℤ), (y : ℤ)) else none

/-- One neighbour relaxation of the fire BFS: the neighbour is
`(p.1 + d.1, p.2 + d.2)`. -/
def bfsRelax (grid : Grid) (p : Pos) (t : ℕ∞) (st : BfsState) (d : ℤ × ℤ) :
    BfsState :=
  if inB (rowsOf grid) (colsOf grid) (p.1 + d.1, p.2 + d.2) then
    if cellAt grid (p.1 + d.1, p.2 + d.2) = '#' then st
    else if t + 1 < fireAt st.mat (p.1 + d.1, p.2 + d.2) then
      { mat := setM st.mat (p.1 + d.1, p.2 + d.2) (t + 1)
        q := st.q ++ [(p.1 + d.1, p.2 + d.2)] }
    else st
  else st

/-- The `while q:` loop of `compute_fire_time`; the popped cell's current
arrival time `fire_time[y][x]` drives the relaxations. -/
def bfsLoop (grid : Grid) : ℕ → BfsState → BfsState
  | 0, st => st
  | fuel + 1, st =>
    match st.q with
    | [] => st
    | p :: rest =>
      bfsLoop grid fuel
        (stepdirs.foldl (bfsRelax grid p (fireAt st.mat p)) { st with q := rest })

/-- Fuel for the BFS loop (proved sufficient below). -/
def bfsFuel (grid : Grid) : ℕ := 3 * (rowsOf grid * colsOf grid) + 1

/-- The matrix `[[INF] * cols for _ in range(rows)]` with the seeds set to 0. -/
def fireInitMat (grid : Grid) : FireMat :=
  (fireSeeds grid).foldl (fun m p => setM m p 0)
    (List.replicate (rowsOf grid) (List.replicate (colsOf grid) (⊤ : ℕ∞)))

/-- `compute_fire_time(grid)`. -/
def compute_fire_time (grid : Grid) : FireMat :=
  (bfsLoop grid (bfsFuel grid) ⟨fireInitMat grid, fireSeeds grid⟩).mat

/-! ### `MapGenerator` -/

/-- A binary maze grid: `0` = free, `1` = wall. -/
abbrev MGrid := List (List ℕ)

/-- `self.grid[y][x]`, defaulting to `1` (wall) out of range; all reads in the
generator are guarded to be in range. -/
def mgAt (g : MGrid) (p : Pos) : ℕ := (g.getD p.2.toNat []).getD p.1.toNat 1

/-- `self.grid[y][x] = v` (no-op out of range; all writes are in range). -/
def setG (g : MGrid) (p : Pos) (v : ℕ) : MGrid :=
  g.set p.2.toNat ((g.getD p.2.toNat []).set p.1.toNat v)

/-- The carving offsets `[(0, -2), (0, 2), (-2, 0), (2, 0)]`. -/
def carveDirs : List (ℤ × ℤ) := [(0, -2), (0, 2), (-2, 0), (2, 0)]

/-- Carving state: the grid, the DFS stack (head = top) and a counter of the
`random.choice` calls made so far, used to drive the explicit random source. -/
structure GenState where
  grid : MGrid
  stack : List Pos
  ctr : ℕ

/-- The unvisited step-2 neighbours of `(x, y)` strictly inside the border,
together with the half-offsets `(dx // 2, dy // 2)` to the intervening wall. -/
def carveNbrs (w h : ℕ) (gr : MGrid) (x y : ℤ) : List (Pos × Pos) :=
  carveDirs.filterMap fun d =>
    let nx := x + d.1
    let ny := y + d.2
    if 0 < nx ∧ nx < (w : ℤ) - 1 ∧ 0 < ny ∧ ny < (h : ℤ) - 1 ∧ mgAt gr (nx, ny) = 1
    then some ((nx, ny), (d.1 / 2, d.2 / 2)) else none

/-- The `while stack:` loop of `MapGenerator.generate`.  `pick k` selects
(via `% length`) which neighbour the `k`-th `random.choice` call returns;
quantifying over `pick` covers every possible run of the global RNG. -/
def carveLoop (w h : ℕ) (pick : ℕ → ℕ) : ℕ → GenState → GenState
  | 0, st => st
  | fuel + 1, st =>
    match st.stack with
    | [] => st
    | (x, y) :: _ =>
      let nbrs := carveNbrs w h st.grid x y
      if nbrs.isEmpty then
        carveLoop w h pick fuel { st with stack := st.stack.tail }
      else
        let c := nbrs.getD (pick st.ctr % nbrs.length) ((0, 0), (0, 0))
        carveLoop w h pick fuel
          { grid := setG (setG st.grid (x + c.2.1, y + c.2.2) 0) c.1 0
            stack := c.1 :: st.stack
            ctr := st.ctr + 1 }

/-- Fuel for the carving loop (proved sufficient below). -/
def carveFuel (w h : ℕ) : ℕ := 2 * (w * h) + 2

/-- The carving phase: all-walls grid, open `(1, 1)`, run the DFS. -/
def generateCore (pick : ℕ → ℕ) (w h : ℕ) : GenState :=
  carveLoop w h pick (carveFuel w h)
    { grid := setG (List.replicate h (List.replicate w 1)) (1, 1) 0
      stack := [(1, 1)]
      ctr := 0 }

/-- The grid after carving and the two forced openings `grid[1][1] = 0`,
`grid[h-2][w-2] = 0`. -/
def carvedGrid (pick : ℕ → ℕ) (w h : ℕ) : MGrid :=
  setG (setG (generateCore pick w h).grid (1, 1) 0) ((w : ℤ) - 2, (h : ℤ) - 2) 0

/-- `grid[y-1][x] == 0` etc.: the number of open 4-neighbours of `(x, y)`. -/
def openNbrs (gr : MGrid) (x y : ℤ) : ℕ :=
  (if mgAt gr (x, y - 1) = 0 then 1 else 0) +
  (if mgAt gr (x, y + 1) = 0 then 1 else 0) +
  (if mgAt gr (x - 1, y) = 0 then 1 else 0) +
  (if mgAt gr (x + 1, y) = 0 then 1 else 0)

/-- The candidate walls of `add_loops`: interior walls with at least two open
neighbours, in scan order. -/
def wallCands (w h : ℕ) (gr : MGrid) : List Pos :=
  (List.range' 1 (h - 2)).flatMap fun (y : ℕ) =>
    (List.range' 1 (w - 2)).filterMap fun (x : ℕ) =>
      if mgAt gr ((x : ℤ), (y : ℤ)) = 1 ∧ 2 ≤ openNbrs gr (x : ℤ) (y : ℤ)
      then some ((x : ℤ), (y : ℤ)) else none

/-- The removal loop of `add_loops`: `num` times, pick a candidate at random,
open it and drop it from the list (stopping early if the list empties). -/
def removeLoop (pick : ℕ → ℕ) : ℕ → ℕ → MGrid → List Pos → MGrid
  | 0, _, gr, _ => gr
  | _ + 1, _, gr, [] => gr
  | n + 1, ctr, gr, c0 :: rest =>
    let c := (c0 :: rest).getD (pick ctr % (c0 :: rest).length) (0, 0)
    removeLoop pick n (ctr + 1) (setG gr c 0) ((c0 :: rest).erase c)

/-- `MapGenerator.add_loops`, with the number of removals already computed
from the percentage. -/
def add_loops (pick : ℕ → ℕ) (ctr : ℕ) (w h : ℕ) (gr : MGrid) (num : ℕ) : MGrid :=
  removeLoop pick num ctr gr (wallCands w h gr)

/-- `MapGenerator.generate()`: carve, force the two openings, then
`add_loops(0.1)`.  `int(len(walls) * 0.1)` equals `len(walls) / 10` in `ℕ`
for every list size that can arise here. -/
def generate (pick : ℕ → ℕ) (w h : ℕ) : MGrid :=
  add_loops pick (generateCore pick w h).ctr w h (carvedGrid pick w h)
    ((wallCands w h (carvedGrid pick w h)).length / 10)

/-- The generator run with loop fraction `0` (the spec's
`generate(w, h, loopFraction = 0)`): `int(len(walls) * 0) = 0` walls are
removed. -/
def generateNoLoops (pick : ℕ → ℕ) (w h : ℕ) : MGrid :=
  add_loops pick (generateCore pick w h).ctr w h (carvedGrid pick w h) 0

/-! ### Specification-side notions: adjacency, walks, distances -/

/-- 4-adjacency of positions. -/
def Adjacent (p q : Pos) : Prop :=
  (p.1 = q.1 ∧ (q.2 = p.2 + 1 ∨ q.2 = p.2 - 1)) ∨
  (p.2 = q.2 ∧ (q.1 = p.1 + 1 ∨ q.1 = p.1 - 1))

instance (p q : Pos) : Decidable (Adjacent p q) := by
  unfold Adjacent; infer_instance

/-- A cell usable by the searches and the hazard: in bounds and not a wall. -/
def Free (grid : Grid) (p : Pos) : Prop :=
  inB (rowsOf grid) (colsOf grid) p = true ∧ cellAt grid p ≠ '#'

instance (grid : Grid) (p : Pos) : Decidable (Free grid p) := by
  unfold Free; infer_instance

/-- `WalkN grid n p q`: an `n`-step walk from `p` to `q` through free cells
(4-adjacent consecutive cells, never crossing a wall). -/
inductive WalkN (grid : Grid) : ℕ → Pos → Pos → Prop
  | refl (p : Pos) (h : Free grid p) : WalkN grid 0 p p
  | tail {n : ℕ} {p q r : Pos} (hw : WalkN grid n p q) (ha : Adjacent q r)
      (hr : Free grid r) : WalkN grid (n + 1) p r

/-- The hazard reaches `p` in `n` steps: a wall-free walk from some
hazard-source (`'F'`) cell. -/
def FireReach (grid : Grid) (n : ℕ) (p : Pos) : Prop :=
  ∃ s, cellAt grid s = 'F' ∧ WalkN grid n s p

/-- Reachability between free cells of a generated binary maze. -/
inductive MReach (gr : MGrid) : Pos → Pos → Prop
  | refl (p : Pos) (h : mgAt gr p = 0) : MReach gr p p
  | tail {p q r : Pos} (h : MReach gr p q) (ha : Adjacent q r)
      (hr : mgAt gr r = 0) : MReach gr p r

/-- All positions of a `w × h` grid, as a finite set. -/
def cellsFin (w h : ℕ) : Finset Pos :=
  (Finset.range w ×ˢ Finset.range h).image fun c => ((c.1 : ℤ), (c.2 : ℤ))

/-- The free cells of a generated maze. -/
def freeFin (gr : MGrid) (w h : ℕ) : Finset Pos :=
  (cellsFin w h).filter fun p => mgAt gr p = 0

/-- Horizontal open connections (counted at their left endpoint). -/
def hEdges (gr : MGrid) (w h : ℕ) : Finset Pos :=
  (cellsFin w h).filter fun p => mgAt gr p = 0 ∧ mgAt gr (p.1 + 1, p.2) = 0

/-- Vertical open connections (counted at their top endpoint). -/
def vEdges (gr : MGrid) (w h : ℕ) : Finset Pos :=
  (cellsFin w h).filter fun p => mgAt gr p = 0 ∧ mgAt gr (p.1, p.2 + 1) = 0

/-- The number of open connections (adjacent pairs of free cells). -/
def edgeCount (gr : MGrid) (w h : ℕ) : ℕ :=
  (hEdges gr w h).card + (vEdges gr w h).card

/-! ### Invariants used in the proofs -/

/-- A strictly interior cell of a `w × h` grid (the carving bound
`0 < x < w - 1 and 0 < y < h - 1`). -/
def Interior (w h : ℕ) (q : Pos) : Prop :=
  0 < q.1 ∧ q.1 < (w : ℤ) - 1 ∧ 0 < q.2 ∧ q.2 < (h : ℤ) - 1

/-- Every border cell of the grid is a wall. -/
def BorderWalls (w h : ℕ) (gr : MGrid) : Prop :=
  ∀ p : Pos, inB h w p = true →
    (p.1 = 0 ∨ p.1 = (w : ℤ) - 1 ∨ p.2 = 0 ∨ p.2 = (h : ℤ) - 1) → mgAt gr p = 1

/-- Carving-loop invariant for the border-wall property. -/
def CarveInv (w h : ℕ) (st : GenState) : Prop :=
  BorderWalls w h st.grid ∧ ∀ p ∈ st.stack, Interior w h p

/-- Invariant of the `g_cost`/`previous` maps maintained by both searches:
`start` has cost `0` and predecessor `None`; every other recorded position
has a recorded predecessor that is adjacent, has a strictly smaller cost, and
the position itself is in bounds and not a wall. -/
structure ChainInv (grid : Grid) (start : Pos) (g : Pos → Option ℕ)
    (prev : Pos → Option (Option Pos)) : Prop where
  gstart : g start = some 0
  pstart : prev start = some none
  pnone : ∀ p, prev p = some none → p = start
  pstep : ∀ p c, prev p = some (some c) →
    ∃ n m, g p = some n ∧ g c = some m ∧ m + 1 ≤ n ∧ Adjacent c p ∧ Free grid p
  pdom : ∀ p, (prev p).isSome → (g p).isSome
  gdom : ∀ p, (g p).isSome → (prev p).isSome

/-- Hazard-aware search only: every recorded cost is strictly below the
hazard arrival time of its cell (except possibly at `start`). -/
def FireSafeG (fire : FireMat) (start : Pos) (g : Pos → Option ℕ) : Prop :=
  ∀ p n, g p = some n → p ≠ start → (n : ℕ∞) < fireAt fire p

/-- The cell at index `k` of a reconstructed path: it has a recorded cost
`≥ k` and is `start` or a free cell. -/
def GoodAt (grid : Grid) (start : Pos) (g : Pos → Option ℕ) (k : ℕ) (p : Pos) :
    Prop :=
  ∃ m, g p = some m ∧ k ≤ m ∧ (p = start ∨ Free grid p)

/-- Invariant of the hazard-blind search loop. -/
def NFInv (grid : Grid) (start : Pos) (st : AState) : Prop :=
  ChainInv grid start st.g st.prev ∧ ∀ e ∈ st.heap, (st.g e.2).isSome

/-- Shape of the arrival-time matrix. -/
def MatShape (grid : Grid) (m : FireMat) : Prop :=
  m.length = rowsOf grid ∧ ∀ r ∈ m, r.length = colsOf grid

/-- The number of in-grid cells still at the `INF` sentinel. -/
def topCount (grid : Grid) (m : FireMat) : ℕ :=
  ((cellsFin (colsOf grid) (rowsOf grid)).filter fun p => fireAt m p = ⊤).card

/-- Termination potential of the BFS loop. -/
def bfsPot (grid : Grid) (st : BfsState) : ℕ :=
  st.q.length + 2 * topCount grid st.mat

/-- The invariant of the fire BFS between loop iterations. -/
structure BfsInv (grid : Grid) (st : BfsState) : Prop where
  mshape : MatShape grid st.mat
  fzero : ∀ p : Pos, inB (rowsOf grid) (colsOf grid) p = true →
    cellAt grid p = 'F' → fireAt st.mat p = 0
  sound : ∀ p : Pos, inB (rowsOf grid) (colsOf grid) p = true →
    ∀ v : ℕ, fireAt st.mat p = (v : ℕ∞) → FireReach grid v p
  qbound : ∀ x ∈ st.q, inB (rowsOf grid) (colsOf grid) x = true
  qfin : ∀ x ∈ st.q, fireAt st.mat x ≠ ⊤
  sorted : List.Pairwise (fun a b => fireAt st.mat a ≤ fireAt st.mat b) st.q
  window : ∀ x ∈ st.q, ∀ y ∈ st.q, fireAt st.mat x ≤ fireAt st.mat y + 1
  procLe : ∀ x : Pos, inB (rowsOf grid) (colsOf grid) x = true →
    fireAt st.mat x ≠ ⊤ → x ∉ st.q →
    ∀ y ∈ st.q, fireAt st.mat x ≤ fireAt st.mat y
  closed : ∀ x : Pos, inB (rowsOf grid) (colsOf grid) x = true →
    fireAt st.mat x ≠ ⊤ → x ∉ st.q → ∀ d ∈ stepdirs,
      inB (rowsOf grid) (colsOf grid) (x.1 + d.1, x.2 + d.2) = true →
      cellAt grid (x.1 + d.1, x.2 + d.2) ≠ '#' →
      fireAt st.mat (x.1 + d.1, x.2 + d.2) ≤ fireAt st.mat x + 1
  nodup : st.q.Nodup

/-- The invariant of the fire BFS in the middle of processing the popped cell
`p` (of value `t`), after relaxing the offsets in `done`. -/
structure BfsMid (grid : Grid) (p : Pos) (t : ℕ∞) (done : List (ℤ × ℤ))
    (st : BfsState) : Prop where
  mshape : MatShape grid st.mat
  fzero : ∀ x : Pos, inB (rowsOf grid) (colsOf grid) x = true →
    cellAt grid x = 'F' → fireAt st.mat x = 0
  sound : ∀ x : Pos, inB (rowsOf grid) (colsOf grid) x = true →
    ∀ v : ℕ, fireAt st.mat x = (v : ℕ∞) → FireReach grid v x
  qbound : ∀ x ∈ st.q, inB (rowsOf grid) (colsOf grid) x = true
  qfin : ∀ x ∈ st.q, fireAt st.mat x ≠ ⊤
  sorted : List.Pairwise (fun a b => fireAt st.mat a ≤ fireAt st.mat b) st.q
  wlo : ∀ x ∈ st.q, t ≤ fireAt st.mat x
  whi : ∀ x ∈ st.q, fireAt st.mat x ≤ t + 1
  pin : inB (rowsOf grid) (colsOf grid) p = true
  pval : fireAt st.mat p = t
  pnotq : p ∉ st.q
  oproc : ∀ x : Pos, inB (rowsOf grid) (colsOf grid) x = true →
    fireAt st.mat x ≠ ⊤ → x ∉ st.q → x ≠ p →
    fireAt st.mat x ≤ t
  oclosed : ∀ x : Pos, inB (rowsOf grid) (colsOf grid) x = true →
    fireAt st.mat x ≠ ⊤ → x ∉ st.q → x ≠ p → ∀ d ∈ stepdirs,
      inB (rowsOf grid) (colsOf grid) (x.1 + d.1, x.2 + d.2) = true →
      cellAt grid (x.1 + d.1, x.2 + d.2) ≠ '#' →
      fireAt st.mat (x.1 + d.1, x.2 + d.2) ≤ fireAt st.mat x + 1
  pdone : ∀ d ∈ done,
    inB (rowsOf grid) (colsOf grid) (p.1 + d.1, p.2 + d.2) = true →
    cellAt grid (p.1 + d.1, p.2 + d.2) ≠ '#' →
    fireAt st.mat (p.1 + d.1, p.2 + d.2) ≤ t + 1
  nodup : st.q.Nodup

/-- Invariant of the hazard-aware search loop. -/
def WFInv (grid : Grid) (fire : FireMat) (start : Pos) (st : AState) : Prop :=
  NFInv grid start st ∧ FireSafeG fire start st.g

/-- `n` is the length of a shortest wall-free walk from `start` to `p`. -/
def IsDist (grid : Grid) (start p : Pos) (n : ℕ) : Prop :=
  WalkN grid n start p ∧ ∀ m, WalkN grid m start p → n ≤ m

/-- The full optimality invariant of the hazard-blind A* loop.  `g`-costs
record actual walks of their length; visited cells are finalized with their
exact shortest distance and fully relaxed; every unvisited recorded cell owns
a heap entry whose key equals its current cost plus its heuristic; keys never
drop below the current cost plus heuristic. -/
structure C3Inv (grid : Grid) (start endp : Pos) (mode : String)
    (st : AState) : Prop where
  chain : ChainInv grid start st.g st.prev
  hg : ∀ e ∈ st.heap, (st.g e.2).isSome
  gsound : ∀ p n, st.g p = some n → WalkN grid n start p
  gbound : ∀ p n, st.g p = some n → n ≤ st.visited.length
  pexact : ∀ p c, st.prev p = some (some c) → ∃ mc, st.g c = some mc ∧
    st.g p = some (mc + 1) ∧ IsDist grid start c mc
  vexact : ∀ p ∈ st.visited, ∃ n, st.g p = some n ∧ IsDist grid start p n
  vclosed : ∀ p ∈ st.visited, ∀ n, st.g p = some n → ∀ d ∈ stepdirs,
    Free grid (p.1 + d.1, p.2 + d.2) →
    ∃ m, st.g (p.1 + d.1, p.2 + d.2) = some m ∧ m ≤ n + 1
  hfresh : ∀ q n, q ∉ st.visited → st.g q = some n →
    ∃ f, (f, q) ∈ st.heap ∧ f.val = n + (heuristic q endp mode).val
  hlb : ∀ f q, (f, q) ∈ st.heap → ∀ n, st.g q = some n →
    (n : ℝ) + (heuristic q endp mode).val ≤ f.val
  hinb : ∀ e ∈ st.heap, e.2 = start ∨ Free grid e.2
  vinb : ∀ p ∈ st.visited, p = start ∨ Free grid p
  vnodup : st.visited.Nodup
  endnv : endp ∉ st.visited

/-- The optimality invariant in the middle of expanding the freshly popped
cell `z` (of exact cost `cg`), after relaxing the offsets in `done`. -/
structure C3Mid (grid : Grid) (start endp : Pos) (mode : String) (z : Pos)
    (cg : ℕ) (done : List (ℤ × ℤ)) (st : AState) : Prop where
  chain : ChainInv grid start st.g st.prev
  hg : ∀ e ∈ st.heap, (st.g e.2).isSome
  gsound : ∀ p n, st.g p = some n → WalkN grid n start p
  gbound : ∀ p n, st.g p = some n → n ≤ st.visited.length
  pexact : ∀ p c, st.prev p = some (some c) → ∃ mc, st.g c = some mc ∧
    st.g p = some (mc + 1) ∧ IsDist grid start c mc
  vexact : ∀ p ∈ st.visited, ∃ n, st.g p = some n ∧ IsDist grid start p n
  vclosedO : ∀ p ∈ st.visited, p ≠ z → ∀ n, st.g p = some n → ∀ d ∈ stepdirs,
    Free grid (p.1 + d.1, p.2 + d.2) →
    ∃ m, st.g (p.1 + d.1, p.2 + d.2) = some m ∧ m ≤ n + 1
  zmem : z ∈ st.visited
  zg : st.g z = some cg
  zdist : IsDist grid start z cg
  zbound : cg + 1 ≤ st.visited.length
  zdone : ∀ d ∈ done, Free grid (z.1 + d.1, z.2 + d.2) →
    ∃ m, st.g (z.1 + d.1, z.2 + d.2) = some m ∧ m ≤ cg + 1
  hfresh : ∀ q n, q ∉ st.visited → st.g q = some n →
    ∃ f, (f, q) ∈ st.heap ∧ f.val = n + (heuristic q endp mode).val
  hlb : ∀ f q, (f, q) ∈ st.heap → ∀ n, st.g q = some n →
    (n : ℝ) + (heuristic q endp mode).val ≤ f.val
  hinb : ∀ e ∈ st.heap, e.2 = start ∨ Free grid e.2
  vinb : ∀ p ∈ st.visited, p = start ∨ Free grid p
  vnodup : st.visited.Nodup
  endnv : endp ∉ st.visited

/-- Termination potential of the plain A* loop: each iteration removes one
heap entry and adds at most four, but additions only happen when a new cell
enters `visited`. -/
def c3Pot (grid : Grid) (st : AState) : ℕ :=
  st.heap.length + 4 * ((rowsOf grid * colsOf grid + 1) - st.visited.length)

/-- What holds of the state in which the plain A* loop ends: the chain
invariant, exact unit chain decrements, and either `end` finalized at its
exact shortest distance or `end` unrecorded and unreachable. -/
def C3Post (grid : Grid) (start endp : Pos) (stF : AState) : Prop :=
  ChainInv grid start stF.g stF.prev ∧
  (∀ p c, stF.prev p = some (some c) → ∃ mc, stF.g c = some mc ∧
    stF.g p = some (mc + 1) ∧ IsDist grid start c mc) ∧
  ((∃ m, stF.g endp = some m ∧ IsDist grid start endp m ∧
      m ≤ rowsOf grid * colsOf grid + 1) ∨
    (stF.g endp = none ∧ ∀ k, ¬WalkN grid k start endp))

/-- A node cell of the carved maze: both coordinates odd. -/
def NodeP (p : Pos) : Prop := p.1 % 2 = 1 ∧ p.2 % 2 = 1

instance (p : Pos) : Decidable (NodeP p) := by
  unfold NodeP
  infer_instance

/-- A horizontal link cell: even column, odd row (between two nodes on the
same row). -/
def HLinkP (p : Pos) : Prop := p.1 % 2 = 0 ∧ p.2 % 2 = 1

instance (p : Pos) : Decidable (HLinkP p) := by
  unfold HLinkP
  infer_instance

/-- A vertical link cell: odd column, even row. -/
def VLinkP (p : Pos) : Prop := p.1 % 2 = 1 ∧ p.2 % 2 = 0

instance (p : Pos) : Decidable (VLinkP p) := by
  unfold VLinkP
  infer_instance

/-- The node cells of a `w × h` maze. -/
def nodesFin (w h : ℕ) : Finset Pos :=
  (cellsFin w h).filter fun p => NodeP p

/-- The link cells of a `w × h` maze. -/
def linksFin (w h : ℕ) : Finset Pos :=
  (cellsFin w h).filter fun p => HLinkP p ∨ VLinkP p

/-- Shape of the generator grid: `h` rows of `w` cells. -/
def MGridShape (w h : ℕ) (g : MGrid) : Prop :=
  g.length = h ∧ ∀ r ∈ g, r.length = w

/-- The full invariant of the depth-first carving loop.  Open cells are
strictly interior and are either nodes or links whose two flanking nodes are
open; everything open is reachable from `(1, 1)`; the stack holds distinct
open nodes; every open node off the stack is fully explored; and the open
nodes always outnumber the open links by exactly one. -/
structure CarveTreeInv (w h : ℕ) (st : GenState) : Prop where
  shape : MGridShape w h st.grid
  binary : ∀ p, mgAt st.grid p = 0 ∨ mgAt st.grid p = 1
  startOpen : mgAt st.grid (1, 1) = 0
  openShape : ∀ p : Pos, mgAt st.grid p = 0 → Interior w h p ∧
    (NodeP p ∨
      (HLinkP p ∧ mgAt st.grid (p.1 - 1, p.2) = 0 ∧
        mgAt st.grid (p.1 + 1, p.2) = 0) ∨
      (VLinkP p ∧ mgAt st.grid (p.1, p.2 - 1) = 0 ∧
        mgAt st.grid (p.1, p.2 + 1) = 0))
  conn : ∀ p : Pos, mgAt st.grid p = 0 → MReach st.grid (1, 1) p
  stackOpen : ∀ p ∈ st.stack, NodeP p ∧ mgAt st.grid p = 0
  stackNodup : st.stack.Nodup
  explored : ∀ p : Pos, NodeP p → mgAt st.grid p = 0 → p ∉ st.stack →
    ∀ d ∈ carveDirs, 0 < p.1 + d.1 → p.1 + d.1 < (w : ℤ) - 1 →
      0 < p.2 + d.2 → p.2 + d.2 < (h : ℤ) - 1 →
      mgAt st.grid (p.1 + d.1, p.2 + d.2) = 0
  count : ((nodesFin w h).filter fun p => mgAt st.grid p = 0).card =
    ((linksFin w h).filter fun p => mgAt st.grid p = 0).card + 1

/-- Structure of the open cells of a carved maze: interior, and either a
node or a link whose two flanking nodes are open. -/
def TreeShape (w h : ℕ) (gr : MGrid) : Prop :=
  ∀ p : Pos, mgAt gr p = 0 → Interior w h p ∧
    (NodeP p ∨
      (HLinkP p ∧ mgAt gr (p.1 - 1, p.2) = 0 ∧ mgAt gr (p.1 + 1, p.2) = 0) ∨
      (VLinkP p ∧ mgAt gr (p.1, p.2 - 1) = 0 ∧ mgAt gr (p.1, p.2 + 1) = 0))

/-- Termination potential of the carving loop. -/
def carvePot (w h : ℕ) (st : GenState) : ℕ :=
  st.stack.length +
    2 * ((nodesFin w h).filter fun p => mgAt st.grid p ≠ 0).card

/-! ## Proofs -/

/-! ### Matrix read/write lemmas -/

/-- Reading a 2-dimensional list after an in-place write. -/
theorem matGet_matSet {α : Type} (g : List (List α)) (yq xq : ℕ) (v d : α)
    (yp xp : ℕ) :
    ((g.set yq ((g.getD yq []).set xq v)).getD yp []).getD xp d =
      if yp = yq ∧ xp = xq ∧ yq < g.length ∧ xq < (g.getD yq []).length then v
      else (g.getD yp []).getD xp d := by
  simp only [List.getD_eq_getElem?_getD, List.getElem?_set]
  by_cases hy : yq = yp
  · subst hy
    by_cases hl : yq < g.length
    · have hrow : g[yq]?.getD [] = g[yq] := by
        simp [List.getElem?_eq_getElem hl]
      simp only [if_pos rfl, if_pos hl, Option.getD_some, List.getElem?_set, hrow]
      by_cases hx : xq = xp
      · subst hx
        by_cases hxl : xq < g[yq].length
        · simp [hl, hxl, List.getElem?_eq_getElem hxl]
        · have hnone : g[yq][xq]? = none := List.getElem?_eq_none (Nat.le_of_not_lt hxl)
          simp [hxl, hnone, List.getElem?_set_self']
      · simp [Ne.symm hx, hx]
    · simp only [if_pos rfl, if_neg hl]
      rw [List.getElem?_eq_none (Nat.le_of_not_lt hl)]
      simp [hl]
  · simp [Ne.symm hy, hy]

/-- `mgAt` after `setG`. -/
theorem mgAt_setG (g : MGrid) (q : Pos) (v : ℕ) (p : Pos) :
    mgAt (setG g q v) p =
      if p.2.toNat = q.2.toNat ∧ p.1.toNat = q.1.toNat ∧
         q.2.toNat < g.length ∧ q.1.toNat < (g.getD q.2.toNat []).length
      then v else mgAt g p :=
  matGet_matSet g q.2.toNat q.1.toNat v 1 p.2.toNat p.1.toNat

/-- `fireAt` after `setM`. -/
theorem fireAt_setM (m : FireMat) (q : Pos) (v : ℕ∞) (p : Pos) :
    fireAt (setM m q v) p =
      if p.2.toNat = q.2.toNat ∧ p.1.toNat = q.1.toNat ∧
         q.2.toNat < m.length ∧ q.1.toNat < (m.getD q.2.toNat []).length
      then v else fireAt m p :=
  matGet_matSet m q.2.toNat q.1.toNat v ⊤ p.2.toNat p.1.toNat

/-- Writing one cell does not change any other cell. -/
theorem mgAt_setG_ne (g : MGrid) (q : Pos) (v : ℕ) (p : Pos)
    (h : p.1.toNat ≠ q.1.toNat ∨ p.2.toNat ≠ q.2.toNat) :
    mgAt (setG g q v) p = mgAt g p := by
  rw [mgAt_setG]
  rcases h with h | h <;> simp [h]

theorem inB_iff (rows cols : ℕ) (p : Pos) :
    inB rows cols p = true ↔
      0 ≤ p.1 ∧ p.1 < (cols : ℤ) ∧ 0 ≤ p.2 ∧ p.2 < (rows : ℤ) := by
  simp [inB, and_assoc]

/-- The all-walls initial grid reads `1` everywhere. -/
theorem mgAt_replicate (w h : ℕ) (p : Pos) :
    mgAt (List.replicate h (List.replicate w 1)) p = 1 := by
  unfold mgAt
  rw [List.getD_eq_getElem?_getD (List.replicate h (List.replicate w 1)),
    List.getElem?_replicate]
  split
  · rw [Option.getD_some, List.getD_eq_getElem?_getD, List.getElem?_replicate]
    split <;> simp
  · simp

/-- `random.choice` modelled via `pick`: the chosen element is in the list. -/
theorem getD_mod_mem {α : Type} (l : List α) (hl : l ≠ []) (k : ℕ) (d : α) :
    l.getD (k % l.length) d ∈ l := by
  have hpos : 0 < l.length := List.length_pos.2 hl
  have hlt : k % l.length < l.length := Nat.mod_lt _ hpos
  rw [List.getD_eq_getElem?_getD, List.getElem?_eq_getElem hlt, Option.getD_some]
  exact List.getElem_mem hlt

/-! ### C10 machinery: all generator writes are interior -/

/-- Unpacking membership in the carving neighbour list. -/
theorem carveNbrs_mem {w h : ℕ} {gr : MGrid} {x y : ℤ} {c : Pos × Pos}
    (hc : c ∈ carveNbrs w h gr x y) :
    ∃ d ∈ carveDirs, c.1 = (x + d.1, y + d.2) ∧ c.2 = (d.1 / 2, d.2 / 2) ∧
      0 < x + d.1 ∧ x + d.1 < (w : ℤ) - 1 ∧ 0 < y + d.2 ∧ y + d.2 < (h : ℤ) - 1 ∧
      mgAt gr (x + d.1, y + d.2) = 1 := by
  unfold carveNbrs at hc
  rw [List.mem_filterMap] at hc
  obtain ⟨d, hd, hopt⟩ := hc
  simp only at hopt
  split_ifs at hopt with hcond
  obtain ⟨h1, h2, h3, h4, h5⟩ := hcond
  cases hopt
  exact ⟨d, hd, rfl, rfl, h1, h2, h3, h4, h5⟩

/-- Preservation of the border-wall property by an interior write. -/
theorem borderWalls_setG {w h : ℕ} {gr : MGrid} {q : Pos} {v : ℕ}
    (hq : Interior w h q) (hb : BorderWalls w h gr) :
    BorderWalls w h (setG gr q v) := by
  intro p hp hbp
  obtain ⟨hp1, hp2, hp3, hp4⟩ := (inB_iff h w p).1 hp
  obtain ⟨hq1, hq2, hq3, hq4⟩ := hq
  have hne : p.1.toNat ≠ q.1.toNat ∨ p.2.toNat ≠ q.2.toNat := by
    rcases hbp with h1 | h1 | h1 | h1
    · left; omega
    · left; omega
    · right; omega
    · right; omega
  rw [mgAt_setG_ne gr q v p hne]
  exact hb p hp hbp

/-- The carving loop preserves the border-wall / interior-stack invariant. -/
theorem carveInv_preserved (w h : ℕ) (pick : ℕ → ℕ) :
    ∀ (fuel : ℕ) (st : GenState), CarveInv w h st →
      CarveInv w h (carveLoop w h pick fuel st)
  | 0, st, hinv => hinv
  | fuel + 1, st, hinv => by
    obtain ⟨hb, hs⟩ := hinv
    rw [carveLoop]
    cases hst : st.stack with
    | nil => exact ⟨hb, fun p hp => hs p hp⟩
    | cons hd0 rest =>
      obtain ⟨x, y⟩ := hd0
      simp only
      split_ifs with hemp
      · refine carveInv_preserved w h pick fuel _ ⟨hb, fun p hp => hs p ?_⟩
        rw [hst]
        exact List.tail_subset _ hp
      · have hne : carveNbrs w h st.grid x y ≠ [] := by
          intro hcon
          rw [hcon] at hemp
          exact hemp rfl
        have hmem := getD_mod_mem _ hne (pick st.ctr) ((0, 0), (0, 0))
        obtain ⟨d, hd, hc1, hc2, h1, h2, h3, h4, _⟩ := carveNbrs_mem hmem
        have hhead : Interior w h (x, y) := hs (x, y) (hst ▸ List.mem_cons_self _ _)
        obtain ⟨hx1, hx2, hy1, hy2⟩ := hhead
        have hmid : Interior w h
            (x + ((carveNbrs w h st.grid x y).getD
              (pick st.ctr % (carveNbrs w h st.grid x y).length) ((0, 0), (0, 0))).2.1,
             y + ((carveNbrs w h st.grid x y).getD
              (pick st.ctr % (carveNbrs w h st.grid x y).length) ((0, 0), (0, 0))).2.2) := by
          rw [hc2]
          simp [carveDirs] at hd
          rcases hd with rfl | rfl | rfl | rfl <;>
            (refine ⟨?_, ?_, ?_, ?_⟩ <;> simp_all <;> omega)
        have htgt : Interior w h
            ((carveNbrs w h st.grid x y).getD
              (pick st.ctr % (carveNbrs w h st.grid x y).length) ((0, 0), (0, 0))).1 := by
          rw [hc1]; exact ⟨h1, h2, h3, h4⟩
        refine carveInv_preserved w h pick fuel _ ⟨?_, ?_⟩
        · exact borderWalls_setG htgt (borderWalls_setG hmid hb)
        · intro p hp
          rcases List.mem_cons.1 hp with rfl | hp
          · exact htgt
          · exact hs p (hst ▸ hp)

/-- Candidate walls of `add_loops` are interior cells. -/
theorem wallCands_interior {w h : ℕ} {gr : MGrid} {p : Pos}
    (hp : p ∈ wallCands w h gr) : Interior w h p := by
  unfold wallCands at hp
  rw [List.mem_flatMap] at hp
  obtain ⟨y, hy, hp⟩ := hp
  rw [List.mem_filterMap] at hp
  obtain ⟨x, hx, hopt⟩ := hp
  rw [List.mem_range'_1] at hy hx
  split_ifs at hopt
  cases hopt
  exact ⟨by omega, by omega, by omega, by omega⟩

/-- The removal loop of `add_loops` preserves the border walls. -/
theorem borderWalls_removeLoop (w h : ℕ) (pick : ℕ → ℕ) :
    ∀ (n ctr : ℕ) (gr : MGrid) (walls : List Pos),
      BorderWalls w h gr → (∀ p ∈ walls, Interior w h p) →
      BorderWalls w h (removeLoop pick n ctr gr walls)
  | 0, _, _, _, hb, _ => hb
  | _ + 1, _, _, [], hb, _ => by rw [removeLoop]; exact hb
  | n + 1, ctr, gr, c0 :: rest, hb, hw => by
    rw [removeLoop]
    have hne : c0 :: rest ≠ [] := by simp
    have hmem := getD_mod_mem (c0 :: rest) hne (pick ctr) (0, 0)
    refine borderWalls_removeLoop w h pick n (ctr + 1) _ _ ?_ ?_
    · exact borderWalls_setG (hw _ hmem) hb
    · intro p hp
      exact hw p (List.erase_subset _ _ hp)

/-! ### C10: the outer border of every generated maze is all walls -/

/-- C10: for every `pick` (i.e. every run of the RNG) and all `w, h ≥ 3`,
every border cell of the generated maze is a wall: the carving, the two
forced openings and the loop injection write only to strictly interior
cells. -/
theorem c10_border_walls (pick : ℕ → ℕ) (w h : ℕ) (hw : 3 ≤ w) (hh : 3 ≤ h)
    (p : Pos) (hp : inB h w p = true)
    (hb : p.1 = 0 ∨ p.1 = (w : ℤ) - 1 ∨ p.2 = 0 ∨ p.2 = (h : ℤ) - 1) :
    mgAt (generate pick w h) p = 1 := by
  have hi11 : Interior w h ((1 : ℤ), (1 : ℤ)) := by
    refine ⟨by omega, by omega, by omega, by omega⟩
  have hiex : Interior w h ((w : ℤ) - 2, (h : ℤ) - 2) := by
    refine ⟨by omega, by omega, by omega, by omega⟩
  have h0 : BorderWalls w h (setG (List.replicate h (List.replicate w 1)) (1, 1) 0) :=
    borderWalls_setG hi11 (fun q _ _ => mgAt_replicate w h q)
  have h1 : CarveInv w h (generateCore pick w h) := by
    refine carveInv_preserved w h pick (carveFuel w h) _ ⟨h0, ?_⟩
    intro q hq
    rcases List.mem_singleton.1 hq with rfl
    exact hi11
  have h2 : BorderWalls w h (carvedGrid pick w h) :=
    borderWalls_setG hiex (borderWalls_setG hi11 h1.1)
  exact borderWalls_removeLoop w h pick _ _ _ _ h2
    (fun q hq => wallCands_interior hq) p hp hb

theorem c10_border_walls_witness :
    (3 ≤ 3 ∧ inB 3 3 ((0 : ℤ), (0 : ℤ)) = true) ∧
    mgAt (generate (fun _ => 0) 3 3) (0, 0) = 1 :=
  ⟨⟨by decide, by decide⟩,
    c10_border_walls (fun _ => 0) 3 3 (by decide) (by decide) (0, 0) (by decide)
      (Or.inl rfl)⟩

/-! ### C9, counterexample part -/

/-- C9, counterexample: width = height = 4 admits an interior cell, yet with
loop fraction 0 the generated grid has exactly two free cells, `(1, 1)` and
the forced opening `(2, 2)`, and zero open connections (`≠ freeCellCount − 1
= 1`): the free cells do not form a spanning tree (they are not even
connected).  No `random.choice` call is ever made for this size, so the run
is the same for every random stream. -/
theorem c9_counterexample :
    (freeFin (generateNoLoops (fun _ => 0) 4 4) 4 4).card = 2 ∧
    edgeCount (generateNoLoops (fun _ => 0) 4 4) 4 4 = 0 := by
  exact ⟨rfl, rfl⟩

/-! ### C4: unrecognized heuristic kinds -/

/-- C4, counterexample: for the unrecognized kind `"diagonal"` the heuristic
does not reject the call; it silently returns the manhattan distance
(here `|0-3| + |0-4| = 7`). -/
theorem c4_counterexample :
    heuristic (0, 0) (3, 4) "diagonal" = ⟨7, 0⟩ ∧
    heuristic (0, 0) (3, 4) "diagonal" = heuristic (0, 0) (3, 4) "manhattan" := by
  constructor <;> rfl

/-- C4, amended: for every pair of positions and every heuristic-kind argument
outside `{manhattan, euclidean, zero}`, the heuristic silently falls back to
the manhattan distance (it does not reject the call). -/
theorem c4_fallback_manhattan (a b : Pos) (mode : String)
    (h1 : mode ≠ "manhattan") (h2 : mode ≠ "euclidean") (h3 : mode ≠ "zero") :
    heuristic a b mode = heuristic a b "manhattan" := by
  simp [heuristic, h1, h2, h3]

theorem c4_fallback_manhattan_witness :
    ("diagonal" ≠ "manhattan" ∧ "diagonal" ≠ "euclidean" ∧ "diagonal" ≠ "zero") ∧
    heuristic (0, 0) (3, 4) "diagonal" = heuristic (0, 0) (3, 4) "manhattan" :=
  ⟨⟨by decide, by decide, by decide⟩,
    c4_fallback_manhattan (0, 0) (3, 4) "diagonal" (by decide) (by decide) (by decide)⟩

/-! ### C5: compromised start returns empty immediately -/

/-- C5: if the hazard map's value at the start position is `≤ 0`, the
hazard-aware search returns an empty path (no error is raised; the expanded
counter and everything else of the run is skipped). -/
theorem c5_start_compromised (grid : Grid) (start endp : Pos) (fire : FireMat)
    (mode : String) (e0 : ℕ) (h : fireAt fire start ≤ (0 : ℕ∞)) :
    (a_star_with_fire grid start endp fire mode e0).1 = [] := by
  simp [a_star_with_fire, h]

theorem c5_start_compromised_witness :
    fireAt [[(0 : ℕ∞)]] (0, 0) ≤ (0 : ℕ∞) ∧
    (a_star_with_fire [['.']] (0, 0) (0, 0) [[(0 : ℕ∞)]] "manhattan" 7).1 = [] :=
  ⟨by decide, c5_start_compromised [['.']] (0, 0) (0, 0) [[(0 : ℕ∞)]] "manhattan" 7 (by decide)⟩

/-! ### C6: the expanded-node counter is not reset by an immediately-failing
hazard-aware call -/

/-- C6: the code contradicts the claim.  On the grid `['F', '.', 'S']` the
hazard reaches the start immediately (`hazardMap[start] = 0`), and a
hazard-aware call made while the counter holds `5` (from an earlier search on
the same object) returns with the counter still at `5`, not `0`: the
`self.expanded_nodes = 0` reset sits *after* the early `return []` in
`a_star_with_fire`. -/
theorem c6_counter_not_reset :
    (a_star_with_fire [['F', '.', 'S']] (0, 0) (2, 0)
      (compute_fire_time [['F', '.', 'S']]) "manhattan" 5).2 = 5 := by
  rfl

/-! ### C8: wall cells in returned paths -/

/-- C8, counterexample: with no precondition on the start cell beyond being in
bounds, a Wall cell *can* appear in a returned path: on the 1×1 grid `['#']`
with `start = end = (0, 0)` (an in-bounds Wall cell), both searches return the
path `[(0, 0)]`, which consists of a Wall cell — neither search ever checks
the start cell itself against the grid. -/
theorem c8_counterexample :
    cellAt [['#']] (0, 0) = '#' ∧ inB 1 1 (0, 0) = true ∧
    (a_star_no_fire [['#']] (0, 0) (0, 0) "manhattan").1 = [(0, 0)] ∧
    (a_star_with_fire [['#']] (0, 0) (0, 0) (compute_fire_time [['#']])
      "manhattan" 0).1 = [(0, 0)] := by
  exact ⟨rfl, rfl, rfl, rfl⟩

/-! ### Adjacency and heap lemmas -/

theorem Adjacent.ne {p q : Pos} (h : Adjacent p q) : p ≠ q := by
  rcases h with ⟨h1, h2 | h2⟩ | ⟨h1, h2 | h2⟩ <;>
    (intro hc; subst hc; omega)

theorem adjacent_stepdir {d : ℤ × ℤ} (hd : d ∈ stepdirs) (p : Pos) :
    Adjacent p (p.1 + d.1, p.2 + d.2) := by
  simp [stepdirs] at hd
  rcases hd with rfl | rfl | rfl | rfl <;> simp [Adjacent] <;> omega

theorem selectMin_perm (e : SVal × Pos) (l : List (SVal × Pos)) :
    List.Perm ((selectMin e l).1 :: (selectMin e l).2) (e :: l) := by
  induction l generalizing e with
  | nil => simp [selectMin]
  | cons f rest ih =>
    rw [selectMin]
    split_ifs with hef
    · simp only
      have h1 : List.Perm
          ((selectMin e rest).1 :: f :: (selectMin e rest).2)
          (f :: (selectMin e rest).1 :: (selectMin e rest).2) :=
        List.Perm.swap f _ _
      exact h1.trans ((List.Perm.cons f (ih e)).trans (List.Perm.swap e f rest))
    · simp only
      have h1 : List.Perm
          ((selectMin f rest).1 :: e :: (selectMin f rest).2)
          (e :: (selectMin f rest).1 :: (selectMin f rest).2) :=
        List.Perm.swap e _ _
      exact h1.trans (List.Perm.cons e (ih f))

theorem popMin_perm {l : List (SVal × Pos)} {e : SVal × Pos}
    {rest : List (SVal × Pos)} (h : popMin l = some (e, rest)) :
    List.Perm l (e :: rest) := by
  cases l with
  | nil => cases h
  | cons f fs =>
    rw [popMin] at h
    injection h with h'
    have h1 : (selectMin f fs).1 = e := by rw [h']
    have h2 : (selectMin f fs).2 = rest := by rw [h']
    have hp := (selectMin_perm f fs).symm
    rw [h1, h2] at hp
    exact hp

theorem popMin_mem {l : List (SVal × Pos)} {e : SVal × Pos}
    {rest : List (SVal × Pos)} (h : popMin l = some (e, rest)) :
    e ∈ l ∧ ∀ f ∈ rest, f ∈ l := by
  have hp := popMin_perm h
  exact ⟨hp.mem_iff.2 (List.mem_cons_self e rest),
    fun f hf => hp.mem_iff.2 (List.mem_cons_of_mem _ hf)⟩

/-! ### Chain-invariant preservation through the search loops -/

/-- A relaxation update preserves the chain invariant. -/
theorem chainInv_update {grid : Grid} {start : Pos} {g : Pos → Option ℕ}
    {prev : Pos → Option (Option Pos)} (hc : ChainInv grid start g prev)
    {cur n : Pos} {t : ℕ} (hgc : g cur = some t) (hadj : Adjacent cur n)
    (hfree : Free grid n) (hlt : ltG (t + 1) (g n) = true) :
    ChainInv grid start (fun q => if q = n then some (t + 1) else g q)
      (fun q => if q = n then some (some cur) else prev q) := by
  have hns : n ≠ start := by
    intro hcon
    rw [hcon, hc.gstart] at hlt
    simp [ltG] at hlt
  have hnc : cur ≠ n := hadj.ne
  refine ⟨?_, ?_, ?_, ?_, ?_, ?_⟩
  · simp only [if_neg (Ne.symm hns)]
    exact hc.gstart
  · simp only [if_neg (Ne.symm hns)]
    exact hc.pstart
  · intro p hp
    by_cases hpn : p = n
    · rw [if_pos hpn] at hp
      cases hp
    · rw [if_neg hpn] at hp
      exact hc.pnone p hp
  · intro p c hp
    by_cases hpn : p = n
    · rw [if_pos hpn] at hp
      have hcc : cur = c := by
        injection hp with hp'
        injection hp'
      subst hpn
      subst hcc
      exact ⟨t + 1, t, if_pos rfl, by rw [if_neg hnc]; exact hgc, le_refl _,
        hadj, hfree⟩
    · rw [if_neg hpn] at hp
      obtain ⟨n', m, hgp, hgcc, hm, hadj', hfree'⟩ := hc.pstep p c hp
      by_cases hcn : c = n
      · subst hcn
        rw [hgcc] at hlt
        have hlt' : t + 1 < m := by simpa [ltG] using hlt
        exact ⟨n', t + 1, by rw [if_neg hpn]; exact hgp, if_pos rfl, by omega,
          hadj', hfree'⟩
      · exact ⟨n', m, by rw [if_neg hpn]; exact hgp,
          by rw [if_neg hcn]; exact hgcc, hm, hadj', hfree'⟩
  · intro p hp
    by_cases hpn : p = n
    · simp [hpn]
    · simp only [if_neg hpn] at hp ⊢
      exact hc.pdom p hp
  · intro p hp
    by_cases hpn : p = n
    · simp [hpn]
    · simp only [if_neg hpn] at hp ⊢
      exact hc.gdom p hp

/-- A relaxation update preserves fire safety of the recorded costs. -/
theorem fireSafeG_update {fire : FireMat} {start : Pos} {g : Pos → Option ℕ}
    (hs : FireSafeG fire start g) {n : Pos} {t : ℕ}
    (hf : ((t + 1 : ℕ) : ℕ∞) < fireAt fire n) :
    FireSafeG fire start (fun q => if q = n then some (t + 1) else g q) := by
  intro p m hp hps
  simp only at hp
  by_cases hpn : p = n
  · rw [if_pos hpn] at hp
    have hm : t + 1 = m := by injection hp
    rw [hpn, ← hm]
    exact hf
  · rw [if_neg hpn] at hp
    exact hs p m hp hps

/-- One hazard-aware relaxation preserves the loop invariant. -/
theorem relaxWF_inv {grid : Grid} {endp start : Pos} {fire : FireMat}
    {mode : String} {cur : Pos} {t : ℕ} {st : AState} {d : ℤ × ℤ}
    (hd : d ∈ stepdirs) (hinv : WFInv grid fire start st)
    (hcur : st.g cur = some t) :
    WFInv grid fire start (relaxWF grid endp fire mode cur t st d) ∧
      (relaxWF grid endp fire mode cur t st d).g cur = some t := by
  obtain ⟨⟨hchain, hheap⟩, hsafe⟩ := hinv
  unfold relaxWF
  split_ifs with hin hwall hfire hlt
  · exact ⟨⟨⟨hchain, hheap⟩, hsafe⟩, hcur⟩
  · exact ⟨⟨⟨hchain, hheap⟩, hsafe⟩, hcur⟩
  · have hadj : Adjacent cur (cur.1 + d.1, cur.2 + d.2) := adjacent_stepdir hd cur
    have hfree : Free grid (cur.1 + d.1, cur.2 + d.2) := ⟨hin, hwall⟩
    have hfgt : ((t + 1 : ℕ) : ℕ∞) < fireAt fire (cur.1 + d.1, cur.2 + d.2) :=
      lt_of_not_le hfire
    refine ⟨⟨⟨chainInv_update hchain hcur hadj hfree hlt, ?_⟩,
      fireSafeG_update hsafe hfgt⟩, ?_⟩
    · intro e he
      rcases List.mem_append.1 he with he | he
      · have hs := hheap e he
        by_cases hen : e.2 = (cur.1 + d.1, cur.2 + d.2)
        · simp [hen]
        · simp only [if_neg hen]
          exact hs
      · rcases List.mem_singleton.1 he with rfl
        simp
    · have hnc : cur ≠ (cur.1 + d.1, cur.2 + d.2) := hadj.ne
      simp only [if_neg hnc]
      exact hcur
  · exact ⟨⟨⟨hchain, hheap⟩, hsafe⟩, hcur⟩
  · exact ⟨⟨⟨hchain, hheap⟩, hsafe⟩, hcur⟩

/-- Folding the hazard-aware relaxation over any sublist of `stepdirs`
preserves the loop invariant. -/
theorem foldl_relaxWF_inv {grid : Grid} {endp start : Pos} {fire : FireMat}
    {mode : String} {cur : Pos} {t : ℕ} :
    ∀ (ds : List (ℤ × ℤ)), (∀ d ∈ ds, d ∈ stepdirs) →
      ∀ st : AState, WFInv grid fire start st → st.g cur = some t →
      WFInv grid fire start (ds.foldl (relaxWF grid endp fire mode cur t) st)
  | [], _, st, hinv, _ => hinv
  | d :: ds, hds, st, hinv, hcur => by
    rw [List.foldl_cons]
    exact foldl_relaxWF_inv ds (fun x hx => hds x (List.mem_cons_of_mem _ hx)) _
      (relaxWF_inv (hds d (List.mem_cons_self _ _)) hinv hcur).1
      (relaxWF_inv (hds d (List.mem_cons_self _ _)) hinv hcur).2

/-- The hazard-aware search loop preserves its invariant. -/
theorem loopWF_inv (grid : Grid) (endp start : Pos) (fire : FireMat)
    (mode : String) :
    ∀ (fuel : ℕ) (st : AState), WFInv grid fire start st →
      WFInv grid fire start (loopWF grid endp fire mode fuel st)
  | 0, _, hinv => hinv
  | fuel + 1, st, hinv => by
    rw [loopWF]
    split
    · exact hinv
    · rename_i e rest hpop
      obtain ⟨⟨hchain, hheap⟩, hsafe⟩ := hinv
      have hrest : ∀ f ∈ rest, (st.g f.2).isSome :=
        fun f hf => hheap f ((popMin_mem hpop).2 f hf)
      have hecur : (st.g e.2).isSome := hheap e (popMin_mem hpop).1
      split_ifs with hvis hfireskip hend
      · exact loopWF_inv grid endp start fire mode fuel _ ⟨⟨hchain, hrest⟩, hsafe⟩
      · exact loopWF_inv grid endp start fire mode fuel _ ⟨⟨hchain, hrest⟩, hsafe⟩
      · exact ⟨⟨hchain, hrest⟩, hsafe⟩
      · obtain ⟨tv, htv⟩ := Option.isSome_iff_exists.1 hecur
        have hg0 : (st.g e.2).getD 0 = tv := by rw [htv]; rfl
        refine loopWF_inv grid endp start fire mode fuel _ ?_
        rw [hg0]
        exact foldl_relaxWF_inv stepdirs (fun d hd => hd) _
          ⟨⟨hchain, hrest⟩, hsafe⟩ htv

/-- The initial search state satisfies the hazard-aware invariant. -/
theorem initState_WFInv (grid : Grid) (fire : FireMat) (start endp : Pos)
    (mode : String) : WFInv grid fire start (initState start endp mode) := by
  refine ⟨⟨⟨?_, ?_, ?_, ?_, ?_, ?_⟩, ?_⟩, ?_⟩
  · simp [initState]
  · simp [initState]
  · intro p hp
    by_cases hps : p = start
    · exact hps
    · simp [initState, hps] at hp
  · intro p c hp
    by_cases hps : p = start <;> simp [initState, hps] at hp
  · intro p hp
    by_cases hps : p = start
    · simp [initState, hps]
    · simp [initState, hps] at hp
  · intro p hp
    by_cases hps : p = start
    · simp [initState, hps]
    · simp [initState, hps] at hp
  · intro e he
    simp only [initState, List.mem_singleton] at he
    rw [he]
    simp [initState]
  · intro p m hp hps
    simp [initState, hps] at hp

/-! ### Path reconstruction under the chain invariant -/

theorem GoodAt.mono {grid : Grid} {start : Pos} {g : Pos → Option ℕ}
    {k j : ℕ} {p : Pos} (h : GoodAt grid start g k p) (hj : j ≤ k) :
    GoodAt grid start g j p := by
  obtain ⟨m, h1, h2, h3⟩ := h
  exact ⟨m, h1, le_trans hj h2, h3⟩

/-- Any position with a recorded cost is `start` or a free cell. -/
theorem chain_free_or_start {grid : Grid} {start : Pos} {g : Pos → Option ℕ}
    {prev : Pos → Option (Option Pos)} (hc : ChainInv grid start g prev)
    (p : Pos) (hg : (g p).isSome) : p = start ∨ Free grid p := by
  have hp := hc.gdom p hg
  cases hpv : prev p with
  | none => rw [hpv] at hp; cases hp
  | some o =>
    cases o with
    | none => exact Or.inl (hc.pnone p hpv)
    | some c =>
      obtain ⟨n, m, _, _, _, _, hfree⟩ := hc.pstep p c hpv
      exact Or.inr hfree

/-- Every cell of a reconstructed path (over any fuel and any accumulator
whose entries already satisfy the bound) has a recorded cost at least its
index, and is `start` or a free cell. -/
theorem rebuild_goodAt {grid : Grid} {start : Pos} {g : Pos → Option ℕ}
    {prev : Pos → Option (Option Pos)} (hc : ChainInv grid start g prev) :
    ∀ (fuel : ℕ) (cur : Pos) (acc : List Pos) (ncur : ℕ),
      g cur = some ncur → (cur = start ∨ Free grid cur) →
      (∀ i, i < acc.length →
        GoodAt grid start g (ncur + 1 + i) (acc.getD i start)) →
      ∀ i, i < (rebuild prev fuel cur acc).length →
        GoodAt grid start g i ((rebuild prev fuel cur acc).getD i start)
  | 0, cur, acc, ncur, hg, hfs, hacc, i, hi => by
    rw [rebuild] at hi ⊢
    exact (hacc i hi).mono (by omega)
  | fuel + 1, cur, acc, ncur, hg, hfs, hacc, i, hi => by
    rw [rebuild] at hi ⊢
    cases hp : prev cur with
    | none =>
      rw [hp] at hi
      have hi' : i < (cur :: acc).length := hi
      show GoodAt grid start g i ((cur :: acc).getD i start)
      simp only [List.length_cons] at hi'
      cases i with
      | zero => exact ⟨ncur, hg, by omega, hfs⟩
      | succ j =>
        rw [List.getD_cons_succ]
        exact (hacc j (by omega)).mono (by omega)
    | some o =>
      cases o with
      | none =>
        rw [hp] at hi
        have hi' : i < (cur :: acc).length := hi
        show GoodAt grid start g i ((cur :: acc).getD i start)
        simp only [List.length_cons] at hi'
        cases i with
        | zero => exact ⟨ncur, hg, by omega, hfs⟩
        | succ j =>
          rw [List.getD_cons_succ]
          exact (hacc j (by omega)).mono (by omega)
      | some c =>
        obtain ⟨n', m, hgp, hgc, hm, hadj, hfree⟩ := hc.pstep cur c hp
        have hn' : n' = ncur := by
          rw [hg] at hgp
          injection hgp with h'
          exact h'.symm
        subst hn'
        have hcfs : c = start ∨ Free grid c :=
          chain_free_or_start hc c (by rw [hgc]; rfl)
        rw [hp] at hi
        have hi' : i < (rebuild prev fuel c (cur :: acc)).length := hi
        have hgoal := rebuild_goodAt hc fuel c (cur :: acc) m hgc hcfs ?_ i hi'
        · exact hgoal
        · intro j hj
          cases j with
          | zero => exact ⟨n', hg, by omega, hfs⟩
          | succ k =>
            simp only [List.length_cons] at hj
            rw [List.getD_cons_succ]
            exact (hacc k (by omega)).mono (by omega)

/-! ### The same machinery for the hazard-blind loop -/

/-- One hazard-blind relaxation preserves the loop invariant. -/
theorem relaxNF_inv {grid : Grid} {endp start : Pos} {mode : String}
    {cur : Pos} {t : ℕ} {st : AState} {d : ℤ × ℤ}
    (hd : d ∈ stepdirs) (hinv : NFInv grid start st)
    (hcur : st.g cur = some t) :
    NFInv grid start (relaxNF grid endp mode cur t st d) ∧
      (relaxNF grid endp mode cur t st d).g cur = some t := by
  obtain ⟨hchain, hheap⟩ := hinv
  unfold relaxNF
  split_ifs with hin hwall hlt
  · exact ⟨⟨hchain, hheap⟩, hcur⟩
  · have hadj : Adjacent cur (cur.1 + d.1, cur.2 + d.2) := adjacent_stepdir hd cur
    have hfree : Free grid (cur.1 + d.1, cur.2 + d.2) := ⟨hin, hwall⟩
    refine ⟨⟨chainInv_update hchain hcur hadj hfree hlt, ?_⟩, ?_⟩
    · intro e he
      rcases List.mem_append.1 he with he | he
      · have hs := hheap e he
        by_cases hen : e.2 = (cur.1 + d.1, cur.2 + d.2)
        · simp [hen]
        · simp only [if_neg hen]
          exact hs
      · rcases List.mem_singleton.1 he with rfl
        simp
    · have hnc : cur ≠ (cur.1 + d.1, cur.2 + d.2) := hadj.ne
      simp only [if_neg hnc]
      exact hcur
  · exact ⟨⟨hchain, hheap⟩, hcur⟩
  · exact ⟨⟨hchain, hheap⟩, hcur⟩

theorem foldl_relaxNF_inv {grid : Grid} {endp start : Pos} {mode : String}
    {cur : Pos} {t : ℕ} :
    ∀ (ds : List (ℤ × ℤ)), (∀ d ∈ ds, d ∈ stepdirs) →
      ∀ st : AState, NFInv grid start st → st.g cur = some t →
      NFInv grid start (ds.foldl (relaxNF grid endp mode cur t) st)
  | [], _, st, hinv, _ => hinv
  | d :: ds, hds, st, hinv, hcur => by
    rw [List.foldl_cons]
    exact foldl_relaxNF_inv ds (fun x hx => hds x (List.mem_cons_of_mem _ hx)) _
      (relaxNF_inv (hds d (List.mem_cons_self _ _)) hinv hcur).1
      (relaxNF_inv (hds d (List.mem_cons_self _ _)) hinv hcur).2

/-- The hazard-blind search loop preserves its invariant. -/
theorem loopNF_inv (grid : Grid) (endp start : Pos) (mode : String) :
    ∀ (fuel : ℕ) (st : AState), NFInv grid start st →
      NFInv grid start (loopNF grid endp mode fuel st)
  | 0, _, hinv => hinv
  | fuel + 1, st, hinv => by
    rw [loopNF]
    split
    · exact hinv
    · rename_i e rest hpop
      obtain ⟨hchain, hheap⟩ := hinv
      have hrest : ∀ f ∈ rest, (st.g f.2).isSome :=
        fun f hf => hheap f ((popMin_mem hpop).2 f hf)
      have hecur : (st.g e.2).isSome := hheap e (popMin_mem hpop).1
      split_ifs with hvis hend
      · exact loopNF_inv grid endp start mode fuel _ ⟨hchain, hrest⟩
      · exact ⟨hchain, hrest⟩
      · obtain ⟨tv, htv⟩ := Option.isSome_iff_exists.1 hecur
        have hg0 : (st.g e.2).getD 0 = tv := by rw [htv]; rfl
        refine loopNF_inv grid endp start mode fuel _ ?_
        rw [hg0]
        exact foldl_relaxNF_inv stepdirs (fun d hd => hd) _ ⟨hchain, hrest⟩ htv

/-! ### C1: hazard-aware paths are safe -/

/-- C1: for every grid, start, end, hazard map and heuristic kind, every path
returned by `a_star_with_fire` is safe: the hazard arrival time of `path[i]`
is strictly greater than `i` for every index `i`. -/
theorem c1_fire_path_safety (grid : Grid) (start endp : Pos) (fire : FireMat)
    (mode : String) (e0 : ℕ) (i : ℕ)
    (hi : i < (a_star_with_fire grid start endp fire mode e0).1.length) :
    ((i : ℕ) : ℕ∞) <
      fireAt fire
        ((a_star_with_fire grid start endp fire mode e0).1.getD i start) := by
  unfold a_star_with_fire at hi ⊢
  split_ifs at hi ⊢ with hguard
  · simp at hi
  · have hinv := loopWF_inv grid endp start fire mode (loopFuel grid) _
      (initState_WFInv grid fire start endp mode)
    set fin := loopWF grid endp fire mode (loopFuel grid)
      (initState start endp mode) with hfin
    unfold finishA at hi ⊢
    obtain ⟨⟨hchain, hheap⟩, hsafe⟩ := hinv
    cases hpe : fin.prev endp with
    | none =>
      rw [hpe] at hi
      simp at hi
    | some o =>
      rw [hpe] at hi
      have hgsome : (fin.g endp).isSome := hchain.pdom endp (by rw [hpe]; rfl)
      obtain ⟨nend, hgend⟩ := Option.isSome_iff_exists.1 hgsome
      have hfs := chain_free_or_start hchain endp hgsome
      have hgood := rebuild_goodAt hchain (rebFuel grid) endp [] nend hgend hfs
        (fun j hj => absurd hj (by simp)) i hi
      obtain ⟨m, hgm, him, _⟩ := hgood
      by_cases hps : (rebuild fin.prev (rebFuel grid) endp []).getD i start = start
      · rw [hps] at hgm ⊢
        rw [hchain.gstart] at hgm
        have hm0 : 0 = m := by injection hgm
        have hi0 : i = 0 := by omega
        rw [hi0]
        simpa using lt_of_not_le hguard
      · have hlt := hsafe _ m hgm hps
        refine lt_of_le_of_lt ?_ hlt
        exact_mod_cast him

theorem c1_fire_path_safety_witness :
    1 < (a_star_with_fire [['.', 'S']] (0, 0) (1, 0)
        (compute_fire_time [['.', 'S']]) "manhattan" 0).1.length ∧
    ((1 : ℕ) : ℕ∞) <
      fireAt (compute_fire_time [['.', 'S']])
        ((a_star_with_fire [['.', 'S']] (0, 0) (1, 0)
          (compute_fire_time [['.', 'S']]) "manhattan" 0).1.getD 1 (0, 0)) :=
  ⟨by decide,
    c1_fire_path_safety [['.', 'S']] (0, 0) (1, 0)
      (compute_fire_time [['.', 'S']]) "manhattan" 0 1 (by decide)⟩

/-! ### C8, amended: no wall other than possibly the start -/

/-- C8, amended: for all grids, hazard maps and heuristic kinds, no Wall cell
other than possibly the start cell itself appears in a path returned by
either search (the start cell is the single cell neither search checks
against the grid). -/
theorem c8_no_walls_except_start (grid : Grid) (start endp : Pos)
    (fire : FireMat) (modeA modeB : String) (e0 : ℕ) (p : Pos) :
    (p ∈ (a_star_no_fire grid start endp modeA).1 → p ≠ start →
      cellAt grid p ≠ '#') ∧
    (p ∈ (a_star_with_fire grid start endp fire modeB e0).1 → p ≠ start →
      cellAt grid p ≠ '#') := by
  constructor
  · intro hmem hps
    unfold a_star_no_fire at hmem
    have hinv := loopNF_inv grid endp start modeA (loopFuel grid) _
      ((initState_WFInv grid fire start endp modeA).1)
    set fin := loopNF grid endp modeA (loopFuel grid)
      (initState start endp modeA) with hfin
    unfold finishA at hmem
    obtain ⟨hchain, hheap⟩ := hinv
    cases hpe : fin.prev endp with
    | none =>
      rw [hpe] at hmem
      simp at hmem
    | some o =>
      rw [hpe] at hmem
      obtain ⟨n, hget⟩ := List.mem_iff_get.1 hmem
      have hgsome : (fin.g endp).isSome := hchain.pdom endp (by rw [hpe]; rfl)
      obtain ⟨nend, hgend⟩ := Option.isSome_iff_exists.1 hgsome
      have hfs := chain_free_or_start hchain endp hgsome
      have hgood := rebuild_goodAt hchain (rebFuel grid) endp [] nend hgend hfs
        (fun j hj => absurd hj (by simp)) n.1 n.2
      rw [List.getD_eq_getElem _ _ n.2] at hgood
      obtain ⟨m, _, _, hfree⟩ := hgood
      have hgp : (rebuild fin.prev (rebFuel grid) endp [])[n.1] = p := hget
      rw [hgp] at hfree
      rcases hfree with h | h
      · exact absurd h hps
      · exact h.2
  · intro hmem hps
    unfold a_star_with_fire at hmem
    split_ifs at hmem with hguard
    · simp at hmem
    · have hinv := loopWF_inv grid endp start fire modeB (loopFuel grid) _
        (initState_WFInv grid fire start endp modeB)
      set fin := loopWF grid endp fire modeB (loopFuel grid)
        (initState start endp modeB) with hfin
      unfold finishA at hmem
      obtain ⟨⟨hchain, hheap⟩, hsafe⟩ := hinv
      cases hpe : fin.prev endp with
      | none =>
        rw [hpe] at hmem
        simp at hmem
      | some o =>
        rw [hpe] at hmem
        obtain ⟨n, hget⟩ := List.mem_iff_get.1 hmem
        have hgsome : (fin.g endp).isSome := hchain.pdom endp (by rw [hpe]; rfl)
        obtain ⟨nend, hgend⟩ := Option.isSome_iff_exists.1 hgsome
        have hfs := chain_free_or_start hchain endp hgsome
        have hgood := rebuild_goodAt hchain (rebFuel grid) endp [] nend hgend hfs
          (fun j hj => absurd hj (by simp)) n.1 n.2
        rw [List.getD_eq_getElem _ _ n.2] at hgood
        obtain ⟨m, _, _, hfree⟩ := hgood
        have hgp : (rebuild fin.prev (rebFuel grid) endp [])[n.1] = p := hget
        rw [hgp] at hfree
        rcases hfree with h | h
        · exact absurd h hps
        · exact h.2

theorem c8_no_walls_except_start_witness :
    ((1, 0) : Pos) ∈ (a_star_no_fire [['.', '.']] (0, 0) (1, 0) "manhattan").1 ∧
    ((1, 0) : Pos) ≠ (0, 0) ∧
    cellAt [['.', '.']] (1, 0) ≠ '#' :=
  ⟨by decide, by decide,
    (c8_no_walls_except_start [['.', '.']] (0, 0) (1, 0) [] "manhattan"
      "manhattan" 0 (1, 0)).1 (by decide) (by decide)⟩

/-! ### BFS helper lemmas -/

theorem mem_cellsFin {w h : ℕ} {p : Pos} :
    p ∈ cellsFin w h ↔ 0 ≤ p.1 ∧ p.1 < (w : ℤ) ∧ 0 ≤ p.2 ∧ p.2 < (h : ℤ) := by
  unfold cellsFin
  rw [Finset.mem_image]
  constructor
  · rintro ⟨⟨x, y⟩, hc, rfl⟩
    rw [Finset.mem_product, Finset.mem_range, Finset.mem_range] at hc
    refine ⟨by simp, ?_, by simp, ?_⟩ <;> simp <;> omega
  · rintro ⟨h1, h2, h3, h4⟩
    refine ⟨(p.1.toNat, p.2.toNat), ?_, ?_⟩
    · rw [Finset.mem_product, Finset.mem_range, Finset.mem_range]
      constructor <;> simp <;> omega
    · simp only
      rw [Int.toNat_of_nonneg h1, Int.toNat_of_nonneg h3]

theorem inB_iff_mem_cellsFin {rows cols : ℕ} {p : Pos} :
    inB rows cols p = true ↔ p ∈ cellsFin cols rows := by
  rw [mem_cellsFin, inB_iff]

/-- Writing an in-bounds cell of a well-shaped matrix: the written cell gets
the value, every other in-bounds cell is unchanged. -/
theorem fireAt_setM_inB {grid : Grid} {m : FireMat} (hsh : MatShape grid m)
    {n : Pos} (hn : inB (rowsOf grid) (colsOf grid) n = true) (v : ℕ∞) :
    fireAt (setM m n v) n = v ∧
      ∀ x : Pos, inB (rowsOf grid) (colsOf grid) x = true → x ≠ n →
        fireAt (setM m n v) x = fireAt m x := by
  obtain ⟨hn1, hn2, hn3, hn4⟩ := (inB_iff _ _ _).1 hn
  have hrow : m.getD n.2.toNat [] ∈ m := by
    have hlt : n.2.toNat < m.length := by rw [hsh.1]; omega
    rw [List.getD_eq_getElem?_getD, List.getElem?_eq_getElem hlt, Option.getD_some]
    exact List.getElem_mem hlt
  have hrlen : (m.getD n.2.toNat []).length = colsOf grid := hsh.2 _ hrow
  have hcond : n.2.toNat < m.length ∧ n.1.toNat < (m.getD n.2.toNat []).length := by
    constructor
    · rw [hsh.1]; omega
    · rw [hrlen]; omega
  constructor
  · rw [fireAt_setM]
    rw [if_pos ⟨rfl, rfl, hcond.1, hcond.2⟩]
  · intro x hx hxn
    obtain ⟨hx1, hx2, hx3, hx4⟩ := (inB_iff _ _ _).1 hx
    rw [fireAt_setM]
    rw [if_neg]
    rintro ⟨h1, h2, _⟩
    apply hxn
    have e1 : x.1 = n.1 := by omega
    have e2 : x.2 = n.2 := by omega
    exact Prod.ext e1 e2

/-- `setM` preserves the matrix shape. -/
theorem matShape_setM {grid : Grid} {m : FireMat} (hsh : MatShape grid m)
    (n : Pos) (v : ℕ∞) : MatShape grid (setM m n v) := by
  constructor
  · unfold setM
    rw [List.length_set]
    exact hsh.1
  · intro r hr
    unfold setM at hr
    rcases Nat.lt_or_ge n.2.toNat m.length with hlt | hge
    · rcases List.mem_or_eq_of_mem_set hr with hr | hr
      · exact hsh.2 r hr
      · rw [hr, List.length_set]
        apply hsh.2
        rw [List.getD_eq_getElem?_getD, List.getElem?_eq_getElem hlt,
          Option.getD_some]
        exact List.getElem_mem hlt
    · rw [List.set_eq_of_length_le hge] at hr
      exact hsh.2 r hr

/-- Decompose a 4-adjacency into one of the four offsets. -/
theorem adjacent_to_stepdir {q r : Pos} (h : Adjacent q r) :
    ∃ d ∈ stepdirs, r = (q.1 + d.1, q.2 + d.2) := by
  rcases h with ⟨h1, h2 | h2⟩ | ⟨h1, h2 | h2⟩
  · exact ⟨(0, 1), by simp [stepdirs], by
      refine Prod.ext ?_ ?_ <;> simp <;> omega⟩
  · exact ⟨(0, -1), by simp [stepdirs], by
      refine Prod.ext ?_ ?_ <;> simp <;> omega⟩
  · exact ⟨(1, 0), by simp [stepdirs], by
      refine Prod.ext ?_ ?_ <;> simp <;> omega⟩
  · exact ⟨(-1, 0), by simp [stepdirs], by
      refine Prod.ext ?_ ?_ <;> simp <;> omega⟩

theorem WalkN.free_right {grid : Grid} {n : ℕ} {p q : Pos}
    (h : WalkN grid n p q) : Free grid q := by
  cases h with
  | refl _ hp => exact hp
  | tail _ _ hr => exact hr

theorem fireReach_step {grid : Grid} {n : ℕ} {p : Pos} {d : ℤ × ℤ}
    (h : FireReach grid n p) (hd : d ∈ stepdirs)
    (hfree : Free grid (p.1 + d.1, p.2 + d.2)) :
    FireReach grid (n + 1) (p.1 + d.1, p.2 + d.2) := by
  obtain ⟨s, hs, hw⟩ := h
  exact ⟨s, hs, WalkN.tail hw (adjacent_stepdir hd p) hfree⟩

theorem mem_fireSeeds {grid : Grid} {p : Pos} :
    p ∈ fireSeeds grid ↔
      inB (rowsOf grid) (colsOf grid) p = true ∧ cellAt grid p = 'F' := by
  unfold fireSeeds
  rw [List.mem_flatMap]
  constructor
  · rintro ⟨y, hy, hp⟩
    rw [List.mem_filterMap] at hp
    obtain ⟨x, hx, hopt⟩ := hp
    rw [List.mem_range] at hy hx
    split_ifs at hopt with hF
    cases hopt
    refine ⟨?_, hF⟩
    rw [inB_iff]
    refine ⟨by simp, by simp; omega, by simp, by simp; omega⟩
  · rintro ⟨hin, hF⟩
    obtain ⟨h1, h2, h3, h4⟩ := (inB_iff _ _ _).1 hin
    have hp1 : ((p.1.toNat : ℤ), (p.2.toNat : ℤ)) = p := by
      rw [Int.toNat_of_nonneg h1, Int.toNat_of_nonneg h3]
    refine ⟨p.2.toNat, ?_, ?_⟩
    · rw [List.mem_range]; omega
    · rw [List.mem_filterMap]
      refine ⟨p.1.toNat, by rw [List.mem_range]; omega, ?_⟩
      rw [hp1, if_pos hF]

theorem nodup_fireSeeds (grid : Grid) : (fireSeeds grid).Nodup := by
  unfold fireSeeds
  rw [List.nodup_flatMap]
  constructor
  · intro y _
    refine List.Nodup.filterMap ?_ (List.nodup_range _)
    intro a a' b hb hb'
    split_ifs at hb hb'
    · have h1 : ((a : ℤ), (y : ℤ)) = b := by simpa using hb
      have h2 : ((a' : ℤ), (y : ℤ)) = b := by simpa using hb'
      have h3 : (a : ℤ) = a' := congrArg Prod.fst (h1.trans h2.symm)
      omega
    · exact absurd hb' (by simp)
    · exact absurd hb (by simp)
    · exact absurd hb (by simp)
  · rw [List.pairwise_iff_forall_sublist]
    intro y y' hsub
    have hyy : y ≠ y' := by
      have := hsub.nodup (List.nodup_range _)
      simp at this
      exact this
    intro b hb hb'
    rw [List.mem_filterMap] at hb hb'
    obtain ⟨x, _, hox⟩ := hb
    obtain ⟨x', _, hox'⟩ := hb'
    split_ifs at hox hox'
    cases hox
    cases hox'
    exact hyy (by omega)

/-- The value of the initial arrival-time matrix: `0` on the seed cells,
`INF` elsewhere (for in-bounds reads). -/
theorem fireInitMat_at (grid : Grid) (p : Pos)
    (hp : inB (rowsOf grid) (colsOf grid) p = true) :
    (fireAt (fireInitMat grid) p = 0 ∧ cellAt grid p = 'F') ∨
      (fireAt (fireInitMat grid) p = ⊤ ∧ cellAt grid p ≠ 'F') := by
  have hbase : MatShape grid
      (List.replicate (rowsOf grid) (List.replicate (colsOf grid) (⊤ : ℕ∞))) := by
    constructor
    · exact List.length_replicate _ _
    · intro r hr
      rw [List.eq_of_mem_replicate hr]
      exact List.length_replicate _ _
  have hbaseval : ∀ q : Pos,
      fireAt (List.replicate (rowsOf grid) (List.replicate (colsOf grid) (⊤ : ℕ∞))) q = ⊤ := by
    intro q
    unfold fireAt
    rw [List.getD_eq_getElem?_getD (List.replicate _ _), List.getElem?_replicate]
    split
    · rw [Option.getD_some, List.getD_eq_getElem?_getD, List.getElem?_replicate]
      split <;> simp
    · simp
  have main : ∀ (seeds : List Pos) (m : FireMat), MatShape grid m →
      (∀ s ∈ seeds, inB (rowsOf grid) (colsOf grid) s = true) →
      MatShape grid (seeds.foldl (fun acc s => setM acc s 0) m) ∧
      ∀ q : Pos, inB (rowsOf grid) (colsOf grid) q = true →
        fireAt (seeds.foldl (fun acc s => setM acc s 0) m) q =
          (if q ∈ seeds then 0 else fireAt m q) := by
    intro seeds
    induction seeds with
    | nil => intro m hm _; exact ⟨hm, fun q _ => by simp⟩
    | cons s rest ih =>
      intro m hm hsb
      have hsin : inB (rowsOf grid) (colsOf grid) s = true :=
        hsb s (List.mem_cons_self _ _)
      have hset := fireAt_setM_inB hm hsin (0 : ℕ∞)
      have hmsh := matShape_setM hm s (0 : ℕ∞)
      obtain ⟨hsh', hval⟩ := ih (setM m s 0) hmsh
        (fun x hx => hsb x (List.mem_cons_of_mem _ hx))
      refine ⟨hsh', ?_⟩
      intro q hq
      rw [List.foldl_cons, hval q hq]
      by_cases hqr : q ∈ rest
      · simp [hqr, List.mem_cons_of_mem]
      · rw [if_neg hqr]
        by_cases hqs : q = s
        · rw [hqs, if_pos (List.mem_cons_self _ _), hset.1]
        · rw [if_neg (by simp [hqs, hqr]), hset.2 q hq hqs]
  have hseeds : ∀ s ∈ fireSeeds grid, inB (rowsOf grid) (colsOf grid) s = true :=
    fun s hs => (mem_fireSeeds.1 hs).1
  obtain ⟨hsh, hval⟩ := main (fireSeeds grid) _ hbase hseeds
  unfold fireInitMat
  rw [hval p hp, hbaseval p]
  by_cases hmem : p ∈ fireSeeds grid
  · exact Or.inl ⟨if_pos hmem, (mem_fireSeeds.1 hmem).2⟩
  · refine Or.inr ⟨if_neg hmem, ?_⟩
    intro hF
    exact hmem (mem_fireSeeds.2 ⟨hp, hF⟩)

/-- ℕ∞ arithmetic helper. -/
theorem enat_succ_ne_top {t : ℕ∞} (ht : t ≠ ⊤) : t + 1 ≠ ⊤ := by
  lift t to ℕ using ht
  exact_mod_cast ENat.coe_ne_top _

/-- One BFS relaxation preserves the mid-processing invariant and does not
increase the potential. -/
theorem bfsRelax_mid {grid : Grid} {p : Pos} {t : ℕ∞} {done : List (ℤ × ℤ)}
    {st : BfsState} {d : ℤ × ℤ} (hd : d ∈ stepdirs) (ht : t ≠ ⊤)
    (hmid : BfsMid grid p t done st) :
    BfsMid grid p t (done ++ [d]) (bfsRelax grid p t st d) ∧
      bfsPot grid (bfsRelax grid p t st d) ≤ bfsPot grid st := by
  have hpdone_ext : ∀ {st' : BfsState}, BfsMid grid p t done st' →
      (inB (rowsOf grid) (colsOf grid) (p.1 + d.1, p.2 + d.2) = true →
        cellAt grid (p.1 + d.1, p.2 + d.2) ≠ '#' →
        fireAt st'.mat (p.1 + d.1, p.2 + d.2) ≤ t + 1) →
      BfsMid grid p t (done ++ [d]) st' := by
    intro st' h hnew
    refine ⟨h.mshape, h.fzero, h.sound, h.qbound, h.qfin, h.sorted, h.wlo,
      h.whi, h.pin, h.pval, h.pnotq, h.oproc, h.oclosed, ?_, h.nodup⟩
    intro d' hd' hbn hwn
    rcases List.mem_append.1 hd' with hd' | hd'
    · exact h.pdone d' hd' hbn hwn
    · rcases List.mem_singleton.1 hd' with rfl
      exact hnew hbn hwn
  unfold bfsRelax
  split_ifs with hin hwall hupd
  · exact ⟨hpdone_ext hmid (fun _ hw => absurd hwall hw), le_refl _⟩
  · -- the update branch
    have hnq : (p.1 + d.1, p.2 + d.2) ∉ st.q := by
      intro hmem
      have := hmid.whi _ hmem
      exact absurd (lt_of_lt_of_le hupd this) (lt_irrefl _)
    have hnp : (p.1 + d.1, p.2 + d.2) ≠ p := by
      intro hcon
      rw [hcon, hmid.pval] at hupd
      have : t ≤ t + 1 := le_self_add
      exact absurd (lt_of_lt_of_le hupd this) (lt_irrefl _)
    have hvaln : fireAt st.mat (p.1 + d.1, p.2 + d.2) = ⊤ := by
      by_contra hfin
      have := hmid.oproc _ hin hfin hnq hnp
      have hle : fireAt st.mat (p.1 + d.1, p.2 + d.2) ≤ t + 1 :=
        le_trans this le_self_add
      exact absurd (lt_of_lt_of_le hupd hle) (lt_irrefl _)
    have hset := fireAt_setM_inB hmid.mshape hin (t + 1)
    have hmsh' := matShape_setM hmid.mshape (p.1 + d.1, p.2 + d.2) (t + 1)
    have hqne : ∀ x ∈ st.q, x ≠ (p.1 + d.1, p.2 + d.2) := by
      intro x hx hcon
      exact hnq (hcon ▸ hx)
    have hqval : ∀ x ∈ st.q,
        fireAt (setM st.mat (p.1 + d.1, p.2 + d.2) (t + 1)) x = fireAt st.mat x :=
      fun x hx => hset.2 x (hmid.qbound x hx) (hqne x hx)
    constructor
    · refine hpdone_ext ?_ ?_
      · refine ⟨hmsh', ?_, ?_, ?_, ?_, ?_, ?_, ?_, hmid.pin, ?_, ?_, ?_, ?_, ?_,
          hmid.nodup.append (List.nodup_singleton _) ?_⟩
        · -- fzero
          intro x hx hF
          have hxn : x ≠ (p.1 + d.1, p.2 + d.2) := by
            intro hcon
            rw [← hcon] at hvaln
            rw [hmid.fzero x hx hF] at hvaln
            exact (by simp : (0 : ℕ∞) ≠ ⊤) hvaln
          rw [hset.2 x hx hxn]
          exact hmid.fzero x hx hF
        · -- sound
          intro x hx v hv
          by_cases hxn : x = (p.1 + d.1, p.2 + d.2)
          · subst hxn
            rw [hset.1] at hv
            lift t to ℕ using ht with tv htv
            have hvv : v = tv + 1 := by
              have : ((tv + 1 : ℕ) : ℕ∞) = (v : ℕ∞) := by
                rw [← hv]; push_cast; ring
              exact_mod_cast this.symm
            rw [hvv]
            exact fireReach_step (hmid.sound p hmid.pin tv hmid.pval) hd
              ⟨hin, hwall⟩
          · rw [hset.2 x hx hxn] at hv
            exact hmid.sound x hx v hv
        · -- qbound
          intro x hx
          rcases List.mem_append.1 hx with hx | hx
          · exact hmid.qbound x hx
          · rcases List.mem_singleton.1 hx with rfl
            exact hin
        · -- qfin
          intro x hx
          rcases List.mem_append.1 hx with hx | hx
          · rw [hqval x hx]
            exact hmid.qfin x hx
          · rcases List.mem_singleton.1 hx with rfl
            rw [hset.1]
            exact enat_succ_ne_top ht
        · -- sorted
          rw [List.pairwise_append]
          refine ⟨?_, List.pairwise_singleton _ _, ?_⟩
          · refine hmid.sorted.imp_of_mem ?_
            intro a b ha hb hab
            rw [hqval a ha, hqval b hb]
            exact hab
          · intro a ha b hb
            rcases List.mem_singleton.1 hb with rfl
            rw [hqval a ha, hset.1]
            exact hmid.whi a ha
        · -- wlo
          intro x hx
          rcases List.mem_append.1 hx with hx | hx
          · rw [hqval x hx]
            exact hmid.wlo x hx
          · rcases List.mem_singleton.1 hx with rfl
            rw [hset.1]
            exact le_self_add
        · -- whi
          intro x hx
          rcases List.mem_append.1 hx with hx | hx
          · rw [hqval x hx]
            exact hmid.whi x hx
          · rcases List.mem_singleton.1 hx with rfl
            rw [hset.1]
        · -- pval
          rw [hset.2 p hmid.pin (Ne.symm hnp)]
          exact hmid.pval
        · -- pnotq
          intro hmem
          rcases List.mem_append.1 hmem with hmem | hmem
          · exact hmid.pnotq hmem
          · exact hnp (List.mem_singleton.1 hmem).symm
        · -- oproc
          intro x hx hfin hxq hxp
          have hxn : x ≠ (p.1 + d.1, p.2 + d.2) := by
            intro hcon
            exact hxq (List.mem_append_right _ (hcon ▸ List.mem_singleton_self _))
          rw [hset.2 x hx hxn] at hfin ⊢
          exact hmid.oproc x hx hfin (fun hc => hxq (List.mem_append_left _ hc)) hxp
        · -- oclosed
          intro x hx hfin hxq hxp d'' hd'' htin htw
          have hxn : x ≠ (p.1 + d.1, p.2 + d.2) := by
            intro hcon
            exact hxq (List.mem_append_right _ (hcon ▸ List.mem_singleton_self _))
          rw [hset.2 x hx hxn] at hfin
          have hxq' : x ∉ st.q := fun hc => hxq (List.mem_append_left _ hc)
          have hold := hmid.oclosed x hx hfin hxq' hxp d'' hd'' htin htw
          by_cases htn : (x.1 + d''.1, x.2 + d''.2) = (p.1 + d.1, p.2 + d.2)
          · rw [htn, hvaln] at hold
            rw [top_le_iff] at hold
            exact absurd hold (enat_succ_ne_top hfin)
          · rw [hset.2 _ htin htn, hset.2 x hx hxn]
            exact hold
        · -- pdone (old offsets)
          intro d' hd' hbn hwn
          by_cases htn : (p.1 + d'.1, p.2 + d'.2) = (p.1 + d.1, p.2 + d.2)
          · rw [htn, hset.1]
          · rw [hset.2 _ hbn htn]
            exact hmid.pdone d' hd' hbn hwn
        · -- disjointness for nodup
          intro x hx hx'
          rcases List.mem_singleton.1 hx' with rfl
          exact hnq hx
      · -- the new offset: the freshly written cell is at `t + 1`
        intro _ _
        rw [hset.1]
    · -- potential does not increase
      unfold bfsPot topCount
      have hn_mem : (p.1 + d.1, p.2 + d.2) ∈
          (cellsFin (colsOf grid) (rowsOf grid)).filter
            fun q => fireAt st.mat q = ⊤ :=
        Finset.mem_filter.2 ⟨inB_iff_mem_cellsFin.1 hin, hvaln⟩
      have hfilter : (cellsFin (colsOf grid) (rowsOf grid)).filter
            (fun q => fireAt (setM st.mat (p.1 + d.1, p.2 + d.2) (t + 1)) q = ⊤) =
          ((cellsFin (colsOf grid) (rowsOf grid)).filter
            (fun q => fireAt st.mat q = ⊤)).erase (p.1 + d.1, p.2 + d.2) := by
        ext x
        rw [Finset.mem_erase, Finset.mem_filter, Finset.mem_filter]
        constructor
        · rintro ⟨hxc, hxt⟩
          have hxin : inB (rowsOf grid) (colsOf grid) x = true :=
            inB_iff_mem_cellsFin.2 hxc
          by_cases hxn : x = (p.1 + d.1, p.2 + d.2)
          · rw [hxn, hset.1] at hxt
            exact absurd hxt (enat_succ_ne_top ht)
          · refine ⟨hxn, hxc, ?_⟩
            rw [← hset.2 x hxin hxn]
            exact hxt
        · rintro ⟨hxn, hxc, hxt⟩
          refine ⟨hxc, ?_⟩
          rw [hset.2 x (inB_iff_mem_cellsFin.2 hxc) hxn]
          exact hxt
      rw [hfilter, Finset.card_erase_of_mem hn_mem, List.length_append,
        List.length_singleton]
      have hc1 : 1 ≤ ((cellsFin (colsOf grid) (rowsOf grid)).filter
          fun q => fireAt st.mat q = ⊤).card :=
        Finset.card_pos.2 ⟨_, hn_mem⟩
      omega
  · exact ⟨hpdone_ext hmid (fun _ _ => le_of_not_lt hupd), le_refl _⟩
  · exact ⟨hpdone_ext hmid (fun hb _ => absurd hb hin), le_refl _⟩

/-- Shape of the initial matrix. -/
theorem fireInitMat_shape (grid : Grid) : MatShape grid (fireInitMat grid) := by
  have hbase : MatShape grid
      (List.replicate (rowsOf grid) (List.replicate (colsOf grid) (⊤ : ℕ∞))) := by
    constructor
    · exact List.length_replicate _ _
    · intro r hr
      rw [List.eq_of_mem_replicate hr]
      exact List.length_replicate _ _
  have : ∀ (seeds : List Pos) (m : FireMat), MatShape grid m →
      MatShape grid (seeds.foldl (fun acc s => setM acc s 0) m) := by
    intro seeds
    induction seeds with
    | nil => exact fun m hm => hm
    | cons s rest ih =>
      intro m hm
      exact ih _ (matShape_setM hm s 0)
  exact this _ _ hbase

/-- Folding the relaxations over a sublist of `stepdirs`. -/
theorem foldl_bfsRelax_mid {grid : Grid} {p : Pos} {t : ℕ∞} (ht : t ≠ ⊤) :
    ∀ (ds : List (ℤ × ℤ)), (∀ d ∈ ds, d ∈ stepdirs) →
      ∀ (done : List (ℤ × ℤ)) (st : BfsState), BfsMid grid p t done st →
      BfsMid grid p t (done ++ ds) (ds.foldl (bfsRelax grid p t) st) ∧
        bfsPot grid (ds.foldl (bfsRelax grid p t) st) ≤ bfsPot grid st
  | [], _, done, st, h => by
    rw [List.foldl_nil, List.append_nil]
    exact ⟨h, le_refl _⟩
  | d :: ds, hds, done, st, h => by
    rw [List.foldl_cons]
    have h1 := bfsRelax_mid (hds d (List.mem_cons_self _ _)) ht h
    have h2 := foldl_bfsRelax_mid ht ds
      (fun x hx => hds x (List.mem_cons_of_mem _ hx)) (done ++ [d]) _ h1.1
    refine ⟨?_, le_trans h2.2 h1.2⟩
    have heq : done ++ [d] ++ ds = done ++ d :: ds := by
      rw [List.append_assoc]
      rfl
    rw [heq] at h2
    exact h2.1

/-- Popping the head of the queue yields the mid-processing invariant. -/
theorem bfsInv_pop {grid : Grid} {st : BfsState} {p : Pos} {rest : List Pos}
    (hinv : BfsInv grid st) (hq : st.q = p :: rest) :
    BfsMid grid p (fireAt st.mat p) [] ⟨st.mat, rest⟩ ∧ fireAt st.mat p ≠ ⊤ := by
  have hpq : p ∈ st.q := by rw [hq]; exact List.mem_cons_self _ _
  have ht : fireAt st.mat p ≠ ⊤ := hinv.qfin p hpq
  have hpin := hinv.qbound p hpq
  have hrest_sub : ∀ x ∈ rest, x ∈ st.q := by
    intro x hx
    rw [hq]
    exact List.mem_cons_of_mem _ hx
  have hnodup : (p :: rest).Nodup := hq ▸ hinv.nodup
  have hsorted : List.Pairwise
      (fun a b => fireAt st.mat a ≤ fireAt st.mat b) (p :: rest) :=
    hq ▸ hinv.sorted
  have hxq : ∀ x : Pos, x ∉ rest → x ≠ p → x ∉ st.q := by
    intro x hxr hxp
    rw [hq]
    intro hc
    rcases List.mem_cons.1 hc with hc | hc
    · exact hxp hc
    · exact hxr hc
  refine ⟨⟨hinv.mshape, hinv.fzero, hinv.sound,
    fun x hx => hinv.qbound x (hrest_sub x hx),
    fun x hx => hinv.qfin x (hrest_sub x hx),
    (List.pairwise_cons.1 hsorted).2,
    fun x hx => (List.pairwise_cons.1 hsorted).1 x hx,
    fun x hx => hinv.window x (hrest_sub x hx) p hpq,
    hpin, rfl, (List.nodup_cons.1 hnodup).1,
    ?_, ?_,
    fun d hd => absurd hd (List.not_mem_nil d),
    (List.nodup_cons.1 hnodup).2⟩, ht⟩
  · intro x hx hfin hxr hxp
    exact hinv.procLe x hx hfin (hxq x hxr hxp) p hpq
  · intro x hx hfin hxr hxp d hd htin htw
    exact hinv.closed x hx hfin (hxq x hxr hxp) d hd htin htw

/-- After all four offsets are processed, the loop invariant is restored. -/
theorem bfsMid_to_inv {grid : Grid} {p : Pos} {t : ℕ∞} {st : BfsState}
    (hmid : BfsMid grid p t stepdirs st) : BfsInv grid st := by
  refine ⟨hmid.mshape, hmid.fzero, hmid.sound, hmid.qbound, hmid.qfin,
    hmid.sorted, ?_, ?_, ?_, hmid.nodup⟩
  · intro x hx y hy
    exact le_trans (hmid.whi x hx) (add_le_add_right (hmid.wlo y hy) 1)
  · intro x hxin hfin hxq y hy
    by_cases hxp : x = p
    · rw [hxp, hmid.pval]
      exact hmid.wlo y hy
    · exact le_trans (hmid.oproc x hxin hfin hxq hxp) (hmid.wlo y hy)
  · intro x hxin hfin hxq d hd htin htw
    by_cases hxp : x = p
    · subst hxp
      rw [hmid.pval]
      exact hmid.pdone d hd htin htw
    · exact hmid.oclosed x hxin hfin hxq hxp d hd htin htw

/-- With enough fuel the BFS empties its queue, preserving the invariant. -/
theorem bfsLoop_runs (grid : Grid) :
    ∀ (fuel : ℕ) (st : BfsState), BfsInv grid st → bfsPot grid st < fuel →
      (bfsLoop grid fuel st).q = [] ∧ BfsInv grid (bfsLoop grid fuel st)
  | 0, _, _, hpot => absurd hpot (by omega)
  | fuel + 1, st, hinv, hpot => by
    rw [bfsLoop]
    cases hq : st.q with
    | nil => exact ⟨hq, hinv⟩
    | cons p rest =>
      obtain ⟨hmid, ht⟩ := bfsInv_pop hinv hq
      have hfold := foldl_bfsRelax_mid ht stepdirs (fun d hd => hd) [] _ hmid
      have hinv' := bfsMid_to_inv hfold.1
      have hpot1 : bfsPot grid (⟨st.mat, rest⟩ : BfsState) + 1 = bfsPot grid st := by
        unfold bfsPot
        rw [hq]
        simp only [List.length_cons]
        omega
      have hpot' : bfsPot grid
          (stepdirs.foldl (bfsRelax grid p (fireAt st.mat p)) ⟨st.mat, rest⟩) <
          fuel := by
        have h2 := hfold.2
        omega
      exact bfsLoop_runs grid fuel _ hinv' hpot'

/-- The initial BFS state satisfies the invariant. -/
theorem bfsInit_inv (grid : Grid) :
    BfsInv grid ⟨fireInitMat grid, fireSeeds grid⟩ := by
  have hchar := fireInitMat_at grid
  have hall : ∀ x ∈ fireSeeds grid, fireAt (fireInitMat grid) x = 0 := by
    intro x hx
    obtain ⟨hb, hF⟩ := mem_fireSeeds.1 hx
    rcases hchar x hb with ⟨h0, _⟩ | ⟨_, hnF⟩
    · exact h0
    · exact absurd hF hnF
  refine ⟨fireInitMat_shape grid, ?_, ?_, ?_, ?_, ?_, ?_, ?_, ?_,
    nodup_fireSeeds grid⟩
  · intro p hp hF
    rcases hchar p hp with ⟨h0, _⟩ | ⟨_, hnF⟩
    · exact h0
    · exact absurd hF hnF
  · intro p hp v hv
    rcases hchar p hp with ⟨h0, hF⟩ | ⟨htop, _⟩
    · rw [h0] at hv
      have hv0 : v = 0 := by exact_mod_cast hv.symm
      rw [hv0]
      exact ⟨p, hF, WalkN.refl p ⟨hp, by rw [hF]; decide⟩⟩
    · rw [htop] at hv
      exact absurd hv.symm (ENat.coe_ne_top v)
  · exact fun x hx => (mem_fireSeeds.1 hx).1
  · intro x hx
    rw [hall x hx]
    simp
  · rw [List.pairwise_iff_forall_sublist]
    intro a b hsub
    have hm := hsub.subset
    rw [hall a (hm (by simp)), hall b (hm (by simp))]
  · intro x hx y hy
    rw [hall x hx]
    simp
  · intro x hx hfin hxq y hy
    rcases hchar x hx with ⟨_, hF⟩ | ⟨htop, _⟩
    · exact absurd (mem_fireSeeds.2 ⟨hx, hF⟩) hxq
    · exact absurd htop hfin
  · intro x hx hfin hxq d hd htin htw
    rcases hchar x hx with ⟨_, hF⟩ | ⟨htop, _⟩
    · exact absurd (mem_fireSeeds.2 ⟨hx, hF⟩) hxq
    · exact absurd htop hfin

theorem cellsFin_card_le (w h : ℕ) : (cellsFin w h).card ≤ w * h := by
  unfold cellsFin
  refine le_trans Finset.card_image_le ?_
  rw [Finset.card_product, Finset.card_range, Finset.card_range]

/-- The initial potential fits inside the fuel. -/
theorem bfsInit_pot (grid : Grid) :
    bfsPot grid ⟨fireInitMat grid, fireSeeds grid⟩ < bfsFuel grid := by
  unfold bfsPot bfsFuel topCount
  dsimp only
  have h1 : (fireSeeds grid).length ≤ rowsOf grid * colsOf grid := by
    have hnd := nodup_fireSeeds grid
    have hsub : (fireSeeds grid).toFinset ⊆
        cellsFin (colsOf grid) (rowsOf grid) := by
      intro x hx
      rw [List.mem_toFinset] at hx
      exact inB_iff_mem_cellsFin.1 (mem_fireSeeds.1 hx).1
    have hcard := Finset.card_le_card hsub
    rw [List.toFinset_card_of_nodup hnd] at hcard
    calc (fireSeeds grid).length
        ≤ (cellsFin (colsOf grid) (rowsOf grid)).card := hcard
      _ ≤ colsOf grid * rowsOf grid := cellsFin_card_le _ _
      _ = rowsOf grid * colsOf grid := mul_comm _ _
  have h2 : ((cellsFin (colsOf grid) (rowsOf grid)).filter
      fun p => fireAt (fireInitMat grid) p = ⊤).card ≤
      rowsOf grid * colsOf grid := by
    calc ((cellsFin (colsOf grid) (rowsOf grid)).filter
        fun p => fireAt (fireInitMat grid) p = ⊤).card
        ≤ (cellsFin (colsOf grid) (rowsOf grid)).card := Finset.card_filter_le _ _
      _ ≤ colsOf grid * rowsOf grid := cellsFin_card_le _ _
      _ = rowsOf grid * colsOf grid := mul_comm _ _
  omega

/-- The matrix returned by `compute_fire_time` is the matrix of a state with
an empty queue satisfying the BFS invariant. -/
theorem compute_fire_time_final (grid : Grid) :
    ∃ st : BfsState, st.mat = compute_fire_time grid ∧ st.q = [] ∧
      BfsInv grid st := by
  obtain ⟨hq, hinv⟩ :=
    bfsLoop_runs grid (bfsFuel grid) _ (bfsInit_inv grid) (bfsInit_pot grid)
  exact ⟨_, rfl, hq, hinv⟩

theorem WalkN.free_left {grid : Grid} {n : ℕ} {p q : Pos}
    (h : WalkN grid n p q) : Free grid p := by
  induction h with
  | refl _ hp => exact hp
  | tail _ _ _ ih => exact ih

/-- At the final state, every cell reachable by an `m`-step hazard walk has
arrival time at most `m`. -/
theorem bfs_final_le {grid : Grid} {st : BfsState} (hinv : BfsInv grid st)
    (hq : st.q = []) (m : ℕ) (p : Pos) (hreach : FireReach grid m p) :
    fireAt st.mat p ≤ (m : ℕ∞) := by
  obtain ⟨s, hsF, hwalk⟩ := hreach
  induction hwalk with
  | refl x hx =>
    rw [hinv.fzero x hx.1 hsF]
    simp
  | tail hw hadj hfree ih =>
    rename_i k sv mid r
    have hmidfree := hw.free_right
    have hmidle := ih hsF
    have hmidfin : fireAt st.mat mid ≠ ⊤ :=
      ne_top_of_le_ne_top (ENat.coe_ne_top k) hmidle
    obtain ⟨d, hd, hr⟩ := adjacent_to_stepdir hadj
    have hcl := hinv.closed mid hmidfree.1 hmidfin (by rw [hq]; simp) d hd
      (by rw [← hr]; exact hfree.1) (by rw [← hr]; exact hfree.2)
    rw [← hr] at hcl
    calc fireAt st.mat r ≤ fireAt st.mat mid + 1 := hcl
      _ ≤ (k : ℕ∞) + 1 := add_le_add_right hmidle 1
      _ = ((k + 1 : ℕ) : ℕ∞) := by push_cast; ring

/-! ### C2: correctness of `compute_fire_time` -/

/-- C2: for every rectangular grid, `compute_fire_time` returns a matrix of
the same dimensions in which every hazard-source cell gets `0`, every cell
whose entry is finite is reachable from a source in exactly that number of
4-adjacent wall-free steps and in no fewer, every unreachable cell keeps the
`INF` sentinel, and a grid without hazard sources yields `INF` everywhere. -/
theorem c2_compute_fire_time (grid : Grid) (rows cols : ℕ)
    (hrect : Rect grid rows cols) (hne : grid ≠ []) :
    (compute_fire_time grid).length = rows ∧
    (∀ r ∈ compute_fire_time grid, r.length = cols) ∧
    (∀ p : Pos, inB rows cols p = true →
      (cellAt grid p = 'F' → fireAt (compute_fire_time grid) p = 0) ∧
      (∀ v : ℕ, fireAt (compute_fire_time grid) p = (v : ℕ∞) →
        FireReach grid v p ∧ ∀ m : ℕ, FireReach grid m p → v ≤ m) ∧
      (fireAt (compute_fire_time grid) p = ⊤ ↔ ∀ n : ℕ, ¬FireReach grid n p)) ∧
    ((∀ s : Pos, inB rows cols s = true → cellAt grid s ≠ 'F') →
      ∀ p : Pos, inB rows cols p = true →
        fireAt (compute_fire_time grid) p = ⊤) := by
  have hrows : rowsOf grid = rows := hrect.1
  have hcols : colsOf grid = cols := by
    unfold colsOf
    cases grid with
    | nil => exact absurd rfl hne
    | cons r g' => exact hrect.2 r (List.mem_cons_self _ _)
  obtain ⟨st, hmat, hq, hinv⟩ := compute_fire_time_final grid
  rw [← hmat, ← hrows, ← hcols]
  refine ⟨hinv.mshape.1, hinv.mshape.2, ?_, ?_⟩
  · intro p hp
    refine ⟨hinv.fzero p hp, ?_, ?_⟩
    · intro v hv
      refine ⟨hinv.sound p hp v hv, ?_⟩
      intro m hreach
      have := bfs_final_le hinv hq m p hreach
      rw [hv] at this
      exact_mod_cast this
    · constructor
      · intro htop n hreach
        have := bfs_final_le hinv hq n p hreach
        rw [htop, top_le_iff] at this
        exact absurd this (ENat.coe_ne_top n)
      · intro hno
        by_contra hfin
        lift fireAt st.mat p to ℕ using hfin with v hv
        exact hno v (hinv.sound p hp v hv.symm)
  · intro hnoF p hp
    by_contra hfin
    lift fireAt st.mat p to ℕ using hfin with v hv
    obtain ⟨s, hsF, hwalk⟩ := hinv.sound p hp v hv.symm
    have hsfree := hwalk.free_left
    exact hnoF s hsfree.1 hsF

theorem c2_compute_fire_time_witness :
    (Rect [['.', 'F', '.'], ['.', '.', '.'], ['D', '.', 'S']] 3 3 ∧
      ([['.', 'F', '.'], ['.', '.', '.'], ['D', '.', 'S']] : Grid) ≠ []) ∧
    (compute_fire_time [['.', 'F', '.'], ['.', '.', '.'], ['D', '.', 'S']]).length = 3 :=
  ⟨⟨by decide, by decide⟩,
    (c2_compute_fire_time [['.', 'F', '.'], ['.', '.', '.'], ['D', '.', 'S']]
      3 3 (by decide) (by decide)).1⟩

/-! ### C7: the propagation invariant -/

theorem Adjacent.symm {p q : Pos} (h : Adjacent p q) : Adjacent q p := by
  unfold Adjacent at *
  omega

/-- C7: for every rectangular grid, adjacent non-wall cells of the hazard map
have arrival times differing by at most 1, unless one of them is `INF`. -/
theorem c7_propagation_invariant (grid : Grid) (rows cols : ℕ)
    (hrect : Rect grid rows cols) (hne : grid ≠ []) (p q : Pos)
    (hp : inB rows cols p = true) (hq : inB rows cols q = true)
    (hadj : Adjacent p q) (hpw : cellAt grid p ≠ '#')
    (hqw : cellAt grid q ≠ '#') (vp vq : ℕ)
    (hvp : fireAt (compute_fire_time grid) p = (vp : ℕ∞))
    (hvq : fireAt (compute_fire_time grid) q = (vq : ℕ∞)) :
    ((vp : ℤ) - (vq : ℤ)).natAbs ≤ 1 := by
  have hrows : rowsOf grid = rows := hrect.1
  have hcols : colsOf grid = cols := by
    unfold colsOf
    cases grid with
    | nil => exact absurd rfl hne
    | cons r g' => exact hrect.2 r (List.mem_cons_self _ _)
  obtain ⟨st, hmat, hqe, hinv⟩ := compute_fire_time_final grid
  rw [← hmat] at hvp hvq
  rw [← hrows, ← hcols] at hp hq
  have hfinp : fireAt st.mat p ≠ ⊤ := by rw [hvp]; exact ENat.coe_ne_top vp
  have hfinq : fireAt st.mat q ≠ ⊤ := by rw [hvq]; exact ENat.coe_ne_top vq
  obtain ⟨d, hd, hr⟩ := adjacent_to_stepdir hadj
  have h1 := hinv.closed p hp hfinp (by rw [hqe]; simp) d hd
    (by rw [← hr]; exact hq) (by rw [← hr]; exact hqw)
  rw [← hr, hvp, hvq] at h1
  obtain ⟨d', hd', hr'⟩ := adjacent_to_stepdir hadj.symm
  have h2 := hinv.closed q hq hfinq (by rw [hqe]; simp) d' hd'
    (by rw [← hr']; exact hp) (by rw [← hr']; exact hpw)
  rw [← hr', hvp, hvq] at h2
  have e1 : vq ≤ vp + 1 := by exact_mod_cast (by push_cast at h1 ⊢; exact h1 :
    (vq : ℕ∞) ≤ ((vp + 1 : ℕ) : ℕ∞))
  have e2 : vp ≤ vq + 1 := by exact_mod_cast (by push_cast at h2 ⊢; exact h2 :
    (vp : ℕ∞) ≤ ((vq + 1 : ℕ) : ℕ∞))
  omega

theorem c7_propagation_invariant_witness :
    (Rect [['F', '.']] 1 2 ∧ ([['F', '.']] : Grid) ≠ [] ∧
      inB 1 2 ((0 : ℤ), (0 : ℤ)) = true ∧ inB 1 2 ((1 : ℤ), (0 : ℤ)) = true ∧
      Adjacent (0, 0) (1, 0) ∧ cellAt [['F', '.']] (0, 0) ≠ '#' ∧
      cellAt [['F', '.']] (1, 0) ≠ '#' ∧
      fireAt (compute_fire_time [['F', '.']]) (0, 0) = ((0 : ℕ) : ℕ∞) ∧
      fireAt (compute_fire_time [['F', '.']]) (1, 0) = ((1 : ℕ) : ℕ∞)) ∧
    (((0 : ℕ) : ℤ) - ((1 : ℕ) : ℤ)).natAbs ≤ 1 :=
  ⟨⟨by decide, by decide, by decide, by decide, by decide, by decide, by decide,
      by rfl, by rfl⟩,
    c7_propagation_invariant [['F', '.']] 1 2 (by decide) (by decide)
      (0, 0) (1, 0) (by decide) (by decide) (by decide) (by decide) (by decide)
      0 1 (by rfl) (by rfl)⟩

/-! ### Exactness of the priority comparisons -/

theorem SVal.addN_val (u : SVal) (n : ℕ) : (u.addN n).val = u.val + n := by
  unfold SVal.addN SVal.val
  push_cast
  ring

theorem sqrt_add_sq_le {d t : ℝ} (hd : 0 ≤ d) (ht : 0 ≤ t) :
    Real.sqrt (d ^ 2 + t) ≤ d + Real.sqrt t := by
  have h1 : d ^ 2 + t ≤ (d + Real.sqrt t) ^ 2 := by
    have := Real.sq_sqrt ht
    nlinarith [Real.sqrt_nonneg t]
  calc Real.sqrt (d ^ 2 + t) ≤ Real.sqrt ((d + Real.sqrt t) ^ 2) :=
        Real.sqrt_le_sqrt h1
    _ = d + Real.sqrt t := Real.sqrt_sq (by positivity)

theorem le_iff_sq_le {c e : ℝ} (hc : 0 ≤ c) (he : 0 ≤ e) :
    c ≤ e ↔ c ^ 2 ≤ e ^ 2 := by
  constructor
  · intro h
    nlinarith
  · intro h
    nlinarith

theorem sqrt_le_iff_le_sq {s X : ℝ} (hs : 0 ≤ s) (hX : 0 ≤ X) :
    Real.sqrt s ≤ X ↔ s ≤ X ^ 2 := by
  rw [le_iff_sq_le (Real.sqrt_nonneg s) hX, Real.sq_sqrt hs]

theorem sqrtLeB_iff (a s b t : ℕ) :
    sqrtLeB a s b t = true ↔
      (a : ℝ) + Real.sqrt s ≤ (b : ℝ) + Real.sqrt t := by
  unfold sqrtLeB
  dsimp only
  split_ifs with hab hsle
  · simp only [true_iff]
    have hd : ((b - a : ℕ) : ℝ) = (b : ℝ) - a := by
      push_cast [hab]
      ring
    have h1 : Real.sqrt s ≤ Real.sqrt (((b - a : ℕ) : ℝ) ^ 2 + t) := by
      apply Real.sqrt_le_sqrt
      have h0 : (s : ℝ) ≤ (((b - a) ^ 2 + t : ℕ) : ℝ) := by exact_mod_cast hsle
      calc (s : ℝ) ≤ (((b - a) ^ 2 + t : ℕ) : ℝ) := h0
        _ = ((b - a : ℕ) : ℝ) ^ 2 + t := by push_cast; ring
    have h2 := sqrt_add_sq_le (d := ((b - a : ℕ) : ℝ)) (t := (t : ℝ))
      (by positivity) (by positivity)
    have h3 := le_trans h1 h2
    rw [hd] at h3
    linarith
  · rw [decide_eq_true_iff]
    have hd : ((b - a : ℕ) : ℝ) = (b : ℝ) - a := by
      push_cast [hab]
      ring
    have hgt : (b - a) ^ 2 + t < s := by omega
    have hu : ((s - ((b - a) ^ 2 + t) : ℕ) : ℝ) =
        (s : ℝ) - (((b - a : ℕ) : ℝ) ^ 2 + t) := by
      push_cast [le_of_lt hgt]
      ring
    have hiff1 : (a : ℝ) + Real.sqrt s ≤ (b : ℝ) + Real.sqrt t ↔
        Real.sqrt s ≤ ((b - a : ℕ) : ℝ) + Real.sqrt t := by
      rw [hd]
      constructor
      · intro h
        linarith
      · intro h
        linarith
    rw [hiff1, sqrt_le_iff_le_sq (by positivity) (by positivity)]
    have ht2 : Real.sqrt t ^ 2 = (t : ℝ) := Real.sq_sqrt (by positivity)
    have hsq : (((b - a : ℕ) : ℝ) + Real.sqrt t) ^ 2 =
        ((b - a : ℕ) : ℝ) ^ 2 + t + 2 * ((b - a : ℕ) : ℝ) * Real.sqrt t := by
      linear_combination ht2
    rw [hsq]
    have hiff2 : (s : ℝ) ≤ ((b - a : ℕ) : ℝ) ^ 2 + t +
        2 * ((b - a : ℕ) : ℝ) * Real.sqrt t ↔
        ((s - ((b - a) ^ 2 + t) : ℕ) : ℝ) ≤
          2 * ((b - a : ℕ) : ℝ) * Real.sqrt t := by
      rw [hu]
      constructor
      · intro h
        linarith
      · intro h
        linarith
    rw [hiff2, le_iff_sq_le (by positivity) (by positivity)]
    have hrhs : (2 * ((b - a : ℕ) : ℝ) * Real.sqrt t) ^ 2 =
        ((4 * (b - a) ^ 2 * t : ℕ) : ℝ) := by
      have hcast : ((4 * (b - a) ^ 2 * t : ℕ) : ℝ) =
          4 * ((b - a : ℕ) : ℝ) ^ 2 * t := by
        push_cast
        ring
      rw [hcast]
      linear_combination (4 * ((b - a : ℕ) : ℝ) ^ 2) * ht2
    rw [hrhs]
    constructor
    · intro h
      calc ((s - ((b - a) ^ 2 + t) : ℕ) : ℝ) ^ 2
          = (((s - ((b - a) ^ 2 + t)) ^ 2 : ℕ) : ℝ) := by push_cast; ring
        _ ≤ ((4 * (b - a) ^ 2 * t : ℕ) : ℝ) := Nat.cast_le.2 h
    · intro h
      have h' : (((s - ((b - a) ^ 2 + t)) ^ 2 : ℕ) : ℝ) ≤
          ((4 * (b - a) ^ 2 * t : ℕ) : ℝ) := by
        calc (((s - ((b - a) ^ 2 + t)) ^ 2 : ℕ) : ℝ)
            = ((s - ((b - a) ^ 2 + t) : ℕ) : ℝ) ^ 2 := by push_cast; ring
          _ ≤ _ := h
      exact_mod_cast h'
  · rw [Bool.and_eq_true, decide_eq_true_iff, decide_eq_true_iff]
    have hba : b ≤ a := by omega
    have hd : ((a - b : ℕ) : ℝ) = (a : ℝ) - b := by
      push_cast [hba]
      ring
    have hs2 : Real.sqrt s ^ 2 = (s : ℝ) := Real.sq_sqrt (by positivity)
    have ht2 : Real.sqrt t ^ 2 = (t : ℝ) := Real.sq_sqrt (by positivity)
    constructor
    · rintro ⟨h1, h2⟩
      have h1r : ((a - b : ℕ) : ℝ) ^ 2 + s ≤ t := by
        have h0 : (((a - b) ^ 2 + s : ℕ) : ℝ) ≤ (t : ℝ) := by exact_mod_cast h1
        calc ((a - b : ℕ) : ℝ) ^ 2 + s
            = (((a - b) ^ 2 + s : ℕ) : ℝ) := by push_cast; ring
          _ ≤ _ := h0
      have hu : ((t - ((a - b) ^ 2 + s) : ℕ) : ℝ) =
          (t : ℝ) - (((a - b : ℕ) : ℝ) ^ 2 + s) := by
        push_cast [h1]
        ring
      have h2r : 4 * ((a - b : ℕ) : ℝ) ^ 2 * s ≤
          ((t - ((a - b) ^ 2 + s) : ℕ) : ℝ) ^ 2 := by
        have h0 : ((4 * (a - b) ^ 2 * s : ℕ) : ℝ) ≤
            (((t - ((a - b) ^ 2 + s)) ^ 2 : ℕ) : ℝ) := by exact_mod_cast h2
        calc 4 * ((a - b : ℕ) : ℝ) ^ 2 * s
            = ((4 * (a - b) ^ 2 * s : ℕ) : ℝ) := by push_cast; ring
          _ ≤ _ := h0
          _ = ((t - ((a - b) ^ 2 + s) : ℕ) : ℝ) ^ 2 := by push_cast; ring
      have h2ds : 2 * ((a - b : ℕ) : ℝ) * Real.sqrt s ≤
          (t : ℝ) - (((a - b : ℕ) : ℝ) ^ 2 + s) := by
        have hn1 : (0 : ℝ) ≤ 2 * ((a - b : ℕ) : ℝ) * Real.sqrt s := by
          positivity
        have hn2 : (0 : ℝ) ≤ (t : ℝ) - (((a - b : ℕ) : ℝ) ^ 2 + s) := by
          linarith
        rw [le_iff_sq_le hn1 hn2]
        calc (2 * ((a - b : ℕ) : ℝ) * Real.sqrt s) ^ 2
            = 4 * ((a - b : ℕ) : ℝ) ^ 2 * (Real.sqrt s ^ 2) := by ring
          _ = 4 * ((a - b : ℕ) : ℝ) ^ 2 * s := by rw [hs2]
          _ ≤ ((t - ((a - b) ^ 2 + s) : ℕ) : ℝ) ^ 2 := h2r
          _ = ((t : ℝ) - (((a - b : ℕ) : ℝ) ^ 2 + s)) ^ 2 := by rw [hu]
      have hfin : ((a - b : ℕ) : ℝ) + Real.sqrt s ≤ Real.sqrt t := by
        rw [le_iff_sq_le (by positivity) (Real.sqrt_nonneg _), ht2]
        nlinarith [hs2]
      rw [hd] at hfin
      linarith
    · intro h
      have hfin : ((a - b : ℕ) : ℝ) + Real.sqrt s ≤ Real.sqrt t := by
        rw [hd]
        linarith
      have hsq : (((a - b : ℕ) : ℝ) + Real.sqrt s) ^ 2 ≤ t := by
        rw [le_iff_sq_le (by positivity) (Real.sqrt_nonneg _), ht2] at hfin
        exact hfin
      have hexp : ((a - b : ℕ) : ℝ) ^ 2 + s +
          2 * ((a - b : ℕ) : ℝ) * Real.sqrt s ≤ t := by
        nlinarith [hs2]
      have hn1 : (0 : ℝ) ≤ 2 * ((a - b : ℕ) : ℝ) * Real.sqrt s := by
        positivity
      have h1r : ((a - b : ℕ) : ℝ) ^ 2 + s ≤ t := by linarith
      have h1 : (a - b) ^ 2 + s ≤ t := by
        have h0 : (((a - b) ^ 2 + s : ℕ) : ℝ) ≤ (t : ℝ) := by
          calc (((a - b) ^ 2 + s : ℕ) : ℝ)
              = ((a - b : ℕ) : ℝ) ^ 2 + s := by push_cast; ring
            _ ≤ _ := h1r
        exact_mod_cast h0
      refine ⟨h1, ?_⟩
      have hu : ((t - ((a - b) ^ 2 + s) : ℕ) : ℝ) =
          (t : ℝ) - (((a - b : ℕ) : ℝ) ^ 2 + s) := by
        push_cast [h1]
        ring
      have h2ds : 2 * ((a - b : ℕ) : ℝ) * Real.sqrt s ≤
          ((t - ((a - b) ^ 2 + s) : ℕ) : ℝ) := by
        rw [hu]
        linarith
      have h2r := (le_iff_sq_le hn1 (by rw [hu]; linarith)).1 h2ds
      have h3 : ((4 * (a - b) ^ 2 * s : ℕ) : ℝ) ≤
          (((t - ((a - b) ^ 2 + s)) ^ 2 : ℕ) : ℝ) := by
        calc ((4 * (a - b) ^ 2 * s : ℕ) : ℝ)
            = 4 * ((a - b : ℕ) : ℝ) ^ 2 * s := by push_cast; ring
          _ = (2 * ((a - b : ℕ) : ℝ) * Real.sqrt s) ^ 2 := by
              calc 4 * ((a - b : ℕ) : ℝ) ^ 2 * s
                  = 4 * ((a - b : ℕ) : ℝ) ^ 2 * (Real.sqrt s ^ 2) := by
                    rw [hs2]
                _ = (2 * ((a - b : ℕ) : ℝ) * Real.sqrt s) ^ 2 := by ring
          _ ≤ ((t - ((a - b) ^ 2 + s) : ℕ) : ℝ) ^ 2 := h2r
          _ = (((t - ((a - b) ^ 2 + s)) ^ 2 : ℕ) : ℝ) := by push_cast; ring
      exact_mod_cast h3

theorem SVal.leB_iff (u v : SVal) : u.leB v = true ↔ u.val ≤ v.val := by
  unfold SVal.leB SVal.val
  exact sqrtLeB_iff u.base u.sq v.base v.sq

theorem entryLe_val {e f : SVal × Pos} (h : entryLe e f = true) :
    e.1.val ≤ f.1.val := by
  unfold entryLe at h
  split_ifs at h with h1 h2
  · exact (SVal.leB_iff _ _).1 h1
  · exact (SVal.leB_iff _ _).1 h1

theorem entryLe_val_of_not {e f : SVal × Pos} (h : entryLe e f = false) :
    f.1.val ≤ e.1.val := by
  unfold entryLe at h
  split_ifs at h with h1 h2
  · exact (SVal.leB_iff _ _).1 h2
  · exact le_of_not_le fun hc => by
      rw [(SVal.leB_iff e.1 f.1).2 hc] at h1
      exact h1 rfl

theorem selectMin_min (l : List (SVal × Pos)) (e : SVal × Pos) :
    (selectMin e l).1.1.val ≤ e.1.val ∧
      ∀ x ∈ l, (selectMin e l).1.1.val ≤ x.1.val := by
  induction l generalizing e with
  | nil => simp [selectMin]
  | cons f rest ih =>
    rw [selectMin]
    split_ifs with hef
    · simp only
      obtain ⟨h1, h2⟩ := ih e
      refine ⟨h1, ?_⟩
      intro x hx
      rcases List.mem_cons.1 hx with rfl | hx
      · exact le_trans h1 (entryLe_val hef)
      · exact h2 x hx
    · simp only
      obtain ⟨h1, h2⟩ := ih f
      have hfe := entryLe_val_of_not (Bool.eq_false_iff.2 hef)
      refine ⟨le_trans h1 hfe, ?_⟩
      intro x hx
      rcases List.mem_cons.1 hx with rfl | hx
      · exact h1
      · exact h2 x hx

theorem popMin_min {l : List (SVal × Pos)} {e : SVal × Pos}
    {rest : List (SVal × Pos)} (h : popMin l = some (e, rest)) :
    ∀ x ∈ l, e.1.val ≤ x.1.val := by
  cases l with
  | nil => cases h
  | cons f fs =>
    rw [popMin] at h
    injection h with h'
    have h1 : (selectMin f fs).1 = e := by rw [h']
    obtain ⟨ha, hb⟩ := selectMin_min fs f
    intro x hx
    rcases List.mem_cons.1 hx with rfl | hx
    · rw [← h1]
      exact ha
    · rw [← h1]
      exact hb x hx

/-! ### Consistency of the three heuristics (and the fallback) -/

theorem heuristic_nonneg_sqrt (s : ℕ) : (0 : ℝ) ≤ Real.sqrt s :=
  Real.sqrt_nonneg _

theorem sqrt_succ_step {T S : ℝ} (hS : 0 ≤ S) (hT : 0 ≤ T)
    (h : S ≤ T + 2 * Real.sqrt T + 1) :
    Real.sqrt S ≤ Real.sqrt T + 1 := by
  have h1 : S ≤ (Real.sqrt T + 1) ^ 2 := by
    have := Real.sq_sqrt hT
    nlinarith
  calc Real.sqrt S ≤ Real.sqrt ((Real.sqrt T + 1) ^ 2) := Real.sqrt_le_sqrt h1
    _ = Real.sqrt T + 1 := Real.sqrt_sq (by positivity)

theorem euclid_step (x y c : ℝ) (hc : c = x + 1 ∨ c = x - 1) :
    Real.sqrt (c ^ 2 + y ^ 2) ≤ Real.sqrt (x ^ 2 + y ^ 2) + 1 := by
  have hT : (0 : ℝ) ≤ x ^ 2 + y ^ 2 := by positivity
  have habs : |x| ≤ Real.sqrt (x ^ 2 + y ^ 2) := by
    rw [← Real.sqrt_sq_eq_abs]
    exact Real.sqrt_le_sqrt (by nlinarith)
  apply sqrt_succ_step (by positivity) hT
  rcases hc with rfl | rfl
  · nlinarith [le_abs_self x, neg_abs_le x]
  · nlinarith [le_abs_self x, neg_abs_le x]

theorem euclid_step2 (X Y C D : ℝ)
    (h : (C = X ∧ (D = Y + 1 ∨ D = Y - 1)) ∨
      (D = Y ∧ (C = X + 1 ∨ C = X - 1))) :
    Real.sqrt (C ^ 2 + D ^ 2) ≤ Real.sqrt (X ^ 2 + Y ^ 2) + 1 := by
  rcases h with ⟨hc, hd⟩ | ⟨hd, hc⟩
  · subst hc
    have h1 := euclid_step Y C D hd
    rw [add_comm (D ^ 2) (C ^ 2), add_comm (Y ^ 2) (C ^ 2)] at h1
    exact h1
  · subst hd
    exact euclid_step X D C hc

theorem natAbs_sq_cast (a b : ℤ) :
    ((a.natAbs ^ 2 + b.natAbs ^ 2 : ℕ) : ℝ) = (a : ℝ) ^ 2 + (b : ℝ) ^ 2 := by
  push_cast [Int.cast_natAbs]
  rw [sq_abs, sq_abs]

theorem euclid_consistent {p q endp : Pos} (h : Adjacent p q) :
    Real.sqrt (((p.1 - endp.1).natAbs ^ 2 + (p.2 - endp.2).natAbs ^ 2 : ℕ) : ℝ)
      ≤ Real.sqrt
        (((q.1 - endp.1).natAbs ^ 2 + (q.2 - endp.2).natAbs ^ 2 : ℕ) : ℝ) +
        1 := by
  rw [natAbs_sq_cast, natAbs_sq_cast]
  apply euclid_step2
  unfold Adjacent at h
  rcases h with ⟨hx, hy | hy⟩ | ⟨hy, hx | hx⟩
  · left
    refine ⟨?_, Or.inr ?_⟩
    · exact_mod_cast (by omega : p.1 - endp.1 = q.1 - endp.1)
    · exact_mod_cast (by omega : p.2 - endp.2 = q.2 - endp.2 - 1)
  · left
    refine ⟨?_, Or.inl ?_⟩
    · exact_mod_cast (by omega : p.1 - endp.1 = q.1 - endp.1)
    · exact_mod_cast (by omega : p.2 - endp.2 = q.2 - endp.2 + 1)
  · right
    refine ⟨?_, Or.inr ?_⟩
    · exact_mod_cast (by omega : p.2 - endp.2 = q.2 - endp.2)
    · exact_mod_cast (by omega : p.1 - endp.1 = q.1 - endp.1 - 1)
  · right
    refine ⟨?_, Or.inl ?_⟩
    · exact_mod_cast (by omega : p.2 - endp.2 = q.2 - endp.2)
    · exact_mod_cast (by omega : p.1 - endp.1 = q.1 - endp.1 + 1)

theorem heuristic_consistent (endp : Pos) (mode : String) {p q : Pos}
    (h : Adjacent p q) :
    (heuristic p endp mode).val ≤ (heuristic q endp mode).val + 1 := by
  unfold heuristic SVal.val
  dsimp only
  have hman : (p.1 - endp.1).natAbs + (p.2 - endp.2).natAbs ≤
      (q.1 - endp.1).natAbs + (q.2 - endp.2).natAbs + 1 := by
    unfold Adjacent at h
    omega
  have hmanR : (((p.1 - endp.1).natAbs + (p.2 - endp.2).natAbs : ℕ) : ℝ) ≤
      (((q.1 - endp.1).natAbs + (q.2 - endp.2).natAbs : ℕ) : ℝ) + 1 := by
    have h0 := (Nat.cast_le (α := ℝ)).2 hman
    push_cast at h0 ⊢
    linarith
  split_ifs with h1 h2 h3
  · simp only [Nat.cast_zero, Real.sqrt_zero, add_zero]
    exact hmanR
  · simp only [Nat.cast_zero, zero_add]
    exact euclid_consistent h
  · simp only [Nat.cast_zero, Real.sqrt_zero, add_zero, zero_add]
    linarith
  · simp only [Nat.cast_zero, Real.sqrt_zero, add_zero]
    exact hmanR

/-! ### Shortest distances and the A* frontier -/

theorem exists_isDist {grid : Grid} {start p : Pos} :
    ∀ {n : ℕ}, WalkN grid n start p → ∃ k, IsDist grid start p k ∧ k ≤ n := by
  intro n
  induction n using Nat.strong_induction_on with
  | _ n ih =>
    intro h
    by_cases hmin : ∀ m, WalkN grid m start p → n ≤ m
    · exact ⟨n, ⟨h, hmin⟩, le_refl n⟩
    · push_neg at hmin
      obtain ⟨m, hm, hlt⟩ := hmin
      obtain ⟨k, hk, hkm⟩ := ih m hlt hm
      exact ⟨k, hk, le_trans hkm (le_of_lt hlt)⟩

/-- Frontier property: as long as a walk endpoint is unvisited, some heap
entry has key at most the walk length plus the endpoint's heuristic. -/
theorem walk_frontier {grid : Grid} {endp : Pos} {mode : String}
    {st : AState} :
    ∀ {k : ℕ} {start z : Pos}, WalkN grid k start z →
      C3Inv grid start endp mode st → z ∉ st.visited →
      ∃ f q, (f, q) ∈ st.heap ∧
        f.val ≤ (k : ℝ) + (heuristic z endp mode).val := by
  intro k start z hwalk
  induction hwalk with
  | refl p hp =>
    intro hinv hzv
    obtain ⟨f, hf, hval⟩ := hinv.hfresh p 0 hzv hinv.chain.gstart
    refine ⟨f, p, hf, ?_⟩
    rw [hval]
  | tail hw ha hr ih =>
    rename_i nn sv yv rv
    intro hinv hzv
    by_cases hyv : yv ∈ st.visited
    · obtain ⟨ny, hgy, hdy⟩ := hinv.vexact yv hyv
      have hny : ny ≤ nn := hdy.2 nn hw
      obtain ⟨d, hd, hrd⟩ := adjacent_to_stepdir ha
      have hfree' : Free grid (yv.1 + d.1, yv.2 + d.2) := by
        rw [← hrd]
        exact hr
      obtain ⟨m, hgz, hm⟩ := hinv.vclosed yv hyv ny hgy d hd hfree'
      rw [← hrd] at hgz
      obtain ⟨f, hf, hval⟩ := hinv.hfresh rv m hzv hgz
      refine ⟨f, rv, hf, ?_⟩
      rw [hval]
      have hmr : (m : ℝ) ≤ (nn : ℝ) + 1 := by
        exact_mod_cast (by omega : m ≤ nn + 1)
      push_cast
      linarith
    · obtain ⟨f, q, hf, hval⟩ := ih hinv hyv
      refine ⟨f, q, hf, ?_⟩
      have hcons := heuristic_consistent endp mode ha
      push_cast
      push_cast at hval
      linarith

/-- When a minimal heap entry for an unvisited cell is popped, that cell's
recorded cost is its exact shortest distance. -/
theorem pop_exact {grid : Grid} {start endp : Pos} {mode : String}
    {st : AState} (hinv : C3Inv grid start endp mode st) {e : SVal × Pos}
    {rest : List (SVal × Pos)} (hpop : popMin st.heap = some (e, rest))
    (hnv : e.2 ∉ st.visited) {m : ℕ} (hm : st.g e.2 = some m) :
    IsDist grid start e.2 m := by
  have hwalk := hinv.gsound e.2 m hm
  obtain ⟨k, hk, hkm⟩ := exists_isDist hwalk
  obtain ⟨f, q, hf, hval⟩ := walk_frontier hk.1 hinv hnv
  have hmin := popMin_min hpop _ hf
  have hlbe := hinv.hlb e.1 e.2 (popMin_mem hpop).1 m hm
  have hmkR : (m : ℝ) ≤ (k : ℝ) := by linarith
  have hmk : m ≤ k := by exact_mod_cast hmkR
  have hme : m = k := le_antisymm hmk hkm
  rw [hme]
  exact hk

/-! ### Preservation of the optimality invariant -/

theorem initState_c3inv (grid : Grid) (start endp : Pos) (mode : String)
    (hs : Free grid start) (hne : endp ∉ ([] : List Pos)) :
    C3Inv grid start endp mode (initState start endp mode) := by
  unfold initState
  refine ⟨⟨?_, ?_, ?_, ?_, ?_, ?_⟩, ?_, ?_, ?_, ?_, ?_, ?_, ?_, ?_, ?_, ?_,
    ?_, ?_⟩
  · simp
  · simp
  · intro p hp
    by_cases h : p = start
    · exact h
    · simp [h] at hp
  · intro p c hp
    by_cases h : p = start <;> simp [h] at hp
  · intro p hp
    by_cases h : p = start <;> simp [h] at hp ⊢
  · intro p hp
    by_cases h : p = start <;> simp [h] at hp ⊢
  · intro e he
    simp only [List.mem_singleton] at he
    rw [he]
    simp
  · intro p n hp
    dsimp only at hp
    by_cases h : p = start
    · subst h
      rw [if_pos rfl] at hp
      injection hp with hn
      rw [← hn]
      exact WalkN.refl p hs
    · simp only [if_neg h] at hp
      cases hp
  · intro p n hp
    dsimp only at hp
    by_cases h : p = start
    · subst h
      rw [if_pos rfl] at hp
      injection hp with hn
      simp [← hn]
    · simp only [if_neg h] at hp
      cases hp
  · intro p c hp
    by_cases h : p = start <;> simp [h] at hp
  · intro p hp
    exact absurd hp (List.not_mem_nil p)
  · intro p hp
    exact absurd hp (List.not_mem_nil p)
  · intro q n hqv hq
    dsimp only at hq
    by_cases h : q = start
    · subst h
      rw [if_pos rfl] at hq
      injection hq with hn
      refine ⟨heuristic q endp mode, by simp, ?_⟩
      rw [← hn]
      norm_num
    · simp only [if_neg h] at hq
      cases hq
  · intro f q hfq n hq
    dsimp only at hq
    simp only [List.mem_singleton, Prod.mk.injEq] at hfq
    obtain ⟨hf, hq'⟩ := hfq
    subst hf
    subst hq'
    rw [if_pos rfl] at hq
    injection hq with hn
    rw [← hn]
    norm_num
  · intro e he
    simp only [List.mem_singleton] at he
    rw [he]
    exact Or.inl rfl
  · intro p hp
    exact absurd hp (List.not_mem_nil p)
  · exact List.nodup_nil
  · exact hne

theorem C3Mid.addDone {grid : Grid} {start endp : Pos} {mode : String}
    {z : Pos} {cg : ℕ} {done : List (ℤ × ℤ)} {st : AState} {d : ℤ × ℤ}
    (hmid : C3Mid grid start endp mode z cg done st)
    (hnew : Free grid (z.1 + d.1, z.2 + d.2) →
      ∃ m, st.g (z.1 + d.1, z.2 + d.2) = some m ∧ m ≤ cg + 1) :
    C3Mid grid start endp mode z cg (done ++ [d]) st := by
  refine ⟨hmid.chain, hmid.hg, hmid.gsound, hmid.gbound, hmid.pexact,
    hmid.vexact, hmid.vclosedO, hmid.zmem, hmid.zg, hmid.zdist, hmid.zbound,
    ?_, hmid.hfresh, hmid.hlb, hmid.hinb, hmid.vinb, hmid.vnodup, hmid.endnv⟩
  intro d' hd' hfree'
  rcases List.mem_append.1 hd' with h | h
  · exact hmid.zdone d' h hfree'
  · rw [List.mem_singleton] at h
    subst h
    exact hnew hfree'

/-- One relaxation of the expansion loop preserves the mid-expansion
invariant, extends the processed offsets, adds at most one heap entry and
keeps the visited list. -/
theorem relaxNF_c3mid {grid : Grid} {start endp : Pos} {mode : String}
    {z : Pos} {cg : ℕ} {done : List (ℤ × ℤ)} {st : AState} {d : ℤ × ℤ}
    (hd : d ∈ stepdirs)
    (hmid : C3Mid grid start endp mode z cg done st) :
    C3Mid grid start endp mode z cg (done ++ [d])
      (relaxNF grid endp mode z cg st d) ∧
    (relaxNF grid endp mode z cg st d).heap.length ≤ st.heap.length + 1 ∧
    (relaxNF grid endp mode z cg st d).visited = st.visited := by
  unfold relaxNF
  split_ifs with hin hwall hlt
  · exact ⟨hmid.addDone fun hfree => absurd hfree.2 (not_not.2 hwall),
      Nat.le_succ _, rfl⟩
  · -- the update fires
    have hfree : Free grid (z.1 + d.1, z.2 + d.2) := ⟨hin, hwall⟩
    have hadj : Adjacent z (z.1 + d.1, z.2 + d.2) := adjacent_stepdir hd z
    have hwalkq : WalkN grid (cg + 1) start (z.1 + d.1, z.2 + d.2) :=
      WalkN.tail hmid.zdist.1 hadj hfree
    have hq0nv : (z.1 + d.1, z.2 + d.2) ∉ st.visited := by
      intro hmem
      obtain ⟨n0, hg0, hdist0⟩ := hmid.vexact _ hmem
      rw [hg0] at hlt
      have hlt' : cg + 1 < n0 := by simpa [ltG] using hlt
      have := hdist0.2 (cg + 1) hwalkq
      omega
    have hq0z : (z.1 + d.1, z.2 + d.2) ≠ z := Ne.symm hadj.ne
    refine ⟨⟨?_, ?_, ?_, ?_, ?_, ?_, ?_, ?_, ?_, hmid.zdist, ?_, ?_, ?_, ?_,
      ?_, ?_, ?_, ?_⟩, ?_, rfl⟩
    · exact chainInv_update hmid.chain hmid.zg hadj hfree hlt
    · intro e he
      dsimp only
      rcases List.mem_append.1 he with h | h
      · by_cases hq : e.2 = (z.1 + d.1, z.2 + d.2)
        · simp [hq]
        · simp only [if_neg hq]
          exact hmid.hg e h
      · rw [List.mem_singleton] at h
        rw [h]
        simp
    · intro p n hp
      dsimp only at hp
      by_cases hpq : p = (z.1 + d.1, z.2 + d.2)
      · rw [if_pos hpq] at hp
        injection hp with hn
        rw [← hn, hpq]
        exact hwalkq
      · rw [if_neg hpq] at hp
        exact hmid.gsound p n hp
    · intro p n hp
      dsimp only at hp ⊢
      by_cases hpq : p = (z.1 + d.1, z.2 + d.2)
      · rw [if_pos hpq] at hp
        injection hp with hn
        rw [← hn]
        exact hmid.zbound
      · rw [if_neg hpq] at hp
        exact hmid.gbound p n hp
    · intro p c hp
      dsimp only at hp ⊢
      by_cases hpq : p = (z.1 + d.1, z.2 + d.2)
      · rw [if_pos hpq] at hp
        injection hp with hp'
        injection hp' with hp''
        subst hp''
        refine ⟨cg, ?_, ?_, hmid.zdist⟩
        · rw [if_neg (Ne.symm hq0z)]
          exact hmid.zg
        · rw [if_pos hpq]
      · rw [if_neg hpq] at hp
        obtain ⟨mc, hgc, hgp, hdc⟩ := hmid.pexact p c hp
        by_cases hcq : c = (z.1 + d.1, z.2 + d.2)
        · exfalso
          rw [hcq] at hgc
          rw [hgc] at hlt
          have hlt' : cg + 1 < mc := by simpa [ltG] using hlt
          have hle := hdc.2 (cg + 1) (by rw [hcq]; exact hwalkq)
          omega
        · exact ⟨mc, by rw [if_neg hcq]; exact hgc,
            by rw [if_neg hpq]; exact hgp, hdc⟩
    · intro p hp
      have hpq : p ≠ (z.1 + d.1, z.2 + d.2) := fun hc => hq0nv (hc ▸ hp)
      obtain ⟨n, hg, hdist⟩ := hmid.vexact p hp
      exact ⟨n, by dsimp only; rw [if_neg hpq]; exact hg, hdist⟩
    · intro p hp hpz n hgp d' hd' hfree'
      dsimp only at hgp ⊢
      have hpq : p ≠ (z.1 + d.1, z.2 + d.2) := fun hc => hq0nv (hc ▸ hp)
      rw [if_neg hpq] at hgp
      obtain ⟨m, hgt, hm⟩ := hmid.vclosedO p hp hpz n hgp d' hd' hfree'
      by_cases ht : (p.1 + d'.1, p.2 + d'.2) = (z.1 + d.1, z.2 + d.2)
      · rw [ht] at hgt
        rw [hgt] at hlt
        have hlt' : cg + 1 < m := by simpa [ltG] using hlt
        exact ⟨cg + 1, by rw [if_pos ht], by omega⟩
      · exact ⟨m, by rw [if_neg ht]; exact hgt, hm⟩
    · exact hmid.zmem
    · dsimp only
      rw [if_neg (Ne.symm hq0z)]
      exact hmid.zg
    · exact hmid.zbound
    · intro d' hd' hfree'
      dsimp only
      rcases List.mem_append.1 hd' with h | h
      · obtain ⟨m, hg, hm⟩ := hmid.zdone d' h hfree'
        by_cases ht : (z.1 + d'.1, z.2 + d'.2) = (z.1 + d.1, z.2 + d.2)
        · exact ⟨cg + 1, by rw [if_pos ht], le_refl _⟩
        · exact ⟨m, by rw [if_neg ht]; exact hg, hm⟩
      · rw [List.mem_singleton] at h
        subst h
        exact ⟨cg + 1, by rw [if_pos rfl], le_refl _⟩
    · intro q n hqv hq
      dsimp only at hq ⊢
      by_cases hqq : q = (z.1 + d.1, z.2 + d.2)
      · rw [if_pos hqq] at hq
        injection hq with hn
        refine ⟨(heuristic (z.1 + d.1, z.2 + d.2) endp mode).addN (cg + 1),
          ?_, ?_⟩
        · rw [hqq]
          exact List.mem_append.2 (Or.inr (List.mem_singleton_self _))
        · rw [SVal.addN_val, ← hn, hqq]
          push_cast
          ring
      · rw [if_neg hqq] at hq
        obtain ⟨f, hf, hval⟩ := hmid.hfresh q n hqv hq
        exact ⟨f, List.mem_append.2 (Or.inl hf), hval⟩
    · intro f q hfq n hq
      dsimp only at hq ⊢
      rcases List.mem_append.1 hfq with h | h
      · by_cases hqq : q = (z.1 + d.1, z.2 + d.2)
        · rw [if_pos hqq] at hq
          injection hq with hn
          have hgs := hmid.hg (f, q) h
          cases hgv : st.g q with
          | none => rw [hgv] at hgs; cases hgs
          | some v =>
            have hold := hmid.hlb f q h v hgv
            rw [← hqq, hgv] at hlt
            have hlt' : cg + 1 < v := by simpa [ltG] using hlt
            have hcast : ((cg + 1 : ℕ) : ℝ) < (v : ℝ) := by exact_mod_cast hlt'
            rw [← hn, hqq]
            calc ((cg + 1 : ℕ) : ℝ) +
                (heuristic (z.1 + d.1, z.2 + d.2) endp mode).val
                ≤ (v : ℝ) +
                  (heuristic (z.1 + d.1, z.2 + d.2) endp mode).val := by
                  linarith
              _ ≤ f.val := by rw [← hqq]; exact hold
        · rw [if_neg hqq] at hq
          exact hmid.hlb f q h n hq
      · rw [List.mem_singleton, Prod.mk.injEq] at h
        obtain ⟨hf, hq'⟩ := h
        subst hf
        subst hq'
        rw [if_pos rfl] at hq
        injection hq with hn
        rw [SVal.addN_val, ← hn]
        push_cast
        linarith
    · intro e he
      rcases List.mem_append.1 he with h | h
      · exact hmid.hinb e h
      · rw [List.mem_singleton] at h
        rw [h]
        exact Or.inr hfree
    · exact hmid.vinb
    · exact hmid.vnodup
    · exact hmid.endnv
    · simp
  · -- in bounds, not a wall, but no improvement
    refine ⟨hmid.addDone ?_, Nat.le_succ _, rfl⟩
    intro hfree
    cases hgv : st.g (z.1 + d.1, z.2 + d.2) with
    | none => rw [hgv] at hlt; simp [ltG] at hlt
    | some v =>
      rw [hgv] at hlt
      have hv : ¬(cg + 1 < v) := by simpa [ltG] using hlt
      exact ⟨v, rfl, by omega⟩
  · exact ⟨hmid.addDone fun hfree => absurd hfree.1 hin, Nat.le_succ _, rfl⟩

theorem popMin_eq_none {l : List (SVal × Pos)} (h : popMin l = none) :
    l = [] := by
  cases l with
  | nil => rfl
  | cons f fs =>
    rw [popMin] at h
    cases h

theorem entry_mem_rest {st : AState} {e : SVal × Pos}
    {rest : List (SVal × Pos)} (hpop : popMin st.heap = some (e, rest))
    {f : SVal} {q : Pos} (hmem : (f, q) ∈ st.heap) (hq : q ≠ e.2) :
    (f, q) ∈ rest := by
  rcases List.mem_cons.1 ((popMin_perm hpop).mem_iff.1 hmem) with h | h
  · exact absurd (congrArg Prod.snd h) hq
  · exact h

theorem visited_card_le {grid : Grid} {start : Pos} {l : List Pos}
    (hnd : l.Nodup) (hb : ∀ p ∈ l, p = start ∨ Free grid p) :
    l.length ≤ rowsOf grid * colsOf grid + 1 := by
  have hsub : l.toFinset ⊆
      insert start (cellsFin (colsOf grid) (rowsOf grid)) := by
    intro p hp
    rw [List.mem_toFinset] at hp
    rcases hb p hp with h | h
    · rw [h]
      exact Finset.mem_insert_self _ _
    · exact Finset.mem_insert_of_mem (inB_iff_mem_cellsFin.1 h.1)
  have hcard := Finset.card_le_card hsub
  rw [List.toFinset_card_of_nodup hnd] at hcard
  have h1 := Finset.card_insert_le start (cellsFin (colsOf grid) (rowsOf grid))
  have h2 := cellsFin_card_le (colsOf grid) (rowsOf grid)
  have h3 : colsOf grid * rowsOf grid = rowsOf grid * colsOf grid :=
    mul_comm _ _
  omega

/-- Skipping a stale pop preserves the optimality invariant. -/
theorem c3inv_skip {grid : Grid} {start endp : Pos} {mode : String}
    {st : AState} {e : SVal × Pos} {rest : List (SVal × Pos)}
    (hinv : C3Inv grid start endp mode st)
    (hpop : popMin st.heap = some (e, rest)) (hvis : e.2 ∈ st.visited) :
    C3Inv grid start endp mode
      { heap := rest
        g := st.g
        prev := st.prev
        visited := st.visited
        expanded := st.expanded } := by
  have hsub : ∀ f ∈ rest, f ∈ st.heap := (popMin_mem hpop).2
  refine ⟨hinv.chain, ?_, hinv.gsound, hinv.gbound, hinv.pexact, hinv.vexact,
    hinv.vclosed, ?_, ?_, ?_, hinv.vinb, hinv.vnodup, hinv.endnv⟩
  · exact fun f hf => hinv.hg f (hsub f hf)
  · intro q n hqv hq
    obtain ⟨f, hf, hval⟩ := hinv.hfresh q n hqv hq
    have hqe : q ≠ e.2 := fun hc => hqv (hc ▸ hvis)
    exact ⟨f, entry_mem_rest hpop hf hqe, hval⟩
  · exact fun f q hfq n hq => hinv.hlb f q (hsub (f, q) hfq) n hq
  · exact fun f hf => hinv.hinb f (hsub f hf)

/-- Popping a fresh cell establishes the mid-expansion invariant for it. -/
theorem c3inv_pop_new {grid : Grid} {start endp : Pos} {mode : String}
    {st : AState} {e : SVal × Pos} {rest : List (SVal × Pos)}
    (hinv : C3Inv grid start endp mode st)
    (hpop : popMin st.heap = some (e, rest)) (hnv : e.2 ∉ st.visited)
    (hne : e.2 ≠ endp) {cg : ℕ} (hcg : st.g e.2 = some cg) :
    C3Mid grid start endp mode e.2 cg []
      { heap := rest
        g := st.g
        prev := st.prev
        visited := e.2 :: st.visited
        expanded := st.expanded + 1 } := by
  have hdist := pop_exact hinv hpop hnv hcg
  have hsub : ∀ f ∈ rest, f ∈ st.heap := (popMin_mem hpop).2
  refine ⟨hinv.chain, ?_, hinv.gsound, ?_, hinv.pexact, ?_, ?_, ?_, hcg,
    hdist, ?_, ?_, ?_, ?_, ?_, ?_, ?_, ?_⟩
  · exact fun f hf => hinv.hg f (hsub f hf)
  · intro p n hp
    have := hinv.gbound p n hp
    dsimp only
    rw [List.length_cons]
    omega
  · intro p hp
    rcases List.mem_cons.1 hp with h | h
    · rw [h]
      exact ⟨cg, hcg, hdist⟩
    · exact hinv.vexact p h
  · intro p hp hpz n hgp d hd hfree
    rcases List.mem_cons.1 hp with h | h
    · exact absurd h hpz
    · exact hinv.vclosed p h n hgp d hd hfree
  · exact List.mem_cons_self _ _
  · dsimp only
    rw [List.length_cons]
    have := hinv.gbound e.2 cg hcg
    omega
  · intro d hd hfree
    cases hd
  · intro q n hqv hq
    have hqe : q ≠ e.2 := fun hc => hqv (by rw [hc]; exact List.mem_cons_self _ _)
    have hqv' : q ∉ st.visited := fun hc => hqv (List.mem_cons_of_mem _ hc)
    obtain ⟨f, hf, hval⟩ := hinv.hfresh q n hqv' hq
    exact ⟨f, entry_mem_rest hpop hf hqe, hval⟩
  · exact fun f q hfq n hq => hinv.hlb f q (hsub (f, q) hfq) n hq
  · exact fun f hf => hinv.hinb f (hsub f hf)
  · intro p hp
    rcases List.mem_cons.1 hp with h | h
    · rw [h]
      exact hinv.hinb e (popMin_mem hpop).1
    · exact hinv.vinb p h
  · exact List.nodup_cons.2 ⟨hnv, hinv.vnodup⟩
  · intro hc
    rcases List.mem_cons.1 hc with h | h
    · exact hne h.symm
    · exact hinv.endnv h

theorem foldl_relaxNF_c3mid {grid : Grid} {start endp : Pos} {mode : String}
    {z : Pos} {cg : ℕ} :
    ∀ (l done : List (ℤ × ℤ)), (∀ x ∈ l, x ∈ stepdirs) →
      ∀ {st : AState}, C3Mid grid start endp mode z cg done st →
      C3Mid grid start endp mode z cg (done ++ l)
        (l.foldl (relaxNF grid endp mode z cg) st) ∧
      (l.foldl (relaxNF grid endp mode z cg) st).heap.length ≤
        st.heap.length + l.length ∧
      (l.foldl (relaxNF grid endp mode z cg) st).visited = st.visited := by
  intro l
  induction l with
  | nil =>
    intro done _ st hmid
    rw [List.foldl_nil, List.append_nil]
    exact ⟨hmid, Nat.le_add_right _ _, rfl⟩
  | cons x xs ih =>
    intro done hsub st hmid
    rw [List.foldl_cons]
    obtain ⟨h1, h2, h3⟩ := relaxNF_c3mid (hsub x (by simp)) hmid
    obtain ⟨h4, h5, h6⟩ := ih (done ++ [x]) (fun y hy => hsub y (by simp [hy])) h1
    refine ⟨?_, ?_, ?_⟩
    · have he : done ++ [x] ++ xs = done ++ x :: xs := by simp
      rw [he] at h4
      exact h4
    · rw [List.length_cons]
      omega
    · rw [h6, h3]

theorem c3mid_to_inv {grid : Grid} {start endp : Pos} {mode : String}
    {z : Pos} {cg : ℕ} {st : AState}
    (hmid : C3Mid grid start endp mode z cg stepdirs st) :
    C3Inv grid start endp mode st := by
  refine ⟨hmid.chain, hmid.hg, hmid.gsound, hmid.gbound, hmid.pexact,
    hmid.vexact, ?_, hmid.hfresh, hmid.hlb, hmid.hinb, hmid.vinb,
    hmid.vnodup, hmid.endnv⟩
  intro p hp n hgp d hd hfree
  by_cases hpz : p = z
  · subst hpz
    have hcgn : cg = n := by
      rw [hmid.zg] at hgp
      injection hgp
    obtain ⟨m, hm, hle⟩ := hmid.zdone d hd hfree
    exact ⟨m, hm, by omega⟩
  · exact hmid.vclosedO p hp hpz n hgp d hd hfree

/-- The plain A* loop, run with enough fuel from an invariant state, ends in
a state satisfying the loop postcondition. -/
theorem loopNF_runs (grid : Grid) (start endp : Pos) (mode : String) :
    ∀ (fuel : ℕ) (st : AState), C3Inv grid start endp mode st →
      c3Pot grid st < fuel →
      C3Post grid start endp (loopNF grid endp mode fuel st)
  | 0, _, _, hpot => absurd hpot (by omega)
  | fuel + 1, st, hinv, hpot => by
    rw [loopNF]
    split
    · rename_i hpop
      have hheap : st.heap = [] := popMin_eq_none hpop
      refine ⟨hinv.chain, hinv.pexact, ?_⟩
      cases hge : st.g endp with
      | some m =>
        exfalso
        obtain ⟨f, hf, _⟩ := hinv.hfresh endp m hinv.endnv hge
        rw [hheap] at hf
        cases hf
      | none =>
        refine Or.inr ⟨rfl, ?_⟩
        intro k hk
        obtain ⟨f, q, hf, _⟩ := walk_frontier hk hinv hinv.endnv
        rw [hheap] at hf
        cases hf
    · rename_i e rest hpop
      split_ifs with hvis hend
      · have hstep := c3inv_skip hinv hpop hvis
        apply loopNF_runs grid start endp mode fuel _ hstep
        have hlen : st.heap.length = rest.length + 1 := by
          have hp := (popMin_perm hpop).length_eq
          simpa using hp
        unfold c3Pot at hpot ⊢
        dsimp only at hpot ⊢
        omega
      · have hgs := hinv.hg e (popMin_mem hpop).1
        obtain ⟨m, hm⟩ := Option.isSome_iff_exists.1 hgs
        have hdist := pop_exact hinv hpop hvis hm
        refine ⟨hinv.chain, hinv.pexact, Or.inl ⟨m, ?_, ?_, ?_⟩⟩
        · dsimp only
          rw [← hend]
          exact hm
        · rw [← hend]
          exact hdist
        · have hb := hinv.gbound e.2 m hm
          have hv := visited_card_le hinv.vnodup hinv.vinb
          omega
      · have hgs := hinv.hg e (popMin_mem hpop).1
        obtain ⟨cg, hcg⟩ := Option.isSome_iff_exists.1 hgs
        rw [hcg]
        simp only [Option.getD_some]
        have hmid := c3inv_pop_new hinv hpop hvis hend hcg
        have hfold := foldl_relaxNF_c3mid stepdirs [] (fun x hx => hx) hmid
        have hfold1 := hfold.1
        rw [List.nil_append] at hfold1
        have hinv2 := c3mid_to_inv hfold1
        apply loopNF_runs grid start endp mode fuel _ hinv2
        have hlen : st.heap.length = rest.length + 1 := by
          have hp := (popMin_perm hpop).length_eq
          simpa using hp
        have hvl := visited_card_le hinv2.vnodup hinv2.vinb
        have h2 := hfold.2.1
        have h3 := hfold.2.2
        unfold c3Pot at hpot ⊢
        rw [h3] at hvl ⊢
        dsimp only at hpot h2 hvl ⊢
        simp only [List.length_cons] at hvl ⊢
        have hsd : stepdirs.length = 4 := rfl
        rw [hsd] at h2
        omega

/-- Path reconstruction along exact unit-decrement chains yields a list of
length exactly `cost + 1`. -/
theorem rebuild_exact {grid : Grid} {start : Pos} {g : Pos → Option ℕ}
    {prev : Pos → Option (Option Pos)}
    (hchain : ChainInv grid start g prev)
    (hpex : ∀ p c, prev p = some (some c) → ∃ mc, g c = some mc ∧
      g p = some (mc + 1) ∧ IsDist grid start c mc) :
    ∀ (n : ℕ) (cur : Pos) (acc : List Pos) (fuel : ℕ), g cur = some n →
      n + 1 ≤ fuel →
      ∃ l, rebuild prev fuel cur acc = l ++ acc ∧ l.length = n + 1 := by
  intro n
  induction n using Nat.strong_induction_on with
  | _ n ih =>
    intro cur acc fuel hg hfuel
    cases fuel with
    | zero => omega
    | succ f =>
      rw [rebuild]
      have hpd := hchain.gdom cur (by rw [hg]; rfl)
      cases hpv : prev cur with
      | none =>
        rw [hpv] at hpd
        cases hpd
      | some o =>
        cases o with
        | none =>
          have hcs := hchain.pnone cur hpv
          have hn0 : n = 0 := by
            rw [hcs, hchain.gstart] at hg
            injection hg with h'
            omega
          exact ⟨[cur], rfl, by simp [hn0]⟩
        | some c =>
          obtain ⟨mc, hgc, hgp, hdc⟩ := hpex cur c hpv
          have hmc : n = mc + 1 := by
            rw [hg] at hgp
            injection hgp
          obtain ⟨l', hl', hlen'⟩ := ih mc (by omega) c (cur :: acc) f hgc
            (by omega)
          refine ⟨l' ++ [cur], ?_, ?_⟩
          · show rebuild prev f c (cur :: acc) = l' ++ [cur] ++ acc
            rw [hl']
            simp
          · rw [List.length_append, hlen']
            simp
            omega

/-- C3: for every grid, non-wall in-bounds start and end, and every
heuristic mode (in particular manhattan, euclidean and zero), the
hazard-blind search returns a path with exactly `d + 1` cells — `d` edges —
where `d` is the exact shortest wall-free walk distance from start to end,
whenever end is reachable; and it returns the empty path when end is
unreachable. -/
theorem c3_plain_search_optimal (grid : Grid) (start endp : Pos)
    (mode : String) (hs : Free grid start) (he : Free grid endp) :
    ((∃ n, WalkN grid n start endp) →
      ∃ m, IsDist grid start endp m ∧
        (a_star_no_fire grid start endp mode).1.length = m + 1) ∧
    ((∀ n, ¬WalkN grid n start endp) →
      (a_star_no_fire grid start endp mode).1 = []) := by
  have hinv0 := initState_c3inv grid start endp mode hs (List.not_mem_nil endp)
  have hpot0 : c3Pot grid (initState start endp mode) < loopFuel grid := by
    unfold c3Pot initState loopFuel
    dsimp only
    simp only [List.length_cons, List.length_nil]
    omega
  obtain ⟨hchain, hpex, hdisj⟩ :=
    loopNF_runs grid start endp mode (loopFuel grid) _ hinv0 hpot0
  unfold a_star_no_fire finishA
  rcases hdisj with ⟨m, hgm, hdm, hmb⟩ | ⟨hgn, hunreach⟩
  · constructor
    · intro _
      refine ⟨m, hdm, ?_⟩
      have hpd := hchain.gdom endp (by rw [hgm]; rfl)
      cases hpv : (loopNF grid endp mode (loopFuel grid)
          (initState start endp mode)).prev endp with
      | none =>
        rw [hpv] at hpd
        cases hpd
      | some o =>
        obtain ⟨l, hl, hlen⟩ := rebuild_exact hchain hpex m endp []
          (rebFuel grid) hgm (by unfold rebFuel; omega)
        show (rebuild (loopNF grid endp mode (loopFuel grid)
          (initState start endp mode)).prev (rebFuel grid) endp []).length =
          m + 1
        rw [hl, List.append_nil]
        exact hlen
    · intro hno
      exact absurd hdm.1 (hno m)
  · constructor
    · intro hex
      obtain ⟨n, hn⟩ := hex
      exact absurd hn (hunreach n)
    · intro _
      cases hpv : (loopNF grid endp mode (loopFuel grid)
          (initState start endp mode)).prev endp with
      | some o =>
        have hpd := hchain.pdom endp (by rw [hpv]; rfl)
        rw [hgn] at hpd
        cases hpd
      | none => rfl

theorem c3_plain_search_optimal_witness :
    (Free [['.', '.']] ((0 : ℤ), (0 : ℤ)) ∧
      Free [['.', '.']] ((1 : ℤ), (0 : ℤ)) ∧
      WalkN [['.', '.']] 1 (0, 0) (1, 0)) ∧
    ∃ m, IsDist [['.', '.']] (0, 0) (1, 0) m ∧
      (a_star_no_fire [['.', '.']] (0, 0) (1, 0) "manhattan").1.length =
        m + 1 :=
  ⟨⟨by decide, by decide,
      WalkN.tail (WalkN.refl (0, 0) (by decide)) (by decide) (by decide)⟩,
    (c3_plain_search_optimal [['.', '.']] (0, 0) (1, 0) "manhattan"
        (by decide) (by decide)).1
      ⟨1, WalkN.tail (WalkN.refl (0, 0) (by decide)) (by decide) (by decide)⟩⟩

/-! ### C9 machinery: the carved maze is a spanning tree (odd dimensions) -/

theorem setG_shape {w h : ℕ} {g : MGrid} (hsh : MGridShape w h g) (q : Pos)
    (v : ℕ) : MGridShape w h (setG g q v) := by
  unfold setG
  refine ⟨by rw [List.length_set]; exact hsh.1, ?_⟩
  intro r hr
  by_cases hq : q.2.toNat < g.length
  · rcases List.mem_or_eq_of_mem_set hr with h' | h'
    · exact hsh.2 r h'
    · rw [h', List.length_set]
      have hmem : g.getD q.2.toNat [] ∈ g := by
        rw [List.getD_eq_getElem?_getD, List.getElem?_eq_getElem hq,
          Option.getD_some]
        exact List.getElem_mem hq
      exact hsh.2 _ hmem
  · rw [List.set_eq_of_length_le (Nat.le_of_not_lt hq)] at hr
    exact hsh.2 r hr

/-- Reading after an interior write on a well-shaped grid: no index
aliasing. -/
theorem mgAt_setG_pt {w h : ℕ} {g : MGrid} (hsh : MGridShape w h g) {q : Pos}
    (hq : Interior w h q) (v : ℕ) (p : Pos) :
    mgAt (setG g q v) p = if p = q then v else mgAt g p := by
  obtain ⟨hq1, hq2, hq3, hq4⟩ := hq
  rw [mgAt_setG]
  have hlt : q.2.toNat < g.length := by
    rw [hsh.1]
    omega
  have hrowlen : (g.getD q.2.toNat []).length = w := by
    have hmem : g.getD q.2.toNat [] ∈ g := by
      rw [List.getD_eq_getElem?_getD, List.getElem?_eq_getElem hlt,
        Option.getD_some]
      exact List.getElem_mem hlt
    exact hsh.2 _ hmem
  by_cases hpq : p = q
  · subst hpq
    rw [if_pos ⟨rfl, rfl, hlt, by rw [hrowlen]; omega⟩, if_pos rfl]
  · rw [if_neg, if_neg hpq]
    intro hcond
    obtain ⟨h2, h1, _, _⟩ := hcond
    apply hpq
    have hp1 : p.1 = q.1 := by omega
    have hp2 : p.2 = q.2 := by omega
    exact Prod.ext hp1 hp2

theorem mreach_mono {g g' : MGrid}
    (hmono : ∀ r, mgAt g r = 0 → mgAt g' r = 0) {p q : Pos}
    (h : MReach g p q) : MReach g' p q := by
  induction h with
  | refl hp => exact MReach.refl _ (hmono _ hp)
  | tail h ha hr ih => exact MReach.tail ih ha (hmono _ hr)

theorem carveNbrs_nil {w h : ℕ} {gr : MGrid} {x y : ℤ}
    (hnil : carveNbrs w h gr x y = []) :
    ∀ d ∈ carveDirs, 0 < x + d.1 → x + d.1 < (w : ℤ) - 1 →
      0 < y + d.2 → y + d.2 < (h : ℤ) - 1 →
      mgAt gr (x + d.1, y + d.2) ≠ 1 := by
  intro d hd h1 h2 h3 h4 hval
  have hmem : (((x + d.1, y + d.2) : Pos), ((d.1 / 2 : ℤ), (d.2 / 2 : ℤ))) ∈
      carveNbrs w h gr x y := by
    unfold carveNbrs
    rw [List.mem_filterMap]
    refine ⟨d, hd, ?_⟩
    simp only
    rw [if_pos ⟨h1, h2, h3, h4, hval⟩]
  rw [hnil] at hmem
  cases hmem

theorem mem_nodesFin {w h : ℕ} {p : Pos} :
    p ∈ nodesFin w h ↔
      (0 ≤ p.1 ∧ p.1 < (w : ℤ) ∧ 0 ≤ p.2 ∧ p.2 < (h : ℤ)) ∧ NodeP p := by
  unfold nodesFin
  rw [Finset.mem_filter, mem_cellsFin]

theorem mem_linksFin {w h : ℕ} {p : Pos} :
    p ∈ linksFin w h ↔
      (0 ≤ p.1 ∧ p.1 < (w : ℤ) ∧ 0 ≤ p.2 ∧ p.2 < (h : ℤ)) ∧
        (HLinkP p ∨ VLinkP p) := by
  unfold linksFin
  rw [Finset.mem_filter, mem_cellsFin]

/-- One carving move preserves the tree invariant and closes exactly one
fewer node. -/
theorem carve_step_inv {w h : ℕ} {st : GenState} (hinv : CarveTreeInv w h st)
    {x y : ℤ} (hhead : (x, y) ∈ st.stack) {c : Pos × Pos}
    (hc : c ∈ carveNbrs w h st.grid x y) {g2 : MGrid}
    (hg2 : g2 = setG (setG st.grid (x + c.2.1, y + c.2.2) 0) c.1 0)
    (ctr' : ℕ) :
    CarveTreeInv w h { grid := g2, stack := c.1 :: st.stack, ctr := ctr' } ∧
    ((nodesFin w h).filter fun p => mgAt g2 p ≠ 0).card + 1 =
      ((nodesFin w h).filter fun p => mgAt st.grid p ≠ 0).card := by
  obtain ⟨d, hd, hc1, hc2, hd1, hd2, hd3, hd4, hcz⟩ := carveNbrs_mem hc
  obtain ⟨hxyN, hxyO⟩ := hinv.stackOpen (x, y) hhead
  have hxp : x % 2 = 1 := hxyN.1
  have hyp : y % 2 = 1 := hxyN.2
  have hxyI := (hinv.openShape (x, y) hxyO).1
  have hxI1 : 0 < x := hxyI.1
  have hxI2 : x < (w : ℤ) - 1 := hxyI.2.1
  have hxI3 : 0 < y := hxyI.2.2.1
  have hxI4 : y < (h : ℤ) - 1 := hxyI.2.2.2
  have hkey : (d.1 = 2 * c.2.1 ∧ d.2 = 2 * c.2.2) ∧
      ((c.2.1 = 0 ∧ (c.2.2 = 1 ∨ c.2.2 = -1)) ∨
        (c.2.2 = 0 ∧ (c.2.1 = 1 ∨ c.2.1 = -1))) := by
    simp only [carveDirs, List.mem_cons, List.mem_singleton] at hd
    rcases hd with rfl | rfl | rfl | (rfl | hfalse)
    · rw [hc2]
      norm_num
    · rw [hc2]
      norm_num
    · rw [hc2]
      norm_num
    · rw [hc2]
      norm_num
    · cases hfalse
  obtain ⟨⟨hdc1, hdc2⟩, hsgn⟩ := hkey
  have hcz' : mgAt st.grid c.1 = 1 := by
    rw [hc1]
    exact hcz
  have hznode : NodeP c.1 := by
    rw [hc1]
    unfold NodeP
    constructor
    · show (x + d.1) % 2 = 1
      omega
    · show (y + d.2) % 2 = 1
      omega
  have hzI : Interior w h c.1 := by
    rw [hc1]
    exact ⟨hd1, hd2, hd3, hd4⟩
  have hw0I : Interior w h ((x + c.2.1, y + c.2.2) : Pos) := by
    unfold Interior
    refine ⟨?_, ?_, ?_, ?_⟩
    · show 0 < x + c.2.1
      rcases hsgn with ⟨h1, h2 | h2⟩ | ⟨h1, h2 | h2⟩ <;> omega
    · show x + c.2.1 < (w : ℤ) - 1
      rcases hsgn with ⟨h1, h2 | h2⟩ | ⟨h1, h2 | h2⟩ <;> omega
    · show 0 < y + c.2.2
      rcases hsgn with ⟨h1, h2 | h2⟩ | ⟨h1, h2 | h2⟩ <;> omega
    · show y + c.2.2 < (h : ℤ) - 1
      rcases hsgn with ⟨h1, h2 | h2⟩ | ⟨h1, h2 | h2⟩ <;> omega
  have hw0nN : ¬NodeP ((x + c.2.1, y + c.2.2) : Pos) := by
    intro hn
    have hn1 : (x + c.2.1) % 2 = 1 := hn.1
    have hn2 : (y + c.2.2) % 2 = 1 := hn.2
    rcases hsgn with ⟨h1, h2 | h2⟩ | ⟨h1, h2 | h2⟩ <;> omega
  have hxyadj : Adjacent (x, y) ((x + c.2.1, y + c.2.2) : Pos) := by
    unfold Adjacent
    dsimp only
    rcases hsgn with ⟨h1, h2 | h2⟩ | ⟨h1, h2 | h2⟩ <;> omega
  have hw0adj : Adjacent ((x + c.2.1, y + c.2.2) : Pos) c.1 := by
    rw [hc1]
    unfold Adjacent
    dsimp only
    rcases hsgn with ⟨h1, h2 | h2⟩ | ⟨h1, h2 | h2⟩ <;> omega
  have hw0nz : ((x + c.2.1, y + c.2.2) : Pos) ≠ c.1 := by
    rw [hc1]
    intro he
    rw [Prod.mk.injEq] at he
    rcases hsgn with ⟨h1, h2 | h2⟩ | ⟨h1, h2 | h2⟩ <;> omega
  have hw0closed : mgAt st.grid (x + c.2.1, y + c.2.2) = 1 := by
    rcases hinv.binary (x + c.2.1, y + c.2.2) with h0 | hdone
    · exfalso
      obtain ⟨_, hcls⟩ := hinv.openShape _ h0
      rcases hcls with hn | ⟨hH, hf1, hf2⟩ | ⟨hV, hf1, hf2⟩
      · exact hw0nN hn
      · have hH1 : (x + c.2.1) % 2 = 0 := hH.1
        have hf1' : mgAt st.grid (x + c.2.1 - 1, y + c.2.2) = 0 := hf1
        have hf2' : mgAt st.grid (x + c.2.1 + 1, y + c.2.2) = 0 := hf2
        rcases hsgn with ⟨h1, h2 | h2⟩ | ⟨h1, h2 | h2⟩
        · omega
        · omega
        · have he1 : (x + c.2.1 + 1 : ℤ) = x + d.1 := by omega
          have he2 : (y + c.2.2 : ℤ) = y + d.2 := by omega
          rw [he1, he2, ← hc1] at hf2'
          rw [hcz'] at hf2'
          exact one_ne_zero hf2'
        · have he1 : (x + c.2.1 - 1 : ℤ) = x + d.1 := by omega
          have he2 : (y + c.2.2 : ℤ) = y + d.2 := by omega
          rw [he1, he2, ← hc1] at hf1'
          rw [hcz'] at hf1'
          exact one_ne_zero hf1'
      · have hV2 : (y + c.2.2) % 2 = 0 := hV.2
        have hf1' : mgAt st.grid (x + c.2.1, y + c.2.2 - 1) = 0 := hf1
        have hf2' : mgAt st.grid (x + c.2.1, y + c.2.2 + 1) = 0 := hf2
        rcases hsgn with ⟨h1, h2 | h2⟩ | ⟨h1, h2 | h2⟩
        · have he1 : (x + c.2.1 : ℤ) = x + d.1 := by omega
          have he2 : (y + c.2.2 + 1 : ℤ) = y + d.2 := by omega
          rw [he1, he2, ← hc1] at hf2'
          rw [hcz'] at hf2'
          exact one_ne_zero hf2'
        · have he1 : (x + c.2.1 : ℤ) = x + d.1 := by omega
          have he2 : (y + c.2.2 - 1 : ℤ) = y + d.2 := by omega
          rw [he1, he2, ← hc1] at hf1'
          rw [hcz'] at hf1'
          exact one_ne_zero hf1'
        · omega
        · omega
    · exact hdone
  have hsh1 : MGridShape w h (setG st.grid (x + c.2.1, y + c.2.2) 0) :=
    setG_shape hinv.shape _ _
  have hsh2 : MGridShape w h g2 := by
    rw [hg2]
    exact setG_shape hsh1 _ _
  have hread : ∀ p : Pos, mgAt g2 p =
      if p = c.1 then 0
      else if p = (x + c.2.1, y + c.2.2) then 0 else mgAt st.grid p := by
    intro p
    rw [hg2, mgAt_setG_pt hsh1 hzI 0 p]
    by_cases hp1 : p = c.1
    · rw [if_pos hp1, if_pos hp1]
    · rw [if_neg hp1, if_neg hp1, mgAt_setG_pt hinv.shape hw0I 0 p]
  have hmono : ∀ p : Pos, mgAt st.grid p = 0 → mgAt g2 p = 0 := by
    intro p hp
    rw [hread]
    split_ifs with h1 h2
    · rfl
    · rfl
    · exact hp
  have hznew : mgAt g2 c.1 = 0 := by
    rw [hread, if_pos rfl]
  have hw0new : mgAt g2 (x + c.2.1, y + c.2.2) = 0 := by
    rw [hread, if_neg hw0nz, if_pos rfl]
  have hxynew : mgAt g2 (x, y) = 0 := hmono _ hxyO
  have hznotstack : c.1 ∉ st.stack := by
    intro hmem
    have hop := (hinv.stackOpen c.1 hmem).2
    rw [hcz'] at hop
    exact one_ne_zero hop
  have hlinkNew : (HLinkP ((x + c.2.1, y + c.2.2) : Pos) ∧
        mgAt g2 (x + c.2.1 - 1, y + c.2.2) = 0 ∧
        mgAt g2 (x + c.2.1 + 1, y + c.2.2) = 0) ∨
      (VLinkP ((x + c.2.1, y + c.2.2) : Pos) ∧
        mgAt g2 (x + c.2.1, y + c.2.2 - 1) = 0 ∧
        mgAt g2 (x + c.2.1, y + c.2.2 + 1) = 0) := by
    rcases hsgn with ⟨h1, h2 | h2⟩ | ⟨h1, h2 | h2⟩
    · refine Or.inr ⟨⟨?_, ?_⟩, ?_, ?_⟩
      · show (x + c.2.1) % 2 = 1
        omega
      · show (y + c.2.2) % 2 = 0
        omega
      · have he1 : (x + c.2.1 : ℤ) = x := by omega
        have he2 : (y + c.2.2 - 1 : ℤ) = y := by omega
        rw [he1, he2]
        exact hxynew
      · have he1 : (x + c.2.1 : ℤ) = x + d.1 := by omega
        have he2 : (y + c.2.2 + 1 : ℤ) = y + d.2 := by omega
        rw [he1, he2, ← hc1]
        exact hznew
    · refine Or.inr ⟨⟨?_, ?_⟩, ?_, ?_⟩
      · show (x + c.2.1) % 2 = 1
        omega
      · show (y + c.2.2) % 2 = 0
        omega
      · have he1 : (x + c.2.1 : ℤ) = x + d.1 := by omega
        have he2 : (y + c.2.2 - 1 : ℤ) = y + d.2 := by omega
        rw [he1, he2, ← hc1]
        exact hznew
      · have he1 : (x + c.2.1 : ℤ) = x := by omega
        have he2 : (y + c.2.2 + 1 : ℤ) = y := by omega
        rw [he1, he2]
        exact hxynew
    · refine Or.inl ⟨⟨?_, ?_⟩, ?_, ?_⟩
      · show (x + c.2.1) % 2 = 0
        omega
      · show (y + c.2.2) % 2 = 1
        omega
      · have he1 : (x + c.2.1 - 1 : ℤ) = x := by omega
        have he2 : (y + c.2.2 : ℤ) = y := by omega
        rw [he1, he2]
        exact hxynew
      · have he1 : (x + c.2.1 + 1 : ℤ) = x + d.1 := by omega
        have he2 : (y + c.2.2 : ℤ) = y + d.2 := by omega
        rw [he1, he2, ← hc1]
        exact hznew
    · refine Or.inl ⟨⟨?_, ?_⟩, ?_, ?_⟩
      · show (x + c.2.1) % 2 = 0
        omega
      · show (y + c.2.2) % 2 = 1
        omega
      · have he1 : (x + c.2.1 - 1 : ℤ) = x + d.1 := by omega
        have he2 : (y + c.2.2 : ℤ) = y + d.2 := by omega
        rw [he1, he2, ← hc1]
        exact hznew
      · have he1 : (x + c.2.1 + 1 : ℤ) = x := by omega
        have he2 : (y + c.2.2 : ℤ) = y := by omega
        rw [he1, he2]
        exact hxynew
  have hzcells : c.1 ∈ nodesFin w h := by
    rw [mem_nodesFin]
    obtain ⟨i1, i2, i3, i4⟩ := hzI
    exact ⟨⟨by omega, by omega, by omega, by omega⟩, hznode⟩
  have hw0cells : ((x + c.2.1, y + c.2.2) : Pos) ∈ linksFin w h := by
    rw [mem_linksFin]
    obtain ⟨i1, i2, i3, i4⟩ := hw0I
    refine ⟨⟨by omega, by omega, by omega, by omega⟩, ?_⟩
    rcases hlinkNew with hH | hV
    · exact Or.inl hH.1
    · exact Or.inr hV.1
  have hznotopen : c.1 ∉ (nodesFin w h).filter fun p => mgAt st.grid p = 0 := by
    intro hmem
    have hop := (Finset.mem_filter.1 hmem).2
    rw [hcz'] at hop
    exact one_ne_zero hop
  have hw0notopen : ((x + c.2.1, y + c.2.2) : Pos) ∉
      (linksFin w h).filter fun p => mgAt st.grid p = 0 := by
    intro hmem
    have hop := (Finset.mem_filter.1 hmem).2
    rw [hw0closed] at hop
    exact one_ne_zero hop
  refine ⟨⟨hsh2, ?_, ?_, ?_, ?_, ?_, ?_, ?_, ?_⟩, ?_⟩
  · intro p
    dsimp only
    rw [hread]
    split_ifs with h1 h2
    · exact Or.inl rfl
    · exact Or.inl rfl
    · exact hinv.binary p
  · dsimp only
    exact hmono _ hinv.startOpen
  · intro p hp
    dsimp only at hp ⊢
    rw [hread] at hp
    split_ifs at hp with h1 h2
    · subst h1
      exact ⟨hzI, Or.inl hznode⟩
    · subst h2
      refine ⟨hw0I, ?_⟩
      rcases hlinkNew with hH | hV
      · exact Or.inr (Or.inl hH)
      · exact Or.inr (Or.inr hV)
    · obtain ⟨hI, hcls⟩ := hinv.openShape p hp
      refine ⟨hI, ?_⟩
      rcases hcls with hn | ⟨hH, hf1, hf2⟩ | ⟨hV, hf1, hf2⟩
      · exact Or.inl hn
      · exact Or.inr (Or.inl ⟨hH, hmono _ hf1, hmono _ hf2⟩)
      · exact Or.inr (Or.inr ⟨hV, hmono _ hf1, hmono _ hf2⟩)
  · intro p hp
    dsimp only at hp ⊢
    rw [hread] at hp
    have hconnw0 : MReach g2 (1, 1) (x + c.2.1, y + c.2.2) :=
      MReach.tail (mreach_mono hmono (hinv.conn _ hxyO)) hxyadj hw0new
    split_ifs at hp with h1 h2
    · subst h1
      exact MReach.tail hconnw0 hw0adj hznew
    · subst h2
      exact hconnw0
    · exact mreach_mono hmono (hinv.conn p hp)
  · intro p hp
    dsimp only at hp ⊢
    rcases List.mem_cons.1 hp with rfl | hp
    · exact ⟨hznode, hznew⟩
    · obtain ⟨hN, hO⟩ := hinv.stackOpen p hp
      exact ⟨hN, hmono _ hO⟩
  · dsimp only
    exact List.nodup_cons.2 ⟨hznotstack, hinv.stackNodup⟩
  · intro p hN hpO hpstk d' hd' b1 b2 b3 b4
    dsimp only at hpO hpstk ⊢
    have hpz : p ≠ c.1 := fun hcon =>
      hpstk (by rw [hcon]; exact List.mem_cons_self _ _)
    have hpw0 : p ≠ (x + c.2.1, y + c.2.2) := fun hcon => hw0nN (hcon ▸ hN)
    rw [hread, if_neg hpz, if_neg hpw0] at hpO
    have hpstk' : p ∉ st.stack := fun hcon =>
      hpstk (List.mem_cons_of_mem _ hcon)
    exact hmono _ (hinv.explored p hN hpO hpstk' d' hd' b1 b2 b3 b4)
  · dsimp only
    have hopenEq : ((nodesFin w h).filter fun p => mgAt g2 p = 0) =
        insert c.1 ((nodesFin w h).filter fun p => mgAt st.grid p = 0) := by
      ext q
      simp only [Finset.mem_filter, Finset.mem_insert]
      constructor
      · rintro ⟨hqn, hq0⟩
        rw [hread] at hq0
        split_ifs at hq0 with h1 h2
        · exact Or.inl h1
        · exact absurd (h2 ▸ (mem_nodesFin.1 hqn).2) hw0nN
        · exact Or.inr ⟨hqn, hq0⟩
      · rintro (rfl | ⟨hqn, hq0⟩)
        · exact ⟨hzcells, hznew⟩
        · exact ⟨hqn, hmono q hq0⟩
    have hlinkEq : ((linksFin w h).filter fun p => mgAt g2 p = 0) =
        insert ((x + c.2.1, y + c.2.2) : Pos)
          ((linksFin w h).filter fun p => mgAt st.grid p = 0) := by
      ext q
      simp only [Finset.mem_filter, Finset.mem_insert]
      constructor
      · rintro ⟨hql, hq0⟩
        rw [hread] at hq0
        split_ifs at hq0 with h1 h2
        · exfalso
          have hqN : NodeP q := by
            rw [h1]
            exact hznode
          rcases (mem_linksFin.1 hql).2 with hH | hV
          · have e1 : q.1 % 2 = 0 := hH.1
            have e2 : q.1 % 2 = 1 := hqN.1
            omega
          · have e1 : q.2 % 2 = 0 := hV.2
            have e2 : q.2 % 2 = 1 := hqN.2
            omega
        · exact Or.inl h2
        · exact Or.inr ⟨hql, hq0⟩
      · rintro (rfl | ⟨hql, hq0⟩)
        · exact ⟨hw0cells, hw0new⟩
        · exact ⟨hql, hmono q hq0⟩
    rw [hopenEq, hlinkEq, Finset.card_insert_of_not_mem hznotopen,
      Finset.card_insert_of_not_mem hw0notopen, hinv.count]
  · have hclosedEq : ((nodesFin w h).filter fun p => mgAt g2 p ≠ 0) =
        ((nodesFin w h).filter fun p => mgAt st.grid p ≠ 0).erase c.1 := by
      ext q
      simp only [Finset.mem_filter, Finset.mem_erase]
      constructor
      · rintro ⟨hqn, hq0⟩
        rw [hread] at hq0
        split_ifs at hq0 with h1 h2
        · exact absurd rfl hq0
        · exact absurd rfl hq0
        · exact ⟨h1, hqn, hq0⟩
      · rintro ⟨hne, hqn, hq0⟩
        refine ⟨hqn, ?_⟩
        rw [hread, if_neg hne]
        by_cases h2 : q = (x + c.2.1, y + c.2.2)
        · exact absurd (h2 ▸ (mem_nodesFin.1 hqn).2) hw0nN
        · rw [if_neg h2]
          exact hq0
    have hmemc : c.1 ∈ (nodesFin w h).filter fun p => mgAt st.grid p ≠ 0 :=
      Finset.mem_filter.2 ⟨hzcells, by rw [hcz']; omega⟩
    have hpos : 0 < ((nodesFin w h).filter fun p => mgAt st.grid p ≠ 0).card :=
      Finset.card_pos.2 ⟨c.1, hmemc⟩
    rw [hclosedEq, Finset.card_erase_of_mem hmemc]
    omega

/-- Popping a fully-explored node preserves the tree invariant. -/
theorem carve_pop_inv {w h : ℕ} {st : GenState} (hinv : CarveTreeInv w h st)
    {x y : ℤ} {rest : List Pos} (hst : st.stack = (x, y) :: rest)
    (hnil : carveNbrs w h st.grid x y = []) :
    CarveTreeInv w h { grid := st.grid, stack := rest, ctr := st.ctr } := by
  refine ⟨hinv.shape, hinv.binary, hinv.startOpen, hinv.openShape, hinv.conn,
    ?_, ?_, ?_, hinv.count⟩
  · intro p hp
    exact hinv.stackOpen p (by rw [hst]; exact List.mem_cons_of_mem _ hp)
  · have hnd := hinv.stackNodup
    rw [hst] at hnd
    exact (List.nodup_cons.1 hnd).2
  · intro p hN hpO hpstk d' hd' b1 b2 b3 b4
    dsimp only at hpstk ⊢
    by_cases hpx : p = ((x : ℤ), (y : ℤ))
    · subst hpx
      have hne1 := carveNbrs_nil hnil d' hd' b1 b2 b3 b4
      rcases hinv.binary (x + d'.1, y + d'.2) with h0 | h1
      · exact h0
      · exact absurd h1 hne1
    · have hpstk' : p ∉ st.stack := by
        intro hcon
        rw [hst] at hcon
        rcases List.mem_cons.1 hcon with he | hm
        · exact hpx he
        · exact hpstk hm
      exact hinv.explored p hN hpO hpstk' d' hd' b1 b2 b3 b4

/-- The carving loop, run with enough fuel from an invariant state, empties
its stack and keeps the invariant. -/
theorem carveLoop_runs (w h : ℕ) (pick : ℕ → ℕ) :
    ∀ (fuel : ℕ) (st : GenState), CarveTreeInv w h st →
      carvePot w h st < fuel →
      (carveLoop w h pick fuel st).stack = [] ∧
      CarveTreeInv w h (carveLoop w h pick fuel st)
  | 0, _, _, hpot => absurd hpot (by omega)
  | fuel + 1, st, hinv, hpot => by
    rw [carveLoop]
    cases hst : st.stack with
    | nil => exact ⟨hst, hinv⟩
    | cons hd0 rest =>
      obtain ⟨x, y⟩ := hd0
      simp only
      split_ifs with hemp
      · have hnil : carveNbrs w h st.grid x y = [] :=
          List.isEmpty_iff.1 hemp
        have hinv' := carve_pop_inv hinv hst hnil
        refine carveLoop_runs w h pick fuel _ hinv' ?_
        have hlen : st.stack.length = rest.length + 1 := by
          rw [hst]
          rfl
        unfold carvePot at hpot ⊢
        dsimp only at hpot ⊢
        simp only [List.tail_cons]
        omega
      · have hne : carveNbrs w h st.grid x y ≠ [] := by
          intro hcon
          rw [hcon] at hemp
          exact hemp rfl
        have hmem := getD_mod_mem _ hne (pick st.ctr) ((0, 0), (0, 0))
        have hhead : ((x, y) : Pos) ∈ st.stack := by
          rw [hst]
          exact List.mem_cons_self _ _
        obtain ⟨hinv', hcount⟩ := carve_step_inv hinv hhead hmem rfl (st.ctr + 1)
        rw [hst] at hinv'
        refine carveLoop_runs w h pick fuel _ hinv' ?_
        have hlen : st.stack.length = rest.length + 1 := by
          rw [hst]
          rfl
        unfold carvePot at hpot ⊢
        dsimp only at hpot ⊢
        simp only [List.length_cons] at hpot ⊢
        omega

theorem replicate_shape (w h : ℕ) :
    MGridShape w h (List.replicate h (List.replicate w (1 : ℕ))) := by
  refine ⟨List.length_replicate _ _, ?_⟩
  intro r hr
  rw [List.eq_of_mem_replicate hr]
  exact List.length_replicate _ _

/-- The initial carving state satisfies the tree invariant. -/
theorem carve_init_inv (w h : ℕ) (hw : 3 ≤ w) (hh : 3 ≤ h) :
    CarveTreeInv w h
      { grid := setG (List.replicate h (List.replicate w 1)) (1, 1) 0
        stack := [(1, 1)]
        ctr := 0 } := by
  have hI : Interior w h ((1 : ℤ), (1 : ℤ)) := by
    unfold Interior
    refine ⟨?_, ?_, ?_, ?_⟩ <;> show _ < _ <;> omega
  have hread0 : ∀ p : Pos,
      mgAt (setG (List.replicate h (List.replicate w 1)) (1, 1) 0) p =
        if p = ((1 : ℤ), (1 : ℤ)) then 0 else 1 := by
    intro p
    rw [mgAt_setG_pt (replicate_shape w h) hI 0 p]
    split_ifs with h1
    · rfl
    · exact mgAt_replicate w h p
  have hnode11 : NodeP ((1 : ℤ), (1 : ℤ)) := by
    unfold NodeP
    exact ⟨by decide, by decide⟩
  have h11open : mgAt (setG (List.replicate h (List.replicate w 1)) (1, 1) 0)
      ((1 : ℤ), (1 : ℤ)) = 0 := by
    rw [hread0, if_pos rfl]
  have h11mem : ((1 : ℤ), (1 : ℤ)) ∈ nodesFin w h := by
    rw [mem_nodesFin]
    exact ⟨⟨by omega, by omega, by omega, by omega⟩, hnode11⟩
  refine ⟨setG_shape (replicate_shape w h) _ _, ?_, ?_, ?_, ?_, ?_, ?_, ?_,
    ?_⟩
  · intro p
    dsimp only
    rw [hread0]
    split_ifs with h1
    · exact Or.inl rfl
    · exact Or.inr rfl
  · dsimp only
    exact h11open
  · intro p hp
    dsimp only at hp
    rw [hread0] at hp
    split_ifs at hp with h1
    subst h1
    exact ⟨hI, Or.inl hnode11⟩
  · intro p hp
    dsimp only at hp ⊢
    rw [hread0] at hp
    split_ifs at hp with h1
    subst h1
    exact MReach.refl _ h11open
  · intro p hp
    dsimp only at hp
    rw [List.mem_singleton] at hp
    subst hp
    exact ⟨hnode11, h11open⟩
  · dsimp only
    simp
  · intro p hN hpO hpstk d' hd' b1 b2 b3 b4
    dsimp only at hpO hpstk
    exfalso
    rw [hread0] at hpO
    split_ifs at hpO with h1
    exact hpstk (by rw [h1]; exact List.mem_singleton_self _)
  · dsimp only
    have hn : ((nodesFin w h).filter fun p =>
        mgAt (setG (List.replicate h (List.replicate w 1)) (1, 1) 0) p = 0) =
        {((1 : ℤ), (1 : ℤ))} := by
      ext q
      simp only [Finset.mem_filter, Finset.mem_singleton]
      constructor
      · rintro ⟨hq, h0⟩
        rw [hread0] at h0
        split_ifs at h0 with h1
        exact h1
      · rintro rfl
        exact ⟨h11mem, h11open⟩
    have hl : ((linksFin w h).filter fun p =>
        mgAt (setG (List.replicate h (List.replicate w 1)) (1, 1) 0) p = 0) =
        ∅ := by
      ext q
      simp only [Finset.mem_filter, Finset.not_mem_empty, iff_false,
        not_and]
      intro hq h0
      rw [hread0] at h0
      split_ifs at h0 with h1
      subst h1
      rcases (mem_linksFin.1 hq).2 with hH | hV
      · have e1 : (1 : ℤ) % 2 = 0 := hH.1
        omega
      · have e1 : (1 : ℤ) % 2 = 0 := hV.2
        omega
    rw [hn, hl]
    simp

theorem carve_init_pot (w h : ℕ) :
    carvePot w h
      { grid := setG (List.replicate h (List.replicate w 1)) (1, 1) 0
        stack := [(1, 1)]
        ctr := 0 } < carveFuel w h := by
  unfold carvePot carveFuel
  dsimp only
  have h1 := Finset.card_filter_le (nodesFin w h) fun p =>
    mgAt (setG (List.replicate h (List.replicate w 1)) (1, 1) 0) p ≠ 0
  have h2 : (nodesFin w h).card ≤ (cellsFin w h).card :=
    Finset.card_filter_le _ _
  have h3 := cellsFin_card_le w h
  simp only [List.length_cons, List.length_nil]
  omega

/-- After the carving phase the stack is empty and the invariant holds. -/
theorem generateCore_done (pick : ℕ → ℕ) (w h : ℕ) (hw : 3 ≤ w)
    (hh : 3 ≤ h) :
    (generateCore pick w h).stack = [] ∧
      CarveTreeInv w h (generateCore pick w h) := by
  unfold generateCore
  exact carveLoop_runs w h pick (carveFuel w h) _ (carve_init_inv w h hw hh)
    (carve_init_pot w h)

/-- Once the stack has emptied, every interior node cell is open. -/
theorem all_nodes_open {w h : ℕ} {st : GenState}
    (hinv : CarveTreeInv w h st) (hstk : st.stack = []) :
    ∀ (n : ℕ) (p : Pos), NodeP p → 0 < p.1 → p.1 < (w : ℤ) - 1 →
      0 < p.2 → p.2 < (h : ℤ) - 1 → (p.1 + p.2).toNat = n →
      mgAt st.grid p = 0 := by
  intro n
  induction n using Nat.strong_induction_on with
  | _ n ih =>
    intro p hN h1 h2 h3 h4 hsum
    have hp1 : p.1 % 2 = 1 := hN.1
    have hp2 : p.2 % 2 = 1 := hN.2
    by_cases hstart : p = ((1 : ℤ), (1 : ℤ))
    · rw [hstart]
      exact hinv.startOpen
    · have hcases : 3 ≤ p.1 ∨ 3 ≤ p.2 := by
        by_contra hcon
        push_neg at hcon
        exact hstart (Prod.ext (by omega) (by omega))
      rcases hcases with hge | hge
      · have hN' : NodeP ((p.1 - 2, p.2) : Pos) := by
          unfold NodeP
          exact ⟨show (p.1 - 2) % 2 = 1 by omega, show p.2 % 2 = 1 by omega⟩
        have hopen' : mgAt st.grid (p.1 - 2, p.2) = 0 :=
          ih ((p.1 - 2) + p.2).toNat (by omega) (p.1 - 2, p.2) hN'
            (show 0 < p.1 - 2 by omega) (show p.1 - 2 < (w : ℤ) - 1 by omega)
            (show 0 < p.2 by omega) (show p.2 < (h : ℤ) - 1 by omega) rfl
        have hmemd : ((2 : ℤ), (0 : ℤ)) ∈ carveDirs := by
          simp [carveDirs]
        have hexp := hinv.explored (p.1 - 2, p.2) hN' hopen'
          (by rw [hstk]; exact List.not_mem_nil _) (2, 0) hmemd
          (show 0 < p.1 - 2 + 2 by omega)
          (show p.1 - 2 + 2 < (w : ℤ) - 1 by omega)
          (show 0 < p.2 + 0 by omega)
          (show p.2 + 0 < (h : ℤ) - 1 by omega)
        have he : ((p.1 - 2 + 2 : ℤ), (p.2 + 0 : ℤ)) = p :=
          Prod.ext (show p.1 - 2 + 2 = p.1 by omega)
            (show p.2 + 0 = p.2 by omega)
        rw [← he]
        exact hexp
      · have hN' : NodeP ((p.1, p.2 - 2) : Pos) := by
          unfold NodeP
          exact ⟨show p.1 % 2 = 1 by omega, show (p.2 - 2) % 2 = 1 by omega⟩
        have hopen' : mgAt st.grid (p.1, p.2 - 2) = 0 :=
          ih (p.1 + (p.2 - 2)).toNat (by omega) (p.1, p.2 - 2) hN'
            (show 0 < p.1 by omega) (show p.1 < (w : ℤ) - 1 by omega)
            (show 0 < p.2 - 2 by omega)
            (show p.2 - 2 < (h : ℤ) - 1 by omega) rfl
        have hmemd : ((0 : ℤ), (2 : ℤ)) ∈ carveDirs := by
          simp [carveDirs]
        have hexp := hinv.explored (p.1, p.2 - 2) hN' hopen'
          (by rw [hstk]; exact List.not_mem_nil _) (0, 2) hmemd
          (show 0 < p.1 + 0 by omega)
          (show p.1 + 0 < (w : ℤ) - 1 by omega)
          (show 0 < p.2 - 2 + 2 by omega)
          (show p.2 - 2 + 2 < (h : ℤ) - 1 by omega)
        have he : ((p.1 + 0 : ℤ), (p.2 - 2 + 2 : ℤ)) = p :=
          Prod.ext (show p.1 + 0 = p.1 by omega)
            (show p.2 - 2 + 2 = p.2 by omega)
        rw [← he]
        exact hexp

/-- A grid with tree shape and one more open node than open links is a
spanning tree by edge count: open connections = free cells − 1. -/
theorem tree_count {w h : ℕ} {gr : MGrid} (hshape : TreeShape w h gr)
    (hcount : ((nodesFin w h).filter fun p => mgAt gr p = 0).card =
      ((linksFin w h).filter fun p => mgAt gr p = 0).card + 1) :
    edgeCount gr w h = (freeFin gr w h).card - 1 ∧
      0 < (freeFin gr w h).card := by
  have hHfl : ∀ q : Pos, mgAt gr q = 0 → HLinkP q →
      mgAt gr (q.1 - 1, q.2) = 0 ∧ mgAt gr (q.1 + 1, q.2) = 0 := by
    intro q h0 hH
    rcases (hshape q h0).2 with hn | ⟨_, hf⟩ | ⟨hV, _⟩
    · have e1 : q.1 % 2 = 1 := hn.1
      have e2 : q.1 % 2 = 0 := hH.1
      omega
    · exact hf
    · have e1 : q.2 % 2 = 0 := hV.2
      have e2 : q.2 % 2 = 1 := hH.2
      omega
  have hVfl : ∀ q : Pos, mgAt gr q = 0 → VLinkP q →
      mgAt gr (q.1, q.2 - 1) = 0 ∧ mgAt gr (q.1, q.2 + 1) = 0 := by
    intro q h0 hV
    rcases (hshape q h0).2 with hn | ⟨hH, _⟩ | ⟨_, hf⟩
    · have e1 : q.2 % 2 = 1 := hn.2
      have e2 : q.2 % 2 = 0 := hV.2
      omega
    · have e1 : q.1 % 2 = 0 := hH.1
      have e2 : q.1 % 2 = 1 := hV.1
      omega
    · exact hf
  have hclassH : ∀ q : Pos, mgAt gr q = 0 → q.1 % 2 = 0 → HLinkP q := by
    intro q h0 hpar
    rcases (hshape q h0).2 with hn | ⟨hH, _⟩ | ⟨hV, _⟩
    · exact absurd hn.1 (by omega)
    · exact hH
    · exact absurd hV.1 (by omega)
  have hclassV : ∀ q : Pos, mgAt gr q = 0 → q.2 % 2 = 0 → VLinkP q := by
    intro q h0 hpar
    rcases (hshape q h0).2 with hn | ⟨hH, _⟩ | ⟨hV, _⟩
    · exact absurd hn.2 (by omega)
    · exact absurd hH.2 (by omega)
    · exact hV
  have hfreeU : freeFin gr w h =
      ((nodesFin w h).filter fun p => mgAt gr p = 0) ∪
        ((linksFin w h).filter fun p => mgAt gr p = 0) := by
    unfold freeFin nodesFin linksFin
    ext q
    simp only [Finset.mem_union, Finset.mem_filter]
    constructor
    · rintro ⟨hc, h0⟩
      rcases (hshape q h0).2 with hn | ⟨hH, _⟩ | ⟨hV, _⟩
      · exact Or.inl ⟨⟨hc, hn⟩, h0⟩
      · exact Or.inr ⟨⟨hc, Or.inl hH⟩, h0⟩
      · exact Or.inr ⟨⟨hc, Or.inr hV⟩, h0⟩
    · rintro (⟨⟨hc, _⟩, h0⟩ | ⟨⟨hc, _⟩, h0⟩)
      · exact ⟨hc, h0⟩
      · exact ⟨hc, h0⟩
  have hdisjAL : Disjoint ((nodesFin w h).filter fun p => mgAt gr p = 0)
      ((linksFin w h).filter fun p => mgAt gr p = 0) := by
    rw [Finset.disjoint_left]
    intro a ha hb
    have hN := (mem_nodesFin.1 (Finset.mem_filter.1 ha).1).2
    have hLk := (mem_linksFin.1 (Finset.mem_filter.1 hb).1).2
    have e1 : a.1 % 2 = 1 := hN.1
    have e2 : a.2 % 2 = 1 := hN.2
    rcases hLk with hH | hV
    · have e3 : a.1 % 2 = 0 := hH.1
      omega
    · have e3 : a.2 % 2 = 0 := hV.2
      omega
  have hLsplit : ((linksFin w h).filter fun p => mgAt gr p = 0) =
      ((cellsFin w h).filter fun p => mgAt gr p = 0 ∧ HLinkP p) ∪
        ((cellsFin w h).filter fun p => mgAt gr p = 0 ∧ VLinkP p) := by
    unfold linksFin
    ext q
    simp only [Finset.mem_union, Finset.mem_filter]
    constructor
    · rintro ⟨⟨hc, hHV⟩, h0⟩
      rcases hHV with hH | hV
      · exact Or.inl ⟨hc, h0, hH⟩
      · exact Or.inr ⟨hc, h0, hV⟩
    · rintro (⟨hc, h0, hH⟩ | ⟨hc, h0, hV⟩)
      · exact ⟨⟨hc, Or.inl hH⟩, h0⟩
      · exact ⟨⟨hc, Or.inr hV⟩, h0⟩
  have hdisjHV : Disjoint
      ((cellsFin w h).filter fun p => mgAt gr p = 0 ∧ HLinkP p)
      ((cellsFin w h).filter fun p => mgAt gr p = 0 ∧ VLinkP p) := by
    rw [Finset.disjoint_left]
    intro a ha hb
    have hH := (Finset.mem_filter.1 ha).2.2
    have hV := (Finset.mem_filter.1 hb).2.2
    have e1 : a.1 % 2 = 0 := hH.1
    have e2 : a.1 % 2 = 1 := hV.1
    omega
  have hinjH : Function.Injective fun l : Pos => ((l.1 - 1, l.2) : Pos) := by
    intro a b hab
    rw [Prod.mk.injEq] at hab
    exact Prod.ext (by omega) hab.2
  have hHE : hEdges gr w h =
      ((cellsFin w h).filter fun p => mgAt gr p = 0 ∧ HLinkP p) ∪
        ((cellsFin w h).filter fun p => mgAt gr p = 0 ∧ HLinkP p).image
          (fun l : Pos => ((l.1 - 1, l.2) : Pos)) := by
    unfold hEdges
    ext q
    simp only [Finset.mem_union, Finset.mem_filter, Finset.mem_image]
    constructor
    · rintro ⟨hc, h0, h10⟩
      by_cases hpar : q.1 % 2 = 0
      · exact Or.inl ⟨hc, h0, hclassH q h0 hpar⟩
      · have hH1 : HLinkP ((q.1 + 1, q.2) : Pos) :=
          hclassH (q.1 + 1, q.2) h10 (show (q.1 + 1) % 2 = 0 by omega)
        have hI1 := (hshape _ h10).1
        have i1 : 0 < q.1 + 1 := hI1.1
        have i2 : q.1 + 1 < (w : ℤ) - 1 := hI1.2.1
        have i3 : 0 < q.2 := hI1.2.2.1
        have i4 : q.2 < (h : ℤ) - 1 := hI1.2.2.2
        refine Or.inr ⟨(q.1 + 1, q.2), ⟨?_, h10, hH1⟩, ?_⟩
        · rw [mem_cellsFin]
          exact ⟨show (0 : ℤ) ≤ q.1 + 1 by omega,
            show (q.1 + 1 : ℤ) < w by omega,
            show (0 : ℤ) ≤ q.2 by omega, show (q.2 : ℤ) < h by omega⟩
        · exact Prod.ext (show q.1 + 1 - 1 = q.1 by omega) rfl
    · rintro (⟨hc, h0, hH⟩ | ⟨l, ⟨hcl, h0l, hHl⟩, heq⟩)
      · obtain ⟨hf1, hf2⟩ := hHfl q h0 hH
        exact ⟨hc, h0, hf2⟩
      · obtain ⟨hf1, hf2⟩ := hHfl l h0l hHl
        have hIl := (hshape l h0l).1
        have i1 : 0 < l.1 := hIl.1
        have i2 : l.1 < (w : ℤ) - 1 := hIl.2.1
        have i3 : 0 < l.2 := hIl.2.2.1
        have i4 : l.2 < (h : ℤ) - 1 := hIl.2.2.2
        subst heq
        refine ⟨?_, hf1, ?_⟩
        · rw [mem_cellsFin]
          exact ⟨show (0 : ℤ) ≤ l.1 - 1 by omega,
            show (l.1 - 1 : ℤ) < w by omega,
            show (0 : ℤ) ≤ l.2 by omega, show (l.2 : ℤ) < h by omega⟩
        · show mgAt gr (l.1 - 1 + 1, l.2) = 0
          have he : ((l.1 - 1 + 1 : ℤ), (l.2 : ℤ)) = l :=
            Prod.ext (show l.1 - 1 + 1 = l.1 by omega) rfl
          rw [he]
          exact h0l
  have hdisjHimg : Disjoint
      ((cellsFin w h).filter fun p => mgAt gr p = 0 ∧ HLinkP p)
      (((cellsFin w h).filter fun p => mgAt gr p = 0 ∧ HLinkP p).image
        (fun l : Pos => ((l.1 - 1, l.2) : Pos))) := by
    rw [Finset.disjoint_left]
    intro a ha hb
    rw [Finset.mem_image] at hb
    obtain ⟨l, hl, heq⟩ := hb
    have e1 : a.1 % 2 = 0 := ((Finset.mem_filter.1 ha).2.2).1
    have e2 : l.1 % 2 = 0 := ((Finset.mem_filter.1 hl).2.2).1
    have e3 : a.1 = l.1 - 1 := by
      rw [← heq]
    omega
  have hinjV : Function.Injective fun l : Pos => ((l.1, l.2 - 1) : Pos) := by
    intro a b hab
    rw [Prod.mk.injEq] at hab
    exact Prod.ext hab.1 (by omega)
  have hVE : vEdges gr w h =
      ((cellsFin w h).filter fun p => mgAt gr p = 0 ∧ VLinkP p) ∪
        ((cellsFin w h).filter fun p => mgAt gr p = 0 ∧ VLinkP p).image
          (fun l : Pos => ((l.1, l.2 - 1) : Pos)) := by
    unfold vEdges
    ext q
    simp only [Finset.mem_union, Finset.mem_filter, Finset.mem_image]
    constructor
    · rintro ⟨hc, h0, h10⟩
      by_cases hpar : q.2 % 2 = 0
      · exact Or.inl ⟨hc, h0, hclassV q h0 hpar⟩
      · have hV1 : VLinkP ((q.1, q.2 + 1) : Pos) :=
          hclassV (q.1, q.2 + 1) h10 (show (q.2 + 1) % 2 = 0 by omega)
        have hI1 := (hshape _ h10).1
        have i1 : 0 < q.1 := hI1.1
        have i2 : q.1 < (w : ℤ) - 1 := hI1.2.1
        have i3 : 0 < q.2 + 1 := hI1.2.2.1
        have i4 : q.2 + 1 < (h : ℤ) - 1 := hI1.2.2.2
        refine Or.inr ⟨(q.1, q.2 + 1), ⟨?_, h10, hV1⟩, ?_⟩
        · rw [mem_cellsFin]
          exact ⟨show (0 : ℤ) ≤ q.1 by omega, show (q.1 : ℤ) < w by omega,
            show (0 : ℤ) ≤ q.2 + 1 by omega,
            show (q.2 + 1 : ℤ) < h by omega⟩
        · exact Prod.ext rfl (show q.2 + 1 - 1 = q.2 by omega)
    · rintro (⟨hc, h0, hV⟩ | ⟨l, ⟨hcl, h0l, hVl⟩, heq⟩)
      · obtain ⟨hf1, hf2⟩ := hVfl q h0 hV
        exact ⟨hc, h0, hf2⟩
      · obtain ⟨hf1, hf2⟩ := hVfl l h0l hVl
        have hIl := (hshape l h0l).1
        have i1 : 0 < l.1 := hIl.1
        have i2 : l.1 < (w : ℤ) - 1 := hIl.2.1
        have i3 : 0 < l.2 := hIl.2.2.1
        have i4 : l.2 < (h : ℤ) - 1 := hIl.2.2.2
        subst heq
        refine ⟨?_, hf1, ?_⟩
        · rw [mem_cellsFin]
          exact ⟨show (0 : ℤ) ≤ l.1 by omega, show (l.1 : ℤ) < w by omega,
            show (0 : ℤ) ≤ l.2 - 1 by omega,
            show (l.2 - 1 : ℤ) < h by omega⟩
        · show mgAt gr (l.1, l.2 - 1 + 1) = 0
          have he : ((l.1 : ℤ), (l.2 - 1 + 1 : ℤ)) = l :=
            Prod.ext rfl (show l.2 - 1 + 1 = l.2 by omega)
          rw [he]
          exact h0l
  have hdisjVimg : Disjoint
      ((cellsFin w h).filter fun p => mgAt gr p = 0 ∧ VLinkP p)
      (((cellsFin w h).filter fun p => mgAt gr p = 0 ∧ VLinkP p).image
        (fun l : Pos => ((l.1, l.2 - 1) : Pos))) := by
    rw [Finset.disjoint_left]
    intro a ha hb
    rw [Finset.mem_image] at hb
    obtain ⟨l, hl, heq⟩ := hb
    have e1 : a.2 % 2 = 0 := ((Finset.mem_filter.1 ha).2.2).2
    have e2 : l.2 % 2 = 0 := ((Finset.mem_filter.1 hl).2.2).2
    have e3 : a.2 = l.2 - 1 := by
      rw [← heq]
    omega
  have hcardFree : (freeFin gr w h).card =
      ((nodesFin w h).filter fun p => mgAt gr p = 0).card +
        ((linksFin w h).filter fun p => mgAt gr p = 0).card := by
    rw [hfreeU]
    exact Finset.card_union_of_disjoint hdisjAL
  have hcardL : ((linksFin w h).filter fun p => mgAt gr p = 0).card =
      ((cellsFin w h).filter fun p => mgAt gr p = 0 ∧ HLinkP p).card +
        ((cellsFin w h).filter fun p => mgAt gr p = 0 ∧ VLinkP p).card := by
    rw [hLsplit]
    exact Finset.card_union_of_disjoint hdisjHV
  have hcardHE : (hEdges gr w h).card =
      2 * ((cellsFin w h).filter fun p => mgAt gr p = 0 ∧ HLinkP p).card := by
    rw [hHE, Finset.card_union_of_disjoint hdisjHimg,
      Finset.card_image_of_injective _ hinjH]
    ring
  have hcardVE : (vEdges gr w h).card =
      2 * ((cellsFin w h).filter fun p => mgAt gr p = 0 ∧ VLinkP p).card := by
    rw [hVE, Finset.card_union_of_disjoint hdisjVimg,
      Finset.card_image_of_injective _ hinjV]
    ring
  unfold edgeCount
  constructor
  · omega
  · omega

/-- With loop fraction `0`, `int(len(walls) * 0) = 0` walls are removed:
the generator output is the carved grid with its two forced openings. -/
theorem generateNoLoops_eq (pick : ℕ → ℕ) (w h : ℕ) :
    generateNoLoops pick w h = carvedGrid pick w h := rfl

/-- A cell with two even coordinates is never open in a tree-shaped grid. -/
theorem even_even_closed {w h : ℕ} {gr : MGrid} (hshape : TreeShape w h gr)
    {p : Pos} (h1 : p.1 % 2 = 0) (h2 : p.2 % 2 = 0) : mgAt gr p ≠ 0 := by
  intro h0
  rcases (hshape p h0).2 with hn | ⟨hH, _⟩ | ⟨hV, _⟩
  · have e1 := hn.1
    omega
  · have e1 := hH.2
    omega
  · have e1 := hV.1
    omega

/-- With an even width, the forced corner `(w-2, h-2)` is still a wall after
carving: it cannot be a node (parity) and cannot be an open link (its right
flank would lie on the border). -/
theorem corner_closed_evenw {w h : ℕ} {gr : MGrid} (hshape : TreeShape w h gr)
    (hbin : ∀ p : Pos, mgAt gr p = 0 ∨ mgAt gr p = 1) (hwe : w % 2 = 0) :
    mgAt gr ((w : ℤ) - 2, (h : ℤ) - 2) = 1 := by
  rcases hbin ((w : ℤ) - 2, (h : ℤ) - 2) with h0 | h1
  · exfalso
    rcases (hshape _ h0).2 with hn | ⟨_, _, hf2⟩ | ⟨hV, _, _⟩
    · have e1 : ((w : ℤ) - 2) % 2 = 1 := hn.1
      omega
    · have hf2' : mgAt gr (((w : ℤ) - 2) + 1, (h : ℤ) - 2) = 0 := hf2
      have hIf := (hshape _ hf2').1
      have e2 : ((w : ℤ) - 2) + 1 < (w : ℤ) - 1 := hIf.2.1
      omega
    · have e1 : ((w : ℤ) - 2) % 2 = 1 := hV.1
      omega
  · exact h1

/-- With an even height, the forced corner `(w-2, h-2)` is still a wall
after carving. -/
theorem corner_closed_evenh {w h : ℕ} {gr : MGrid} (hshape : TreeShape w h gr)
    (hbin : ∀ p : Pos, mgAt gr p = 0 ∨ mgAt gr p = 1) (hhe : h % 2 = 0) :
    mgAt gr ((w : ℤ) - 2, (h : ℤ) - 2) = 1 := by
  rcases hbin ((w : ℤ) - 2, (h : ℤ) - 2) with h0 | h1
  · exfalso
    rcases (hshape _ h0).2 with hn | ⟨hH, _, _⟩ | ⟨_, _, hf2⟩
    · have e1 : ((h : ℤ) - 2) % 2 = 1 := hn.2
      omega
    · have e1 : ((h : ℤ) - 2) % 2 = 1 := hH.2
      omega
    · have hf2' : mgAt gr ((w : ℤ) - 2, ((h : ℤ) - 2) + 1) = 0 := hf2
      have hIf := (hshape _ hf2').1
      have e2 : ((h : ℤ) - 2) + 1 < (h : ℤ) - 1 := hIf.2.2.2
      omega
  · exact h1

/-- C9 (amended): for every random stream and all `w, h ≥ 3` of which at
least one is odd, the generator with loop fraction `0` yields a perfect
maze: every free cell is reachable from `(1, 1)`, and the number of open
connections is exactly the number of free cells minus one (a spanning
tree).  Only both-even dimensions fail. -/
theorem c9_spanning_tree (pick : ℕ → ℕ) (w h : ℕ) (hw : 3 ≤ w) (hh : 3 ≤ h)
    (hpar : w % 2 = 1 ∨ h % 2 = 1) :
    (∀ p : Pos, mgAt (generateNoLoops pick w h) p = 0 →
      MReach (generateNoLoops pick w h) (1, 1) p) ∧
    edgeCount (generateNoLoops pick w h) w h =
      (freeFin (generateNoLoops pick w h) w h).card - 1 ∧
    0 < (freeFin (generateNoLoops pick w h) w h).card := by
  obtain ⟨hstk, hinvF⟩ := generateCore_done pick w h hw hh
  have hI1 : Interior w h ((1 : ℤ), (1 : ℤ)) :=
    ⟨show (0 : ℤ) < 1 by omega, show (1 : ℤ) < (w : ℤ) - 1 by omega,
      show (0 : ℤ) < 1 by omega, show (1 : ℤ) < (h : ℤ) - 1 by omega⟩
  have hI2 : Interior w h (((w : ℤ) - 2, (h : ℤ) - 2) : Pos) :=
    ⟨show (0 : ℤ) < (w : ℤ) - 2 by omega,
      show (w : ℤ) - 2 < (w : ℤ) - 1 by omega,
      show (0 : ℤ) < (h : ℤ) - 2 by omega,
      show (h : ℤ) - 2 < (h : ℤ) - 1 by omega⟩
  have hsh2 : MGridShape w h (setG (generateCore pick w h).grid (1, 1) 0) :=
    setG_shape hinvF.shape _ _
  have hread : ∀ p : Pos, mgAt (generateNoLoops pick w h) p =
      if p = (((w : ℤ) - 2, (h : ℤ) - 2) : Pos) then 0
      else mgAt (generateCore pick w h).grid p := by
    intro p
    rw [generateNoLoops_eq]
    unfold carvedGrid
    rw [mgAt_setG_pt hsh2 hI2 0 p]
    split_ifs with h1
    · rfl
    · rw [mgAt_setG_pt hinvF.shape hI1 0 p]
      split_ifs with h2
      · rw [h2]
        exact hinvF.startOpen.symm
      · rfl
  have hmono2 : ∀ r, mgAt (generateCore pick w h).grid r = 0 →
      mgAt (generateNoLoops pick w h) r = 0 := by
    intro r hr
    rw [hread r]
    split_ifs with h1
    · rfl
    · exact hr
  have hcornermem : (((w : ℤ) - 2, (h : ℤ) - 2) : Pos) ∈ cellsFin w h := by
    rw [mem_cellsFin]
    exact ⟨show (0 : ℤ) ≤ (w : ℤ) - 2 by omega,
      show (w : ℤ) - 2 < (w : ℤ) by omega,
      show (0 : ℤ) ≤ (h : ℤ) - 2 by omega,
      show (h : ℤ) - 2 < (h : ℤ) by omega⟩
  have hgencorner : mgAt (generateNoLoops pick w h)
      ((w : ℤ) - 2, (h : ℤ) - 2) = 0 := by
    rw [hread, if_pos rfl]
  have htc := tree_count hinvF.openShape hinvF.count
  by_cases hwo : w % 2 = 1
  · by_cases hho : h % 2 = 1
    · -- both dimensions odd: the forced corner is an already-open node
      have hcorner : mgAt (generateCore pick w h).grid
          ((w : ℤ) - 2, (h : ℤ) - 2) = 0 :=
        all_nodes_open hinvF hstk _ ((w : ℤ) - 2, (h : ℤ) - 2)
          ⟨show ((w : ℤ) - 2) % 2 = 1 by omega,
            show ((h : ℤ) - 2) % 2 = 1 by omega⟩
          (show (0 : ℤ) < (w : ℤ) - 2 by omega)
          (show (w : ℤ) - 2 < (w : ℤ) - 1 by omega)
          (show (0 : ℤ) < (h : ℤ) - 2 by omega)
          (show (h : ℤ) - 2 < (h : ℤ) - 1 by omega) rfl
      have hpt : ∀ p : Pos, mgAt (generateNoLoops pick w h) p =
          mgAt (generateCore pick w h).grid p := by
        intro p
        rw [hread]
        split_ifs with h1
        · rw [h1]
          exact hcorner.symm
        · rfl
      refine ⟨?_, ?_⟩
      · intro p hp
        rw [hpt p] at hp
        exact mreach_mono hmono2 (hinvF.conn p hp)
      · have hfree : freeFin (generateNoLoops pick w h) w h =
            freeFin (generateCore pick w h).grid w h := by
          unfold freeFin
          ext q
          simp only [Finset.mem_filter]
          rw [hpt q]
        have hhe : hEdges (generateNoLoops pick w h) w h =
            hEdges (generateCore pick w h).grid w h := by
          unfold hEdges
          ext q
          simp only [Finset.mem_filter]
          rw [hpt q, hpt (q.1 + 1, q.2)]
        have hve : vEdges (generateNoLoops pick w h) w h =
            vEdges (generateCore pick w h).grid w h := by
          unfold vEdges
          ext q
          simp only [Finset.mem_filter]
          rw [hpt q, hpt (q.1, q.2 + 1)]
        have hec : edgeCount (generateNoLoops pick w h) w h =
            edgeCount (generateCore pick w h).grid w h := by
          unfold edgeCount
          rw [hhe, hve]
        rw [hec, hfree]
        exact htc
    · -- w odd, h even: the corner attaches as a vertical leaf
      have hhe0 : h % 2 = 0 := by omega
      have hh4 : 4 ≤ h := by omega
      have hcornerC : mgAt (generateCore pick w h).grid
          ((w : ℤ) - 2, (h : ℤ) - 2) = 1 :=
        corner_closed_evenh hinvF.openShape hinvF.binary hhe0
      have hNC : NodeP (((w : ℤ) - 2, (h : ℤ) - 3) : Pos) :=
        ⟨show ((w : ℤ) - 2) % 2 = 1 by omega,
          show ((h : ℤ) - 3) % 2 = 1 by omega⟩
      have hopenC : mgAt (generateCore pick w h).grid
          ((w : ℤ) - 2, (h : ℤ) - 3) = 0 :=
        all_nodes_open hinvF hstk _ ((w : ℤ) - 2, (h : ℤ) - 3) hNC
          (show (0 : ℤ) < (w : ℤ) - 2 by omega)
          (show (w : ℤ) - 2 < (w : ℤ) - 1 by omega)
          (show (0 : ℤ) < (h : ℤ) - 3 by omega)
          (show (h : ℤ) - 3 < (h : ℤ) - 1 by omega) rfl
      have hNCc : (((w : ℤ) - 2, (h : ℤ) - 3) : Pos) ≠
          (((w : ℤ) - 2, (h : ℤ) - 2) : Pos) := by
        intro he
        rw [Prod.mk.injEq] at he
        omega
      have hgenC : mgAt (generateNoLoops pick w h)
          ((w : ℤ) - 2, (h : ℤ) - 3) = 0 := by
        rw [hread, if_neg hNCc]
        exact hopenC
      have hadjC : Adjacent (((w : ℤ) - 2, (h : ℤ) - 3) : Pos)
          (((w : ℤ) - 2, (h : ℤ) - 2) : Pos) := by
        unfold Adjacent
        dsimp only
        omega
      have hR : mgAt (generateCore pick w h).grid
          ((w : ℤ) - 1, (h : ℤ) - 2) ≠ 0 :=
        even_even_closed hinvF.openShape
          (show ((w : ℤ) - 1) % 2 = 0 by omega)
          (show ((h : ℤ) - 2) % 2 = 0 by omega)
      have hL : mgAt (generateCore pick w h).grid
          ((w : ℤ) - 3, (h : ℤ) - 2) ≠ 0 :=
        even_even_closed hinvF.openShape
          (show ((w : ℤ) - 3) % 2 = 0 by omega)
          (show ((h : ℤ) - 2) % 2 = 0 by omega)
      have hU : mgAt (generateCore pick w h).grid
          ((w : ℤ) - 2, (h : ℤ) - 1) ≠ 0 := by
        intro h0
        have hIf := (hinvF.openShape _ h0).1
        have e2 : (h : ℤ) - 1 < (h : ℤ) - 1 := hIf.2.2.2
        omega
      refine ⟨?_, ?_⟩
      · intro p hp
        rw [hread p] at hp
        split_ifs at hp with h1
        · subst h1
          exact MReach.tail (mreach_mono hmono2 (hinvF.conn _ hopenC)) hadjC
            hgencorner
        · exact mreach_mono hmono2 (hinvF.conn p hp)
      · have hfreeEq : freeFin (generateNoLoops pick w h) w h =
            insert (((w : ℤ) - 2, (h : ℤ) - 2) : Pos)
              (freeFin (generateCore pick w h).grid w h) := by
          unfold freeFin
          ext q
          simp only [Finset.mem_insert, Finset.mem_filter]
          constructor
          · rintro ⟨hc, h0⟩
            rw [hread] at h0
            split_ifs at h0 with h1
            · exact Or.inl h1
            · exact Or.inr ⟨hc, h0⟩
          · rintro (rfl | ⟨hc, h0⟩)
            · exact ⟨hcornermem, hgencorner⟩
            · exact ⟨hc, hmono2 q h0⟩
        have hfreeCard : (freeFin (generateNoLoops pick w h) w h).card =
            (freeFin (generateCore pick w h).grid w h).card + 1 := by
          rw [hfreeEq, Finset.card_insert_of_not_mem]
          intro hmem
          have h0 := (Finset.mem_filter.1 hmem).2
          rw [hcornerC] at h0
          exact one_ne_zero h0
        have hheEq : hEdges (generateNoLoops pick w h) w h =
            hEdges (generateCore pick w h).grid w h := by
          unfold hEdges
          ext q
          simp only [Finset.mem_filter]
          constructor
          · rintro ⟨hc, h0, h10⟩
            rw [hread] at h0 h10
            split_ifs at h0 with h1
            · exfalso
              subst h1
              rw [if_neg] at h10
              · have h10' : mgAt (generateCore pick w h).grid
                    (((w : ℤ) - 2) + 1, (h : ℤ) - 2) = 0 := h10
                rw [(show (((w : ℤ) - 2) + 1 : ℤ) = (w : ℤ) - 1 by omega)]
                  at h10'
                exact hR h10'
              · intro he
                rw [Prod.mk.injEq] at he
                omega
            · split_ifs at h10 with h2
              · exfalso
                have e1 : q.1 + 1 = (w : ℤ) - 2 := congrArg Prod.fst h2
                have e2 : q.2 = (h : ℤ) - 2 := congrArg Prod.snd h2
                have hq : q = (((w : ℤ) - 3, (h : ℤ) - 2) : Pos) :=
                  Prod.ext (by omega) (by omega)
                rw [hq] at h0
                exact hL h0
              · exact ⟨hc, h0, h10⟩
          · rintro ⟨hc, h0, h10⟩
            exact ⟨hc, hmono2 q h0, hmono2 _ h10⟩
        have hveEq : vEdges (generateNoLoops pick w h) w h =
            insert (((w : ℤ) - 2, (h : ℤ) - 3) : Pos)
              (vEdges (generateCore pick w h).grid w h) := by
          unfold vEdges
          ext q
          simp only [Finset.mem_insert, Finset.mem_filter]
          constructor
          · rintro ⟨hc, h0, h10⟩
            rw [hread] at h0 h10
            split_ifs at h0 with h1
            · exfalso
              subst h1
              rw [if_neg] at h10
              · have h10' : mgAt (generateCore pick w h).grid
                    ((w : ℤ) - 2, ((h : ℤ) - 2) + 1) = 0 := h10
                rw [(show (((h : ℤ) - 2) + 1 : ℤ) = (h : ℤ) - 1 by omega)]
                  at h10'
                exact hU h10'
              · intro he
                rw [Prod.mk.injEq] at he
                omega
            · split_ifs at h10 with h2
              · left
                have e1 : q.1 = (w : ℤ) - 2 := congrArg Prod.fst h2
                have e2 : q.2 + 1 = (h : ℤ) - 2 := congrArg Prod.snd h2
                exact Prod.ext (by omega) (by omega)
              · exact Or.inr ⟨hc, h0, h10⟩
          · rintro (rfl | ⟨hc, h0, h10⟩)
            · refine ⟨?_, hgenC, ?_⟩
              · rw [mem_cellsFin]
                exact ⟨show (0 : ℤ) ≤ (w : ℤ) - 2 by omega,
                  show (w : ℤ) - 2 < (w : ℤ) by omega,
                  show (0 : ℤ) ≤ (h : ℤ) - 3 by omega,
                  show (h : ℤ) - 3 < (h : ℤ) by omega⟩
              · show mgAt (generateNoLoops pick w h)
                  ((w : ℤ) - 2, ((h : ℤ) - 3) + 1) = 0
                rw [(show (((h : ℤ) - 3) + 1 : ℤ) = (h : ℤ) - 2 by omega),
                  hread, if_pos rfl]
            · exact ⟨hc, hmono2 q h0, hmono2 _ h10⟩
        have hnC : (((w : ℤ) - 2, (h : ℤ) - 3) : Pos) ∉
            vEdges (generateCore pick w h).grid w h := by
          intro hmem
          unfold vEdges at hmem
          have h10 := (Finset.mem_filter.1 hmem).2.2
          have h10' : mgAt (generateCore pick w h).grid
              ((w : ℤ) - 2, ((h : ℤ) - 3) + 1) = 0 := h10
          rw [(show (((h : ℤ) - 3) + 1 : ℤ) = (h : ℤ) - 2 by omega)] at h10'
          rw [hcornerC] at h10'
          exact one_ne_zero h10'
        have hveCard : (vEdges (generateNoLoops pick w h) w h).card =
            (vEdges (generateCore pick w h).grid w h).card + 1 := by
          rw [hveEq, Finset.card_insert_of_not_mem hnC]
        unfold edgeCount at htc ⊢
        rw [hheEq, hveCard, hfreeCard]
        obtain ⟨htc1, htc2⟩ := htc
        constructor
        · omega
        · omega
  · -- w even (so h is odd): the corner attaches as a horizontal leaf
    have hho : h % 2 = 1 := by omega
    have hwe0 : w % 2 = 0 := by omega
    have hw4 : 4 ≤ w := by omega
    have hcornerC : mgAt (generateCore pick w h).grid
        ((w : ℤ) - 2, (h : ℤ) - 2) = 1 :=
      corner_closed_evenw hinvF.openShape hinvF.binary hwe0
    have hNB : NodeP (((w : ℤ) - 3, (h : ℤ) - 2) : Pos) :=
      ⟨show ((w : ℤ) - 3) % 2 = 1 by omega,
        show ((h : ℤ) - 2) % 2 = 1 by omega⟩
    have hopenB : mgAt (generateCore pick w h).grid
        ((w : ℤ) - 3, (h : ℤ) - 2) = 0 :=
      all_nodes_open hinvF hstk _ ((w : ℤ) - 3, (h : ℤ) - 2) hNB
        (show (0 : ℤ) < (w : ℤ) - 3 by omega)
        (show (w : ℤ) - 3 < (w : ℤ) - 1 by omega)
        (show (0 : ℤ) < (h : ℤ) - 2 by omega)
        (show (h : ℤ) - 2 < (h : ℤ) - 1 by omega) rfl
    have hNBc : (((w : ℤ) - 3, (h : ℤ) - 2) : Pos) ≠
        (((w : ℤ) - 2, (h : ℤ) - 2) : Pos) := by
      intro he
      rw [Prod.mk.injEq] at he
      omega
    have hgenB : mgAt (generateNoLoops pick w h)
        ((w : ℤ) - 3, (h : ℤ) - 2) = 0 := by
      rw [hread, if_neg hNBc]
      exact hopenB
    have hadjB : Adjacent (((w : ℤ) - 3, (h : ℤ) - 2) : Pos)
        (((w : ℤ) - 2, (h : ℤ) - 2) : Pos) := by
      unfold Adjacent
      dsimp only
      omega
    have hR : mgAt (generateCore pick w h).grid
        ((w : ℤ) - 1, (h : ℤ) - 2) ≠ 0 := by
      intro h0
      have hIf := (hinvF.openShape _ h0).1
      have e2 : (w : ℤ) - 1 < (w : ℤ) - 1 := hIf.2.1
      omega
    have hD : mgAt (generateCore pick w h).grid
        ((w : ℤ) - 2, (h : ℤ) - 3) ≠ 0 :=
      even_even_closed hinvF.openShape
        (show ((w : ℤ) - 2) % 2 = 0 by omega)
        (show ((h : ℤ) - 3) % 2 = 0 by omega)
    have hU : mgAt (generateCore pick w h).grid
        ((w : ℤ) - 2, (h : ℤ) - 1) ≠ 0 := by
      intro h0
      have hIf := (hinvF.openShape _ h0).1
      have e2 : (h : ℤ) - 1 < (h : ℤ) - 1 := hIf.2.2.2
      omega
    refine ⟨?_, ?_⟩
    · intro p hp
      rw [hread p] at hp
      split_ifs at hp with h1
      · subst h1
        exact MReach.tail (mreach_mono hmono2 (hinvF.conn _ hopenB)) hadjB
          hgencorner
      · exact mreach_mono hmono2 (hinvF.conn p hp)
    · have hfreeEq : freeFin (generateNoLoops pick w h) w h =
          insert (((w : ℤ) - 2, (h : ℤ) - 2) : Pos)
            (freeFin (generateCore pick w h).grid w h) := by
        unfold freeFin
        ext q
        simp only [Finset.mem_insert, Finset.mem_filter]
        constructor
        · rintro ⟨hc, h0⟩
          rw [hread] at h0
          split_ifs at h0 with h1
          · exact Or.inl h1
          · exact Or.inr ⟨hc, h0⟩
        · rintro (rfl | ⟨hc, h0⟩)
          · exact ⟨hcornermem, hgencorner⟩
          · exact ⟨hc, hmono2 q h0⟩
      have hfreeCard : (freeFin (generateNoLoops pick w h) w h).card =
          (freeFin (generateCore pick w h).grid w h).card + 1 := by
        rw [hfreeEq, Finset.card_insert_of_not_mem]
        intro hmem
        have h0 := (Finset.mem_filter.1 hmem).2
        rw [hcornerC] at h0
        exact one_ne_zero h0
      have hheEq : hEdges (generateNoLoops pick w h) w h =
          insert (((w : ℤ) - 3, (h : ℤ) - 2) : Pos)
            (hEdges (generateCore pick w h).grid w h) := by
        unfold hEdges
        ext q
        simp only [Finset.mem_insert, Finset.mem_filter]
        constructor
        · rintro ⟨hc, h0, h10⟩
          rw [hread] at h0 h10
          split_ifs at h0 with h1
          · exfalso
            subst h1
            rw [if_neg] at h10
            · have h10' : mgAt (generateCore pick w h).grid
                  (((w : ℤ) - 2) + 1, (h : ℤ) - 2) = 0 := h10
              rw [(show (((w : ℤ) - 2) + 1 : ℤ) = (w : ℤ) - 1 by omega)]
                at h10'
              exact hR h10'
            · intro he
              rw [Prod.mk.injEq] at he
              omega
          · split_ifs at h10 with h2
            · left
              have e1 : q.1 + 1 = (w : ℤ) - 2 := congrArg Prod.fst h2
              have e2 : q.2 = (h : ℤ) - 2 := congrArg Prod.snd h2
              exact Prod.ext (by omega) (by omega)
            · exact Or.inr ⟨hc, h0, h10⟩
        · rintro (rfl | ⟨hc, h0, h10⟩)
          · refine ⟨?_, hgenB, ?_⟩
            · rw [mem_cellsFin]
              exact ⟨show (0 : ℤ) ≤ (w : ℤ) - 3 by omega,
                show (w : ℤ) - 3 < (w : ℤ) by omega,
                show (0 : ℤ) ≤ (h : ℤ) - 2 by omega,
                show (h : ℤ) - 2 < (h : ℤ) by omega⟩
            · show mgAt (generateNoLoops pick w h)
                (((w : ℤ) - 3) + 1, (h : ℤ) - 2) = 0
              rw [(show (((w : ℤ) - 3) + 1 : ℤ) = (w : ℤ) - 2 by omega),
                hread, if_pos rfl]
          · exact ⟨hc, hmono2 q h0, hmono2 _ h10⟩
      have hnB : (((w : ℤ) - 3, (h : ℤ) - 2) : Pos) ∉
          hEdges (generateCore pick w h).grid w h := by
        intro hmem
        unfold hEdges at hmem
        have h10 := (Finset.mem_filter.1 hmem).2.2
        have h10' : mgAt (generateCore pick w h).grid
            (((w : ℤ) - 3) + 1, (h : ℤ) - 2) = 0 := h10
        rw [(show (((w : ℤ) - 3) + 1 : ℤ) = (w : ℤ) - 2 by omega)] at h10'
        rw [hcornerC] at h10'
        exact one_ne_zero h10'
      have hheCard : (hEdges (generateNoLoops pick w h) w h).card =
          (hEdges (generateCore pick w h).grid w h).card + 1 := by
        rw [hheEq, Finset.card_insert_of_not_mem hnB]
      have hveEq : vEdges (generateNoLoops pick w h) w h =
          vEdges (generateCore pick w h).grid w h := by
        unfold vEdges
        ext q
        simp only [Finset.mem_filter]
        constructor
        · rintro ⟨hc, h0, h10⟩
          rw [hread] at h0 h10
          split_ifs at h0 with h1
          · exfalso
            subst h1
            rw [if_neg] at h10
            · have h10' : mgAt (generateCore pick w h).grid
                  ((w : ℤ) - 2, ((h : ℤ) - 2) + 1) = 0 := h10
              rw [(show (((h : ℤ) - 2) + 1 : ℤ) = (h : ℤ) - 1 by omega)]
                at h10'
              exact hU h10'
            · intro he
              rw [Prod.mk.injEq] at he
              omega
          · split_ifs at h10 with h2
            · exfalso
              have e1 : q.1 = (w : ℤ) - 2 := congrArg Prod.fst h2
              have e2 : q.2 + 1 = (h : ℤ) - 2 := congrArg Prod.snd h2
              have hq : q = (((w : ℤ) - 2, (h : ℤ) - 3) : Pos) :=
                Prod.ext (by omega) (by omega)
              rw [hq] at h0
              exact hD h0
            · exact ⟨hc, h0, h10⟩
        · rintro ⟨hc, h0, h10⟩
          exact ⟨hc, hmono2 q h0, hmono2 _ h10⟩
      unfold edgeCount at htc ⊢
      rw [hveEq, hheCard, hfreeCard]
      obtain ⟨htc1, htc2⟩ := htc
      constructor
      · omega
      · omega

theorem c9_spanning_tree_witness :
    ((3 : ℕ) ≤ 4 ∧ (3 : ℕ) ≤ 3 ∧ (4 % 2 = 1 ∨ 3 % 2 = 1)) ∧
    (edgeCount (generateNoLoops (fun k => 0) 4 3) 4 3 =
        (freeFin (generateNoLoops (fun k => 0) 4 3) 4 3).card - 1 ∧
      0 < (freeFin (generateNoLoops (fun k => 0) 4 3) 4 3).card) :=
  ⟨⟨by decide, by decide, Or.inr (by decide)⟩,
    (c9_spanning_tree (fun k => 0) 4 3 (by decide) (by decide)
      (Or.inr (by decide))).2⟩

end MazeAlg
